import Mathlib

/-!
# Packet-forward middleware: genesis wire codec and fee computation

A shallow embedding of `router/types/genesis.pb.go` (the generated gogoproto
marshal / unmarshal code for `GenesisState`, `Params` and `InFlightPacket`)
together with theorems about it.

Conventions of the embedding

* A Go `[]byte` and a Go `string` are both `List Byte` (a Go string is an
  arbitrary byte sequence).
* Go `int` indices that are written to (`i` in the marshal code) are `Int`, so
  that a decrement below zero is visible; every write and every slice is
  checked and a failed check is the run-time panic `Err.indexOutOfRange`.
* Unsigned machine words are `Nat` bit patterns reduced `% 2 ^ w`; a signed
  reading of a pattern is taken with `toInt32` / `negInt64`.
* Pointer-receiver methods are state passing: `Unmarshal` returns the receiver
  as the call leaves it together with the error, if any.
* Loops are structural recursions on a fuel argument; the entry points pass
  enough fuel and `Err.outOfFuel` marks exhaustion.
* Ranging over a Go map has no defined order: the functions that range take
  the enumeration (a list of keys) as an argument.
-/

namespace PFM

/-- A byte. -/
abbrev Byte := Fin 256

/-- Errors of the codec, one constructor per error value or message of the source. -/
inductive Err where
  /-- The value `ErrInvalidLengthGenesis`. -/
  | ErrInvalidLengthGenesis
  /-- The value `ErrIntOverflowGenesis`. -/
  | ErrIntOverflowGenesis
  /-- The value `ErrUnexpectedEndOfGroupGenesis`. -/
  | ErrUnexpectedEndOfGroupGenesis
  /-- The value `io.ErrUnexpectedEOF`. -/
  | ErrUnexpectedEOF
  /-- The message "wiretype end group for non-group". -/
  | endGroupForNonGroup
  /-- The message "illegal tag %d (wire type %d)". -/
  | illegalTag (fieldNum : Int) (wire : Nat)
  /-- The message "proto: wrong wireType = %d for field ...", with the field number. -/
  | wrongWireType (wireType : Nat) (field : Nat)
  /-- The message "proto: illegal wireType %d". -/
  | illegalWireType (wireType : Nat)
  /-- An error returned by the external decimal type. -/
  | external (code : Nat)
  /-- A run-time panic: index or slice bounds out of range. -/
  | indexOutOfRange
  /-- The fuel of a loop of the embedding ran out. -/
  | outOfFuel
  deriving DecidableEq, Repr

/-- The record of one outstanding forwarded transfer (`type InFlightPacket struct`). -/
structure InFlightPacket where
  OriginalSenderAddress : List Byte
  RefundChannelId : List Byte
  RefundPortId : List Byte
  RetriesRemaining : Int
  Timeout : Nat
  deriving DecidableEq, Repr

/-- The zero value `InFlightPacket{}`. -/
def InFlightPacket.zero : InFlightPacket := ⟨[], [], [], 0, 0⟩

/-- The values a Go `InFlightPacket` can hold: the three strings are in memory
together, so their lengths add up to less than `2 ^ 62`; `RetriesRemaining` is
an `int32` and `Timeout` a `uint64`. -/
def InFlightPacket.WF (m : InFlightPacket) : Prop :=
  m.OriginalSenderAddress.length + m.RefundChannelId.length + m.RefundPortId.length < 2 ^ 62 ∧
  (-(2 : Int) ^ 31 ≤ m.RetriesRemaining ∧ m.RetriesRemaining < 2 ^ 31) ∧
  m.Timeout < 2 ^ 64

/-- The conversion `uint64(x)` of a non-negative Go integer. -/
def uint64 (x : Nat) : Nat := x % 2 ^ 64

/-- The conversion `uint64(x)` of a signed Go integer (sign extension). -/
def uint64OfInt (x : Int) : Nat := (x % 2 ^ 64).toNat

/-- The signed reading of a 32-bit pattern (`int32`). -/
def toInt32 (n : Nat) : Int := if n % 2 ^ 32 < 2 ^ 31 then (n % 2 ^ 32 : Nat) else (n % 2 ^ 32 : Nat) - 2 ^ 32

/-- A 64-bit pattern read as `int` is negative. -/
def negInt64 (n : Nat) : Bool := decide (2 ^ 63 ≤ n % 2 ^ 64)

/-- Number of bits needed to write `x`, by halving (at most `fuel` bits). -/
def bitLen : Nat → Nat → Nat
  | 0, _ => 0
  | fuel + 1, x => if x = 0 then 0 else bitLen fuel (x / 2) + 1

/-- The function `math/bits.Len64` of the Go standard library, by its
documentation: the minimum number of bits required to represent a `uint64`
(0 for 0). -/
def Len64 (x : Nat) : Nat := bitLen 64 (x % 2 ^ 64)

/-- The function `sovGenesis`: `(math_bits.Len64(x|1) + 6) / 7`. -/
def sovGenesis (x : Nat) : Nat := (Len64 (x ||| 1) + 6) / 7

/-- The assignment `dAtA[i] = b`. -/
def setByte (dAtA : List Byte) (i : Int) (b : Byte) : Except Err (List Byte) :=
  if 0 ≤ i ∧ i < dAtA.length then .ok (dAtA.set i.toNat b) else .error .indexOutOfRange

/-- The statement `copy(dAtA[i:], s)`: slicing panics outside `0..len`, and
`copy` writes `min(len(dAtA[i:]), len(s))` bytes. -/
def copyAt (dAtA : List Byte) (i : Int) (s : List Byte) : Except Err (List Byte) :=
  if 0 ≤ i ∧ i ≤ dAtA.length then
    .ok (dAtA.take i.toNat ++ s.take (dAtA.length - i.toNat) ++
      dAtA.drop (i.toNat + min (dAtA.length - i.toNat) s.length))
  else .error .indexOutOfRange

/-- The byte `uint8(x)`. -/
def uint8 (x : Nat) : Byte := ⟨x % 256, Nat.mod_lt _ (by decide)⟩

/-- The loop of `encodeVarintGenesis` followed by its last write:
`for v >= 1<<7 { dAtA[offset] = uint8(v&0x7f | 0x80); v >>= 7; offset++ }; dAtA[offset] = uint8(v)`. -/
def encodeVarintLoop : Nat → List Byte → Int → Nat → Except Err (List Byte)
  | 0, _, _, _ => .error .outOfFuel
  | fuel + 1, dAtA, offset, v =>
    if v ≥ 1 <<< 7 then
      match setByte dAtA offset (uint8 (v &&& 0x7f ||| 0x80)) with
      | .error e => .error e
      | .ok dAtA => encodeVarintLoop fuel dAtA (offset + 1) (v >>> 7)
    else setByte dAtA offset (uint8 v)

/-- The function `encodeVarintGenesis(dAtA, offset, v)`; returns the buffer and `base`.
A `uint64` has at most ten 7-bit groups, so ten rounds of the loop suffice. -/
def encodeVarintGenesis (dAtA : List Byte) (offset : Int) (v : Nat) : Except Err (List Byte × Int) :=
  let offset := offset - sovGenesis v
  let base := offset
  match encodeVarintLoop 10 dAtA offset v with
  | .error e => .error e
  | .ok dAtA => .ok (dAtA, base)

/-- One varint field of `MarshalToSizedBuffer`:
`i = encodeVarintGenesis(dAtA, i, v); i--; dAtA[i] = tag`. -/
def putVarintField (dAtA : List Byte) (i : Int) (tag : Byte) (v : Nat) : Except Err (List Byte × Int) :=
  match encodeVarintGenesis dAtA i v with
  | .error e => .error e
  | .ok (dAtA, i) =>
    let i := i - 1
    match setByte dAtA i tag with
    | .error e => .error e
    | .ok dAtA => .ok (dAtA, i)

/-- One string field of `MarshalToSizedBuffer`:
`i -= len(s); copy(dAtA[i:], s); i = encodeVarintGenesis(dAtA, i, uint64(len(s))); i--; dAtA[i] = tag`. -/
def putBytesField (dAtA : List Byte) (i : Int) (tag : Byte) (s : List Byte) : Except Err (List Byte × Int) :=
  let i := i - s.length
  match copyAt dAtA i s with
  | .error e => .error e
  | .ok dAtA => putVarintField dAtA i tag (uint64 s.length)

/-- Sequencing of two steps of a marshal routine: the second runs on the buffer
and the write index the first leaves, unless the first failed. -/
def andThen (r : Except Err (List Byte × Int)) (k : List Byte → Int → Except Err (List Byte × Int)) :
    Except Err (List Byte × Int) :=
  match r with
  | .error e => .error e
  | .ok (dAtA, i) => k dAtA i

/-- The method `(*InFlightPacket).MarshalToSizedBuffer`: fills `dAtA` from its end
and returns the buffer with the number of bytes written. -/
def InFlightPacket.MarshalToSizedBuffer (m : InFlightPacket) (dAtA : List Byte) :
    Except Err (List Byte × Int) :=
  let i : Int := dAtA.length
  andThen (if m.Timeout ≠ 0 then putVarintField dAtA i 0x28 (uint64 m.Timeout) else .ok (dAtA, i))
    fun dAtA i =>
  andThen (if m.RetriesRemaining ≠ 0 then putVarintField dAtA i 0x20 (uint64OfInt m.RetriesRemaining)
    else .ok (dAtA, i)) fun dAtA i =>
  andThen (if m.RefundPortId.length > 0 then putBytesField dAtA i 0x1a m.RefundPortId else .ok (dAtA, i))
    fun dAtA i =>
  andThen (if m.RefundChannelId.length > 0 then putBytesField dAtA i 0x12 m.RefundChannelId
    else .ok (dAtA, i)) fun dAtA i =>
  andThen (if m.OriginalSenderAddress.length > 0 then putBytesField dAtA i 0xa m.OriginalSenderAddress
    else .ok (dAtA, i)) fun dAtA i =>
  .ok (dAtA, (dAtA.length : Int) - i)

/-- The method `(*InFlightPacket).Size`. -/
def InFlightPacket.Size (m : InFlightPacket) : Nat :=
  let n := 0
  let l := m.OriginalSenderAddress.length
  let n := if l > 0 then n + (1 + l + sovGenesis (uint64 l)) else n
  let l := m.RefundChannelId.length
  let n := if l > 0 then n + (1 + l + sovGenesis (uint64 l)) else n
  let l := m.RefundPortId.length
  let n := if l > 0 then n + (1 + l + sovGenesis (uint64 l)) else n
  let n := if m.RetriesRemaining ≠ 0 then n + (1 + sovGenesis (uint64OfInt m.RetriesRemaining)) else n
  let n := if m.Timeout ≠ 0 then n + (1 + sovGenesis (uint64 m.Timeout)) else n
  n

/-- The slice expression `dAtA[:n]`. -/
def sliceTo (dAtA : List Byte) (n : Int) : Except Err (List Byte) :=
  if 0 ≤ n ∧ n ≤ dAtA.length then .ok (dAtA.take n.toNat) else .error .indexOutOfRange

/-- The method `(*InFlightPacket).Marshal`:
`size := m.Size(); dAtA = make([]byte, size); n, err := m.MarshalToSizedBuffer(dAtA[:size]); return dAtA[:n]`. -/
def InFlightPacket.Marshal (m : InFlightPacket) : Except Err (List Byte) :=
  let size := m.Size
  let dAtA : List Byte := List.replicate size 0
  match m.MarshalToSizedBuffer dAtA with
  | .error e => .error e
  | .ok (dAtA, n) => sliceTo dAtA n

/-- The base-128 varint of `v`, least significant group first (`fuel + 1` groups at most). -/
def varintBytes : Nat → Nat → List Byte
  | 0, v => [uint8 v]
  | fuel + 1, v => if v < 128 then [uint8 v] else uint8 (v % 128 + 128) :: varintBytes fuel (v / 128)

/-- The varint of a `uint64`: at most ten groups. -/
def varint (v : Nat) : List Byte := varintBytes 9 v

/-! ### Decoding -/

/-- The varint loop that the generated code inlines at every read:
`for shift := uint(0); ; shift += 7 { if shift >= 64 { overflow }; if iNdEx >= l { EOF };
b := dAtA[iNdEx]; iNdEx++; x |= T(b&0x7F) << shift; if b < 0x80 { break } }`
where `T` is a `w`-bit integer type. Returns the accumulator as the loop leaves
it, with the next index or the error. -/
def decodeVarint (w : Nat) (dAtA : List Byte) (l : Nat) : Nat → Nat → Nat → Nat → Nat × Except Err Nat
  | 0, _, _, acc => (acc, .error .outOfFuel)
  | fuel + 1, shift, iNdEx, acc =>
    if shift ≥ 64 then (acc, .error .ErrIntOverflowGenesis)
    else if iNdEx ≥ l then (acc, .error .ErrUnexpectedEOF)
    else
      match dAtA[iNdEx]? with
      | none => (acc, .error .indexOutOfRange)
      | some b =>
        let acc := acc ||| (((b.val &&& 0x7F) <<< shift) % 2 ^ w)
        if b.val < 0x80 then (acc, .ok (iNdEx + 1))
        else decodeVarint w dAtA l fuel (shift + 7) (iNdEx + 1) acc

/-- Rounds of a varint loop: shifts 0, 7, .., 63 read a byte, shift 70 reports overflow. -/
def varintFuel : Nat := 11

/-- The slice expression `dAtA[lo:hi]`. -/
def slice (dAtA : List Byte) (lo hi : Nat) : Except Err (List Byte) :=
  if lo ≤ hi ∧ hi ≤ dAtA.length then .ok ((dAtA.take hi).drop lo) else .error .indexOutOfRange

/-- A length prefix and its bounds checks:
`var n; <varint loop>; if int(n) < 0 { invalid }; postIndex := iNdEx + int(n);
if postIndex < 0 { invalid }; if postIndex > l { EOF }`.
Returns the index after the prefix and `postIndex`. -/
def readLen (dAtA : List Byte) (l iNdEx : Nat) : Except Err (Nat × Nat) :=
  match decodeVarint 64 dAtA l varintFuel 0 iNdEx 0 with
  | (_, .error e) => .error e
  | (n, .ok iNdEx) =>
    if negInt64 n then .error .ErrInvalidLengthGenesis
    else
      let postIndex := (iNdEx + n) % 2 ^ 64
      if negInt64 postIndex then .error .ErrInvalidLengthGenesis
      else if postIndex > l then .error .ErrUnexpectedEOF
      else .ok (iNdEx, postIndex)

/-- A length-delimited field: the prefix, then `dAtA[iNdEx:postIndex]`; returns the
bytes and `postIndex`. -/
def readBytes (dAtA : List Byte) (l iNdEx : Nat) : Except Err (List Byte × Nat) :=
  match readLen dAtA l iNdEx with
  | .error e => .error e
  | .ok (iNdEx, postIndex) =>
    match slice dAtA iNdEx postIndex with
    | .error e => .error e
    | .ok s => .ok (s, postIndex)

/-- The loop of `skipGenesis`, from index `iNdEx` at nesting `depth`. -/
def skipGenesisLoop (dAtA : List Byte) (l : Nat) : Nat → Nat → Nat → Except Err Nat
  | 0, iNdEx, _ => if iNdEx < l then .error .outOfFuel else .error .ErrUnexpectedEOF
  | fuel + 1, iNdEx, depth =>
    if iNdEx < l then
      match decodeVarint 64 dAtA l varintFuel 0 iNdEx 0 with
      | (_, .error e) => .error e
      | (wire, .ok iNdEx) =>
        let wireType := wire &&& 0x7
        let step : Except Err (Nat × Nat) :=
          if wireType = 0 then
            match decodeVarint 64 dAtA l varintFuel 0 iNdEx 0 with
            | (_, .error e) => .error e
            | (_, .ok iNdEx) => .ok (iNdEx, depth)
          else if wireType = 1 then .ok ((iNdEx + 8) % 2 ^ 64, depth)
          else if wireType = 2 then
            match decodeVarint 64 dAtA l varintFuel 0 iNdEx 0 with
            | (_, .error e) => .error e
            | (length, .ok iNdEx) =>
              if negInt64 length then .error .ErrInvalidLengthGenesis
              else .ok ((iNdEx + length) % 2 ^ 64, depth)
          else if wireType = 3 then .ok (iNdEx, depth + 1)
          else if wireType = 4 then
            if depth = 0 then .error .ErrUnexpectedEndOfGroupGenesis else .ok (iNdEx, depth - 1)
          else if wireType = 5 then .ok ((iNdEx + 4) % 2 ^ 64, depth)
          else .error (.illegalWireType wireType)
        match step with
        | .error e => .error e
        | .ok (iNdEx, depth) =>
          if negInt64 iNdEx then .error .ErrInvalidLengthGenesis
          else if depth = 0 then .ok iNdEx
          else skipGenesisLoop dAtA l fuel iNdEx depth
    else .error .ErrUnexpectedEOF

/-- The function `skipGenesis`. Every round reads at least one byte, so
`len(dAtA)` rounds suffice. -/
def skipGenesis (dAtA : List Byte) : Except Err Nat :=
  skipGenesisLoop dAtA dAtA.length dAtA.length 0 0

/-- The `default:` arm of the field switches:
`iNdEx = preIndex; skippy, err := skipGenesis(dAtA[iNdEx:]); ...; iNdEx += skippy`,
with `limit` the bound the arm compares against. -/
def skipField (dAtA : List Byte) (preIndex limit : Nat) : Except Err Nat :=
  let iNdEx := preIndex
  match slice dAtA iNdEx dAtA.length with
  | .error e => .error e
  | .ok rest =>
    match skipGenesis rest with
    | .error e => .error e
    | .ok skippy =>
      if negInt64 skippy || negInt64 ((iNdEx + skippy) % 2 ^ 64) then .error .ErrInvalidLengthGenesis
      else if (iNdEx + skippy) % 2 ^ 64 > limit then .error .ErrUnexpectedEOF
      else .ok ((iNdEx + skippy) % 2 ^ 64)

/-- One round of the loop of `(*InFlightPacket).Unmarshal`: the tag and the field
it announces. Returns the receiver as the round leaves it, with the next index
or the error. -/
def InFlightPacket.unmarshalField (m : InFlightPacket) (dAtA : List Byte) (l iNdEx : Nat) :
    InFlightPacket × Except Err Nat :=
  let preIndex := iNdEx
  match decodeVarint 64 dAtA l varintFuel 0 iNdEx 0 with
  | (_, .error e) => (m, .error e)
  | (wire, .ok iNdEx) =>
    let fieldNum := toInt32 (wire >>> 3)
    let wireType := wire &&& 0x7
    if wireType = 4 then (m, .error .endGroupForNonGroup)
    else if fieldNum ≤ 0 then (m, .error (.illegalTag fieldNum wire))
    else if fieldNum = 1 then
      if wireType ≠ 2 then (m, .error (.wrongWireType wireType 1))
      else
        match readBytes dAtA l iNdEx with
        | .error e => (m, .error e)
        | .ok (s, iNdEx) => ({ m with OriginalSenderAddress := s }, .ok iNdEx)
    else if fieldNum = 2 then
      if wireType ≠ 2 then (m, .error (.wrongWireType wireType 2))
      else
        match readBytes dAtA l iNdEx with
        | .error e => (m, .error e)
        | .ok (s, iNdEx) => ({ m with RefundChannelId := s }, .ok iNdEx)
    else if fieldNum = 3 then
      if wireType ≠ 2 then (m, .error (.wrongWireType wireType 3))
      else
        match readBytes dAtA l iNdEx with
        | .error e => (m, .error e)
        | .ok (s, iNdEx) => ({ m with RefundPortId := s }, .ok iNdEx)
    else if fieldNum = 4 then
      if wireType ≠ 0 then (m, .error (.wrongWireType wireType 4))
      else
        match decodeVarint 32 dAtA l varintFuel 0 iNdEx 0 with
        | (x, r) => ({ m with RetriesRemaining := toInt32 x }, r)
    else if fieldNum = 5 then
      if wireType ≠ 0 then (m, .error (.wrongWireType wireType 5))
      else
        match decodeVarint 64 dAtA l varintFuel 0 iNdEx 0 with
        | (x, r) => ({ m with Timeout := x }, r)
    else
      match skipField dAtA preIndex l with
      | .error e => (m, .error e)
      | .ok iNdEx => (m, .ok iNdEx)

/-- The loop `for iNdEx < l { ... }` of `(*InFlightPacket).Unmarshal` and the check after it. -/
def InFlightPacket.unmarshalLoop (dAtA : List Byte) (l : Nat) :
    Nat → InFlightPacket → Nat → InFlightPacket × Option Err
  | 0, m, iNdEx =>
    if iNdEx < l then (m, some .outOfFuel)
    else if iNdEx > l then (m, some .ErrUnexpectedEOF) else (m, none)
  | fuel + 1, m, iNdEx =>
    if iNdEx < l then
      match m.unmarshalField dAtA l iNdEx with
      | (m, .error e) => (m, some e)
      | (m, .ok iNdEx) => InFlightPacket.unmarshalLoop dAtA l fuel m iNdEx
    else if iNdEx > l then (m, some .ErrUnexpectedEOF) else (m, none)

/-- The method `(*InFlightPacket).Unmarshal`: the receiver after the call and the
error, `none` for `nil`. Every round reads at least one byte, so `len(dAtA)`
rounds suffice. -/
def InFlightPacket.Unmarshal (m : InFlightPacket) (dAtA : List Byte) : InFlightPacket × Option Err :=
  InFlightPacket.unmarshalLoop dAtA dAtA.length dAtA.length m 0

/-! ### Params and GenesisState -/

/-- The external decimal type of `Params.FeePercentage` (`sdk.Dec`), which is not
part of this repository: its values and the three methods the generated code
calls on them. `MarshalTo` receives the slice `dAtA[i:]` and returns it as
written together with its `n`; `Unmarshal` returns the receiver as the call
leaves it together with the error. -/
structure DecCodec where
  Dec : Type
  zero : Dec
  Size : Dec → Nat
  MarshalTo : Dec → List Byte → Except Err (List Byte × Nat)
  Unmarshal : Dec → List Byte → Dec × Option Err

/-- The parameters (`type Params struct`). -/
structure Params (C : DecCodec) where
  FeePercentage : C.Dec

/-- A Go `map[string]InFlightPacket`: `none` is the nil map, `some es` a map
holding the entries `es` (each key at most once). -/
abbrev PacketMap := Option (List (List Byte × InFlightPacket))

/-- The snapshot (`type GenesisState struct`). -/
structure GenesisState (C : DecCodec) where
  Params : Params C
  InFlightPackets : PacketMap

/-- The zero value `GenesisState{}`. -/
def GenesisState.zero (C : DecCodec) : GenesisState C := ⟨⟨C.zero⟩, none⟩

/-- The index expression `mp[k]` with the comma-ok result. -/
def PacketMap.get (mp : PacketMap) (k : List Byte) : Option InFlightPacket :=
  match mp with
  | none => none
  | some es => es.lookup k

/-- The index expression `mp[k]`: the zero value for an absent key. -/
def PacketMap.index (mp : PacketMap) (k : List Byte) : InFlightPacket :=
  (mp.get k).getD InFlightPacket.zero

/-- The builtin `len(mp)`. -/
def PacketMap.len (mp : PacketMap) : Nat :=
  match mp with
  | none => 0
  | some es => es.length

/-- The assignment `mp[k] = v` on a non-nil map. -/
def insertEntry (k : List Byte) (v : InFlightPacket) (es : List (List Byte × InFlightPacket)) :
    List (List Byte × InFlightPacket) :=
  (k, v) :: es.filter (fun e => !(e.1 == k))

/-- The keys of a map, in the order the entries are stored. -/
def PacketMap.keys (mp : PacketMap) : List (List Byte) :=
  match mp with
  | none => []
  | some es => es.map Prod.fst

/-- A list of keys is an enumeration of the map: what `range` may produce, every
key once, in any order. -/
def PacketMap.Enumerates (mp : PacketMap) (ks : List (List Byte)) : Prop :=
  ks.Perm mp.keys

/-- The map is well formed: no key twice, and every key and record is a Go value
(a key is a string in memory, shorter than `2 ^ 62` bytes). -/
def PacketMap.WF (mp : PacketMap) : Prop :=
  mp.keys.Nodup ∧ ∀ k v, mp.get k = some v → k.length < 2 ^ 62 ∧ v.WF

/-- The slice expression `dAtA[i:]`. -/
def sliceFrom (dAtA : List Byte) (i : Int) : Except Err (List Byte) :=
  if 0 ≤ i ∧ i ≤ dAtA.length then .ok (dAtA.drop i.toNat) else .error .indexOutOfRange

/-- The method `(*Params).MarshalToSizedBuffer`. -/
def Params.MarshalToSizedBuffer {C : DecCodec} (m : Params C) (dAtA : List Byte) :
    Except Err (List Byte × Int) :=
  let i : Int := dAtA.length
  let size := C.Size m.FeePercentage
  let i := i - size
  match sliceFrom dAtA i with
  | .error e => .error e
  | .ok tail =>
    match C.MarshalTo m.FeePercentage tail with
    | .error e => .error e
    | .ok (tail, _) =>
      let dAtA := dAtA.take i.toNat ++ tail
      match putVarintField dAtA i 0xa (uint64 size) with
      | .error e => .error e
      | .ok (dAtA, i) => .ok (dAtA, (dAtA.length : Int) - i)

/-- The method `(*Params).Size`. -/
def Params.Size {C : DecCodec} (m : Params C) : Nat :=
  let l := C.Size m.FeePercentage
  1 + l + sovGenesis (uint64 l)

/-- A call `x.MarshalToSizedBuffer(dAtA[:i])` followed by
`i -= size; i = encodeVarintGenesis(dAtA, i, uint64(size))`: the callee writes
into the first `i` bytes of the caller's buffer. -/
def putNested (f : List Byte → Except Err (List Byte × Int)) (dAtA : List Byte) (i : Int) :
    Except Err (List Byte × Int) :=
  match sliceTo dAtA i with
  | .error e => .error e
  | .ok front =>
    match f front with
    | .error e => .error e
    | .ok (front, size) =>
      let dAtA := front ++ dAtA.drop i.toNat
      let i := i - size
      encodeVarintGenesis dAtA i (uint64OfInt size)

/-- The statements `i--; dAtA[i] = tag`. -/
def putTag (dAtA : List Byte) (i : Int) (tag : Byte) : Except Err (List Byte × Int) :=
  let i := i - 1
  match setByte dAtA i tag with
  | .error e => .error e
  | .ok dAtA => .ok (dAtA, i)

/-- The body of `for k := range m.InFlightPackets` in
`(*GenesisState).MarshalToSizedBuffer`, for the key `k`. -/
def marshalEntry (mp : PacketMap) (k : List Byte) (dAtA : List Byte) (i : Int) :
    Except Err (List Byte × Int) :=
  let v := mp.index k
  let baseI := i
  andThen (putNested v.MarshalToSizedBuffer dAtA i) fun dAtA i =>
  andThen (putTag dAtA i 0x12) fun dAtA i =>
  andThen (putBytesField dAtA i 0xa k) fun dAtA i =>
  putVarintField dAtA i 0x12 (uint64OfInt (baseI - i))

/-- The loop `for k := range m.InFlightPackets` over the enumeration `ks`. -/
def marshalEntries (mp : PacketMap) : List (List Byte) → List Byte → Int → Except Err (List Byte × Int)
  | [], dAtA, i => .ok (dAtA, i)
  | k :: ks, dAtA, i => andThen (marshalEntry mp k dAtA i) (marshalEntries mp ks)

/-- The method `(*GenesisState).MarshalToSizedBuffer`, the map being ranged over
in the order `ks`. -/
def GenesisState.MarshalToSizedBuffer {C : DecCodec} (m : GenesisState C) (ks : List (List Byte))
    (dAtA : List Byte) : Except Err (List Byte × Int) :=
  let i : Int := dAtA.length
  andThen (if m.InFlightPackets.len > 0 then marshalEntries m.InFlightPackets ks dAtA i else .ok (dAtA, i))
    fun dAtA i =>
  andThen (putNested m.Params.MarshalToSizedBuffer dAtA i) fun dAtA i =>
  andThen (putTag dAtA i 0xa) fun dAtA i =>
  .ok (dAtA, (dAtA.length : Int) - i)

/-- The size one map entry adds in `(*GenesisState).Size`. -/
def entrySize (k : List Byte) (v : InFlightPacket) : Nat :=
  let l := v.Size
  let mapEntrySize := 1 + k.length + sovGenesis (uint64 k.length) + 1 + l + sovGenesis (uint64 l)
  mapEntrySize + 1 + sovGenesis (uint64 mapEntrySize)

/-- The method `(*GenesisState).Size`, the map being ranged over in the order `ks`.
The sum is the Go `int` as long as it stays below `2^63`, which the claims about
`Size` and `Marshal` of a snapshot assume. -/
def GenesisState.Size {C : DecCodec} (m : GenesisState C) (ks : List (List Byte)) : Nat :=
  let l := m.Params.Size
  let n := 1 + l + sovGenesis (uint64 l)
  if m.InFlightPackets.len > 0 then
    ks.foldl (fun n k => n + entrySize k (m.InFlightPackets.index k)) n
  else n

/-- The method `(*GenesisState).Marshal`; `ks₁` is the order in which `Size` ranges
over the map and `ks₂` the order in which `MarshalToSizedBuffer` does. -/
def GenesisState.Marshal {C : DecCodec} (m : GenesisState C) (ks₁ ks₂ : List (List Byte)) :
    Except Err (List Byte) :=
  let size := m.Size ks₁
  let dAtA : List Byte := List.replicate size 0
  match m.MarshalToSizedBuffer ks₂ dAtA with
  | .error e => .error e
  | .ok (dAtA, n) => sliceTo dAtA n

/-- One round of the loop of `(*Params).Unmarshal`. -/
def Params.unmarshalField {C : DecCodec} (m : Params C) (dAtA : List Byte) (l iNdEx : Nat) :
    Params C × Except Err Nat :=
  let preIndex := iNdEx
  match decodeVarint 64 dAtA l varintFuel 0 iNdEx 0 with
  | (_, .error e) => (m, .error e)
  | (wire, .ok iNdEx) =>
    let fieldNum := toInt32 (wire >>> 3)
    let wireType := wire &&& 0x7
    if wireType = 4 then (m, .error .endGroupForNonGroup)
    else if fieldNum ≤ 0 then (m, .error (.illegalTag fieldNum wire))
    else if fieldNum = 1 then
      if wireType ≠ 2 then (m, .error (.wrongWireType wireType 1))
      else
        match readBytes dAtA l iNdEx with
        | .error e => (m, .error e)
        | .ok (s, iNdEx) =>
          match C.Unmarshal m.FeePercentage s with
          | (d, some e) => ({ m with FeePercentage := d }, .error e)
          | (d, none) => ({ m with FeePercentage := d }, .ok iNdEx)
    else
      match skipField dAtA preIndex l with
      | .error e => (m, .error e)
      | .ok iNdEx => (m, .ok iNdEx)

/-- The loop of `(*Params).Unmarshal` and the check after it. -/
def Params.unmarshalLoop {C : DecCodec} (dAtA : List Byte) (l : Nat) :
    Nat → Params C → Nat → Params C × Option Err
  | 0, m, iNdEx =>
    if iNdEx < l then (m, some .outOfFuel)
    else if iNdEx > l then (m, some .ErrUnexpectedEOF) else (m, none)
  | fuel + 1, m, iNdEx =>
    if iNdEx < l then
      match m.unmarshalField dAtA l iNdEx with
      | (m, .error e) => (m, some e)
      | (m, .ok iNdEx) => Params.unmarshalLoop dAtA l fuel m iNdEx
    else if iNdEx > l then (m, some .ErrUnexpectedEOF) else (m, none)

/-- The method `(*Params).Unmarshal`. -/
def Params.Unmarshal {C : DecCodec} (m : Params C) (dAtA : List Byte) : Params C × Option Err :=
  Params.unmarshalLoop dAtA dAtA.length dAtA.length m 0

/-- One round of the inner loop `for iNdEx < postIndex` that reads a map entry:
the entry tag and then the key (field 1), the value (field 2) or a skipped field. -/
def entryField (dAtA : List Byte) (l postIndex : Nat) (mapkey : List Byte) (mapvalue : InFlightPacket)
    (iNdEx : Nat) : Except Err (List Byte × InFlightPacket × Nat) :=
  let entryPreIndex := iNdEx
  match decodeVarint 64 dAtA l varintFuel 0 iNdEx 0 with
  | (_, .error e) => .error e
  | (wire, .ok iNdEx) =>
    let fieldNum := toInt32 (wire >>> 3)
    if fieldNum = 1 then
      match readBytes dAtA l iNdEx with
      | .error e => .error e
      | .ok (s, iNdEx) => .ok (s, mapvalue, iNdEx)
    else if fieldNum = 2 then
      match readBytes dAtA l iNdEx with
      | .error e => .error e
      | .ok (s, iNdEx) =>
        match InFlightPacket.zero.Unmarshal s with
        | (_, some e) => .error e
        | (v, none) => .ok (mapkey, v, iNdEx)
    else
      match skipField dAtA entryPreIndex postIndex with
      | .error e => .error e
      | .ok iNdEx => .ok (mapkey, mapvalue, iNdEx)

/-- The inner loop `for iNdEx < postIndex { ... }`; returns `mapkey` and `mapvalue`. -/
def entryLoop (dAtA : List Byte) (l postIndex : Nat) :
    Nat → List Byte → InFlightPacket → Nat → Except Err (List Byte × InFlightPacket)
  | 0, mapkey, mapvalue, iNdEx =>
    if iNdEx < postIndex then .error .outOfFuel else .ok (mapkey, mapvalue)
  | fuel + 1, mapkey, mapvalue, iNdEx =>
    if iNdEx < postIndex then
      match entryField dAtA l postIndex mapkey mapvalue iNdEx with
      | .error e => .error e
      | .ok (mapkey, mapvalue, iNdEx) => entryLoop dAtA l postIndex fuel mapkey mapvalue iNdEx
    else .ok (mapkey, mapvalue)

/-- One round of the loop of `(*GenesisState).Unmarshal`. -/
def GenesisState.unmarshalField {C : DecCodec} (m : GenesisState C) (dAtA : List Byte) (l iNdEx : Nat) :
    GenesisState C × Except Err Nat :=
  let preIndex := iNdEx
  match decodeVarint 64 dAtA l varintFuel 0 iNdEx 0 with
  | (_, .error e) => (m, .error e)
  | (wire, .ok iNdEx) =>
    let fieldNum := toInt32 (wire >>> 3)
    let wireType := wire &&& 0x7
    if wireType = 4 then (m, .error .endGroupForNonGroup)
    else if fieldNum ≤ 0 then (m, .error (.illegalTag fieldNum wire))
    else if fieldNum = 1 then
      if wireType ≠ 2 then (m, .error (.wrongWireType wireType 1))
      else
        match readBytes dAtA l iNdEx with
        | .error e => (m, .error e)
        | .ok (s, postIndex) =>
          match m.Params.Unmarshal s with
          | (p, some e) => ({ m with Params := p }, .error e)
          | (p, none) => ({ m with Params := p }, .ok postIndex)
    else if fieldNum = 2 then
      if wireType ≠ 2 then (m, .error (.wrongWireType wireType 2))
      else
        match readLen dAtA l iNdEx with
        | .error e => (m, .error e)
        | .ok (iNdEx, postIndex) =>
          let es := match m.InFlightPackets with
            | none => []
            | some es => es
          let m := { m with InFlightPackets := some es }
          match entryLoop dAtA l postIndex (postIndex - iNdEx) [] InFlightPacket.zero iNdEx with
          | .error e => (m, .error e)
          | .ok (mapkey, mapvalue) =>
            ({ m with InFlightPackets := some (insertEntry mapkey mapvalue es) }, .ok postIndex)
    else
      match skipField dAtA preIndex l with
      | .error e => (m, .error e)
      | .ok iNdEx => (m, .ok iNdEx)

/-- The loop of `(*GenesisState).Unmarshal` and the check after it. -/
def GenesisState.unmarshalLoop {C : DecCodec} (dAtA : List Byte) (l : Nat) :
    Nat → GenesisState C → Nat → GenesisState C × Option Err
  | 0, m, iNdEx =>
    if iNdEx < l then (m, some .outOfFuel)
    else if iNdEx > l then (m, some .ErrUnexpectedEOF) else (m, none)
  | fuel + 1, m, iNdEx =>
    if iNdEx < l then
      match m.unmarshalField dAtA l iNdEx with
      | (m, .error e) => (m, some e)
      | (m, .ok iNdEx) => GenesisState.unmarshalLoop dAtA l fuel m iNdEx
    else if iNdEx > l then (m, some .ErrUnexpectedEOF) else (m, none)

/-- The method `(*GenesisState).Unmarshal`: the receiver after the call and the
error, `none` for `nil`. -/
def GenesisState.Unmarshal {C : DecCodec} (m : GenesisState C) (dAtA : List Byte) :
    GenesisState C × Option Err :=
  GenesisState.unmarshalLoop dAtA dAtA.length dAtA.length m 0

/-- A decimal type that keeps the text it was given: `Size` is the length of the
text, `MarshalTo` copies it and `Unmarshal` stores what it reads. It stands
for the external type in the examples. -/
def textDec : DecCodec where
  Dec := List Byte
  zero := []
  Size := fun d => d.length
  MarshalTo := fun d buf => .ok (d.take buf.length ++ buf.drop d.length, min d.length buf.length)
  Unmarshal := fun _ s => (s, none)

/-! ### The wire layout, as the specification words it -/

/-- A length-delimited field on the wire: nothing for the empty string, else the
tag byte, the varint of the byte length, then the bytes. -/
def bytesField (tag : Byte) (s : List Byte) : List Byte :=
  if s.length > 0 then tag :: varint s.length ++ s else []

/-- The wire layout of a record: its non-zero fields in ascending field-number order. -/
def InFlightPacket.wire (m : InFlightPacket) : List Byte :=
  bytesField 0x0a m.OriginalSenderAddress ++ bytesField 0x12 m.RefundChannelId ++
  bytesField 0x1a m.RefundPortId ++
  (if m.RetriesRemaining ≠ 0 then 0x20 :: varint (uint64OfInt m.RetriesRemaining) else []) ++
  (if m.Timeout ≠ 0 then 0x28 :: varint m.Timeout else [])

/-- A step of a marshal routine writes the bytes `bs` just below the write index
`i`, moves the index down by their number and touches nothing else. -/
def Writes (f : List Byte → Int → Except Err (List Byte × Int)) (bs : List Byte) : Prop :=
  ∀ X post : List Byte, bs.length ≤ X.length →
    f (X ++ post) (X.length : Int)
      = .ok (X.take (X.length - bs.length) ++ bs ++ post, ((X.length - bs.length : Nat) : Int))

/-- The rest of a marshal routine writes the bytes `bs` just below the write index
and returns the number of bytes between the index it reaches and the end of
the buffer. -/
def Finishes (k : List Byte → Int → Except Err (List Byte × Int)) (bs : List Byte) : Prop :=
  ∀ X post : List Byte, bs.length ≤ X.length →
    k (X ++ post) (X.length : Int)
      = .ok (X.take (X.length - bs.length) ++ bs ++ post, ((bs.length + post.length : Nat) : Int))

/-- The bytes the external `MarshalTo` writes for `d`: what it leaves in a
zeroed buffer of `Size` bytes. -/
def DecCodec.text (C : DecCodec) (d : C.Dec) : List Byte :=
  match C.MarshalTo d (List.replicate (C.Size d) 0) with
  | .ok (b, _) => b
  | .error _ => []

/-- The external `Size` and `MarshalTo` agree on the value `d`: `Size` is the
length of a text in memory (less than `2 ^ 62`), and `MarshalTo` writes exactly
`Size` bytes, the same whatever the buffer held, at the front of the slice it
is given and leaves the rest. -/
def DecCodec.Marshals (C : DecCodec) (d : C.Dec) : Prop :=
  C.Size d < 2 ^ 62 ∧ (C.text d).length = C.Size d ∧
  ∀ buf : List Byte, C.Size d ≤ buf.length →
    C.MarshalTo d buf = .ok (C.text d ++ buf.drop (C.Size d), C.Size d)

/-- The external `Unmarshal` reads back what `MarshalTo` wrote for `d`, into a
zero-valued receiver. -/
def DecCodec.RoundTrips (C : DecCodec) (d : C.Dec) : Prop :=
  C.Unmarshal C.zero (C.text d) = (d, none)

/-- The wire layout of the parameters: field 1 holding the text of the decimal. -/
def Params.wire {C : DecCodec} (p : Params C) : List Byte :=
  0x0a :: varint (C.Size p.FeePercentage) ++ C.text p.FeePercentage

/-- The wire layout of one map entry: a field-2 record holding the key as its
field 1 and the record as its field 2, both always present. -/
def entryWire (k : List Byte) (v : InFlightPacket) : List Byte :=
  let body := (0x0a :: varint k.length ++ k) ++ (0x12 :: varint v.wire.length ++ v.wire)
  0x12 :: varint body.length ++ body

/-- The wire layout of the map entries for the keys `ks`, in that order. -/
def entriesWire (mp : PacketMap) (ks : List (List Byte)) : List Byte :=
  (ks.map fun k => entryWire k (mp.index k)).flatten

/-- The wire layout of the snapshot: field 1 holding the parameters, then the
entries for the keys `ks`. -/
def GenesisState.wire {C : DecCodec} (g : GenesisState C) (ks : List (List Byte)) : List Byte :=
  (0x0a :: varint g.Params.wire.length ++ g.Params.wire) ++ entriesWire g.InFlightPackets ks

/-- The snapshot is well formed: the external decimal marshals its value, and the
map is well formed. -/
def GenesisState.WF {C : DecCodec} (g : GenesisState C) : Prop :=
  C.Marshals g.Params.FeePercentage ∧ g.InFlightPackets.WF

/-- The wire layout of a snapshot holding the parameters `p` and the entries
`es`, one field-2 record per entry, in the order of the list (a key may occur
more than once in such a byte string). -/
def snapshotWire {C : DecCodec} (p : Params C) (es : List (List Byte × InFlightPacket)) : List Byte :=
  (0x0a :: varint p.wire.length ++ p.wire) ++ (es.map fun e => entryWire e.1 e.2).flatten

/-- The map after the assignments `mp[k] = v` for the entries `es`, in the order
of the list; the nil map is allocated at the first entry. -/
def applyEntries (mp : PacketMap) (es : List (List Byte × InFlightPacket)) : PacketMap :=
  es.foldl (fun mp e => some (insertEntry e.1 e.2 (mp.getD []))) mp

/-! ### The fee computation -/

/-- Modelled from the spec: `computeFee(amount, feePercentage)` of the fee
calculator, which is absent from the sources. The rate is a fixed-point decimal
`units / scale` (for `sdk.Dec`, `scale = 10 ^ 18`); the product is exact, the fee
is the product truncated toward zero, and the net amount is `amount - fee` by
exact subtraction. Returns `(fee, netAmount)`. -/
def computeFee (scale : Nat) (amount : Int) (units : Nat) : Int × Int :=
  let fee := (amount * (units : Int)).tdiv (scale : Int)
  (fee, amount - fee)

/-! ### Values used in the examples -/

/-- A record with two non-empty strings, a negative counter and a timeout. -/
def exPacket : InFlightPacket := ⟨[1, 2], [], [3], -1, 300⟩

/-- A snapshot with two entries. -/
def exGenesis : GenesisState textDec := ⟨⟨[0x30]⟩, some [([7], exPacket), ([8, 9], InFlightPacket.zero)]⟩

/-- A snapshot with one entry. -/
def exGenesisOne : GenesisState textDec := ⟨⟨[0x30]⟩, some [([7], exPacket)]⟩

/-- A receiver that already holds an entry, under another key. -/
def exPrior : GenesisState textDec := ⟨⟨[]⟩, some [([9], InFlightPacket.zero)]⟩

/-- A record whose timeout is 1. -/
def exLater : InFlightPacket := ⟨[], [], [], 0, 1⟩

/-- A snapshot byte string: the parameters, then two entries that both carry the key `[7]`. -/
def dupBytes : List Byte :=
  [0x0a, 0x03, 0x0a, 0x01, 0x30,
   0x12, 0x05, 0x0a, 0x01, 0x07, 0x12, 0x00,
   0x12, 0x07, 0x0a, 0x01, 0x07, 0x12, 0x02, 0x28, 0x01]

/-- A valid empty-keyed entry followed by a tag byte that is cut off. -/
def truncBytes : List Byte := [0x12, 0x00, 0x80]

/-- A record whose field 4 holds the varint of `2 ^ 32 - 1`. -/
def negBytes : List Byte := [0x20, 0xff, 0xff, 0xff, 0xff, 0x0f]

/-- The bytes `Marshal` produces for the one-entry snapshot. -/
def exOneBytes : List Byte :=
  [0x0a, 0x03, 0x0a, 0x01, 0x30, 0x12, 0x1a, 0x0a, 0x01, 0x07, 0x12, 0x15, 0x0a, 0x02, 0x01, 0x02,
   0x1a, 0x01, 0x03, 0x20, 0xff, 0xff, 0xff, 0xff, 0xff, 0xff, 0xff, 0xff, 0xff, 0x01, 0x28, 0xac, 0x02]

/-! ### Outcomes of the decoders -/

/-- The error is one the source returns: not a run-time panic, and not the
exhaustion of the fuel of a loop of the embedding. -/
def Err.returned : Err → Bool
  | .outOfFuel => false
  | .indexOutOfRange => false
  | _ => true

/-- A read that started at index `i` of a buffer of length `l` either returned an
error of the source or moved the index forward, to at most `l`. -/
def StepOK (l i : Nat) (r : Except Err Nat) : Prop :=
  match r with
  | .error e => e.returned = true
  | .ok i' => i < i' ∧ i' ≤ l

/-- A call returned `nil` or an error of the source. -/
def ResultOK (r : Option Err) : Prop :=
  ∀ e, r = some e → e.returned = true

/-- The `switch wireType` of one round of `skipGenesis`, after the tag `wire` was
read: the index and the depth the round leaves, or its error. -/
def skipStep (dAtA : List Byte) (l wire iNdEx depth : Nat) : Except Err (Nat × Nat) :=
  let wireType := wire &&& 0x7
  if wireType = 0 then
    match decodeVarint 64 dAtA l varintFuel 0 iNdEx 0 with
    | (_, .error e) => .error e
    | (_, .ok iNdEx) => .ok (iNdEx, depth)
  else if wireType = 1 then .ok ((iNdEx + 8) % 2 ^ 64, depth)
  else if wireType = 2 then
    match decodeVarint 64 dAtA l varintFuel 0 iNdEx 0 with
    | (_, .error e) => .error e
    | (length, .ok iNdEx) =>
      if negInt64 length then .error .ErrInvalidLengthGenesis
      else .ok ((iNdEx + length) % 2 ^ 64, depth)
  else if wireType = 3 then .ok (iNdEx, depth + 1)
  else if wireType = 4 then
    if depth = 0 then .error .ErrUnexpectedEndOfGroupGenesis else .ok (iNdEx, depth - 1)
  else if wireType = 5 then .ok ((iNdEx + 4) % 2 ^ 64, depth)
  else .error (.illegalWireType wireType)

/-! ### The fields of an encoded record -/

/-- The encoded fields of a record, one byte string per field in field-number
order; the encoding of the record is their concatenation, and a field that
holds its zero value is the empty byte string. -/
def InFlightPacket.fieldsWire (m : InFlightPacket) : List (List Byte) :=
  [bytesField 0x0a m.OriginalSenderAddress, bytesField 0x12 m.RefundChannelId,
   bytesField 0x1a m.RefundPortId,
   if m.RetriesRemaining ≠ 0 then 0x20 :: varint (uint64OfInt m.RetriesRemaining) else [],
   if m.Timeout ≠ 0 then 0x28 :: varint m.Timeout else []]

/-- A byte string is the encoding of one field of a record: empty (a zero value),
or a string field 1, 2 or 3, or the varint field 4 or 5. -/
def EncodedField (F : List Byte) : Prop :=
  F = [] ∨
  (∃ s : List Byte, s.length < 2 ^ 62 ∧
    (F = 0x0a :: varint s.length ++ s ∨ F = 0x12 :: varint s.length ++ s ∨
      F = 0x1a :: varint s.length ++ s)) ∨
  (∃ r : Int, (-(2 : Int) ^ 31 ≤ r ∧ r < 2 ^ 31) ∧ F = 0x20 :: varint (uint64OfInt r)) ∨
  (∃ v : Nat, v < 2 ^ 64 ∧ F = 0x28 :: varint v)

/-! ### The in-flight tracker and its outcome handler

The forwarding keeper and middleware (`router/keeper`, `router.IBCMiddleware`)
are not among the sources; only the test set-up that wires them
(`NewIBCMiddleware(app, k, retriesOnTimeout, forwardTimeout, refundTimeout)`) and
the mocks of their collaborators are. The definitions of this section follow
sections 3 to 7 of the specification; the record they keep is the
`InFlightPacket` of the sources, with its `int32` counter. -/

/-- Modelled from the spec: the outbound key `(channel, port, sequence)` under
which the in-flight store, which is missing from the sources, keeps a record. -/
structure OutboundKey where
  channel : List Byte
  port : List Byte
  sequence : Nat
  deriving DecidableEq, Repr

/-- Modelled from the spec: what the missing Forwarder sends in one dispatch,
the destination and the net amount of a denomination. A notification carries
the packet it is about, so that a retry can use the same destination and a
refund the originally forwarded amount. -/
structure Transfer where
  destinationChannel : List Byte
  destinationPort : List Byte
  amount : Nat
  denom : List Byte
  deriving DecidableEq, Repr

/-- Modelled from the spec: the outcomes the notification collaborator delivers. -/
inductive Outcome where
  | Success
  | Timeout
  | Error
  deriving DecidableEq, Repr

/-- Modelled from the spec: a notification `{key, outcome}` for the missing
outcome handler, with the packet it is about. -/
structure Notification where
  key : OutboundKey
  outcome : Outcome
  packet : Transfer
  deriving DecidableEq, Repr

/-- Modelled from the spec: a call the missing core makes to a collaborator that
moves funds, with the collaborator's answer: `send` to the transfer-execution
collaborator (the outbound key, or a failure), `refund` to the refund-execution
collaborator (completed or not). -/
inductive Call where
  | send (t : Transfer) (result : Option OutboundKey)
  | refund (originalSender refundChannel refundPort : List Byte) (amount : Nat) (denom : List Byte)
      (completed : Bool)
  deriving DecidableEq, Repr

/-- Modelled from the spec: the failures the missing core surfaces to its caller. -/
inductive Failure where
  | dispatchFailure
  | refundFailure
  deriving DecidableEq, Repr

/-- Modelled from the spec: what the collaborators answer during one
transaction of the missing core: the clock, the answer of the
transfer-execution collaborator to a dispatch, and whether a refund completes. -/
structure Env where
  now : Nat
  send : Option OutboundKey
  refundCompletes : Bool
  deriving DecidableEq, Repr

/-- Modelled from the spec: the state of the missing tracker, the in-flight store
of `InFlightPacket` records (`get` is application, a key without record gives
`none`) and the calls made to the funds-moving collaborators so far, latest
first. -/
structure Tracker where
  store : OutboundKey → Option InFlightPacket
  calls : List Call

/-- Modelled from the spec: `put(key, record)` of the missing in-flight store. -/
def storePut (store : OutboundKey → Option InFlightPacket) (k : OutboundKey)
    (r : InFlightPacket) : OutboundKey → Option InFlightPacket :=
  fun k' => if k' = k then some r else store k'

/-- Modelled from the spec: `delete(key)` of the missing in-flight store. -/
def storeDelete (store : OutboundKey → Option InFlightPacket) (k : OutboundKey) :
    OutboundKey → Option InFlightPacket :=
  fun k' => if k' = k then none else store k'

/-- Modelled from the spec: the dispatch of the missing Forwarder, after the fee
(which is fixed at the first dispatch and not recomputed on retry): move the
amount through the transfer-execution collaborator; on success write a record
at the returned outbound key with `retries_remaining = retriesAllowed` and
`timeout = now + forwardTimeout` (in the `uint64` field); on failure create no
record and surface the failure. -/
def dispatch (st : Tracker) (env : Env) (originalSender refundChannel refundPort : List Byte)
    (t : Transfer) (retriesAllowed : Int) (forwardTimeout : Nat) :
    Tracker × Except Failure OutboundKey :=
  match env.send with
  | none => ({ st with calls := Call.send t none :: st.calls }, .error .dispatchFailure)
  | some k =>
    ({ store := storePut st.store k
          ⟨originalSender, refundChannel, refundPort, retriesAllowed,
            uint64 (env.now + forwardTimeout)⟩,
       calls := Call.send t (some k) :: st.calls }, .ok k)

/-- Modelled from the spec: the missing OutcomeHandler, one notification in one
transaction. An absent key is a no-op. Success deletes the record. A timeout
or an error with retries left (`retries_remaining > 0`) dispatches again with
the counter decremented,
the same sender, refund channel, refund port and destination and a fresh
timeout, and deletes the old record only after the dispatch succeeded (a
failed dispatch leaves the store as it was and is surfaced). With no retries
left it calls the refund collaborator for the forwarded amount and deletes the
record whether or not the refund completes; a refund that does not complete
is surfaced. Returns the state and the failure surfaced, if any. -/
def outcomeHandler (forwardTimeout : Nat) (st : Tracker) (env : Env) (n : Notification) :
    Tracker × Option Failure :=
  match st.store n.key with
  | none => (st, none)
  | some r =>
    match n.outcome with
    | .Success => ({ st with store := storeDelete st.store n.key }, none)
    | _ =>
      if r.RetriesRemaining > 0 then
        match dispatch st env r.OriginalSenderAddress r.RefundChannelId r.RefundPortId n.packet
            (r.RetriesRemaining - 1) forwardTimeout with
        | (st', .error f) => ({ st with calls := st'.calls }, some f)
        | (st', .ok _) => ({ st' with store := storeDelete st'.store n.key }, none)
      else
        ({ store := storeDelete st.store n.key,
           calls := Call.refund r.OriginalSenderAddress r.RefundChannelId r.RefundPortId
             n.packet.amount
             n.packet.denom env.refundCompletes :: st.calls },
         if env.refundCompletes then none else some .refundFailure)

/-- Modelled from the spec: the missing core handling a sequence of
notifications, one transaction each, with the collaborators' answers. -/
def runHandler (forwardTimeout : Nat) (st : Tracker) : List (Env × Notification) → Tracker
  | [] => st
  | (env, n) :: rest => runHandler forwardTimeout (outcomeHandler forwardTimeout st env n).1 rest

/-- A store holding one record. -/
def exStore (k : OutboundKey) (r : InFlightPacket) : OutboundKey → Option InFlightPacket :=
  fun k' => if k' = k then some r else none

/-- The key of the examples. -/
def exKey : OutboundKey := ⟨[1], [2], 7⟩

/-- The key the transport returns for the retry of the examples. -/
def exKeyNext : OutboundKey := ⟨[1], [2], 8⟩

/-- The packet of the examples: 990 units. -/
def exTransfer : Transfer := ⟨[5], [6], 990, [0x61]⟩

/-- A timeout notification for the key of the examples. -/
def exTimeout : Notification := ⟨exKey, .Timeout, exTransfer⟩

/-- A record with the given number of retries left. -/
def exRecord (retries : Int) : InFlightPacket := ⟨[9], [3], [4], retries, 100⟩

/-- A tracker holding the record of the examples under the key of the
examples, before any call. -/
def exTracker (retries : Int) : Tracker := ⟨exStore exKey (exRecord retries), []⟩

/-- The collaborators of the examples: the clock reads 1000, the transport
accepts a dispatch under the next key, a refund completes. -/
def exEnv : Env := ⟨1000, some exKeyNext, true⟩

/-- The collaborators when the transport refuses the dispatch. -/
def exEnvRefused : Env := ⟨1000, none, true⟩

/-- A buffer of four zero bytes. -/
def exBuffer : List Byte := [0, 0, 0, 0]

/-- Ten bytes with the high bit set, then a terminator. -/
def overlongBytes : List Byte :=
  [0xff, 0x80, 0xff, 0x80, 0xff, 0x80, 0xff, 0x80, 0xff, 0x80, 0x01]

/-! ### Varints and tags on the wire -/

/-- The bytes form one varint: every byte but the last has its high bit set and
the last has it clear. -/
def isVarint : List Byte → Bool
  | [] => false
  | [b] => decide (b.val < 0x80)
  | b :: bs => decide (0x80 ≤ b.val) && isVarint bs

/-- The number a varint denotes: its 7-bit groups, least significant first. -/
def varintValue : List Byte → Nat
  | [] => 0
  | b :: bs => b.val % 128 + 128 * varintValue bs

/-- The wire type declared for a field of `InFlightPacket` in its struct tags
(`bytes,1`, `bytes,2`, `bytes,3`, `varint,4`, `varint,5`): 2 is
length-delimited, 0 is varint. -/
def declaredWireType (fieldNum : Nat) : Nat :=
  if fieldNum = 1 ∨ fieldNum = 2 ∨ fieldNum = 3 then 2 else 0

/-- A Timeout field whose ten-byte varint denotes `2^64 + 1`. -/
def wideTimeoutBytes : List Byte :=
  [0x28, 0x81, 0x80, 0x80, 0x80, 0x80, 0x80, 0x80, 0x80, 0x80, 0x02]


/-! ## Theorems -/

theorem bitLen_le_iff (fuel : Nat) : ∀ (x k : Nat), x < 2 ^ fuel → (bitLen fuel x ≤ k ↔ x < 2 ^ k) := by
  induction fuel with
  | zero =>
    intro x k hx
    have : x = 0 := by simpa using hx
    subst this
    simp [bitLen]
  | succ n ih =>
    intro x k hx
    unfold bitLen
    by_cases h0 : x = 0
    · subst h0; simp
    · rw [if_neg h0]
      have hx2 : x / 2 < 2 ^ n := by
        rw [Nat.div_lt_iff_lt_mul (by decide)]
        rw [pow_succ] at hx; exact hx
      cases k with
      | zero =>
        simp
        omega
      | succ k =>
        rw [Nat.succ_le_succ_iff, ih _ k hx2, Nat.div_lt_iff_lt_mul (by decide), pow_succ]

theorem or_one_eq (x : Nat) : x ||| 1 = 2 * (x / 2) + 1 := by
  have h1 : 2 ^ 1 * (x / 2) + x % 2 = 2 ^ 1 * (x / 2) ||| x % 2 := Nat.mul_add_lt_is_or (Nat.mod_lt _ (by decide)) _
  have h2 : 2 ^ 1 * (x / 2) + 1 = 2 ^ 1 * (x / 2) ||| 1 := Nat.mul_add_lt_is_or (by decide) _
  have hx : x = 2 ^ 1 * (x / 2) + x % 2 := by omega
  have hb : x % 2 ||| 1 = 1 := by
    rcases Nat.mod_two_eq_zero_or_one x with h | h <;> simp [h]
  calc x ||| 1 = (2 ^ 1 * (x / 2) ||| x % 2) ||| 1 := by rw [← h1, ← hx]
    _ = 2 ^ 1 * (x / 2) ||| 1 := by rw [Nat.or_assoc, hb]
    _ = 2 * (x / 2) + 1 := by rw [← h2]; simp

theorem or_one_lt_iff (x k : Nat) (hk : 1 ≤ k) : (x ||| 1) < 2 ^ k ↔ x < 2 ^ k := by
  rw [or_one_eq]
  obtain ⟨j, rfl⟩ : ∃ j, k = j + 1 := ⟨k - 1, by omega⟩
  rw [pow_succ]
  omega

theorem sovGenesis_le_iff (x n : Nat) (hx : x < 2 ^ 64) (hn : 1 ≤ n) :
    sovGenesis x ≤ n ↔ x < 2 ^ (7 * n) := by
  unfold sovGenesis Len64
  have h1 : (x ||| 1) < 2 ^ 64 := (or_one_lt_iff x 64 (by decide)).2 hx
  rw [Nat.mod_eq_of_lt h1]
  have key := bitLen_le_iff 64 (x ||| 1) (7 * n) h1
  rw [or_one_lt_iff x (7 * n) (by omega)] at key
  rw [← key]
  omega

theorem sovGenesis_pos (x : Nat) : 1 ≤ sovGenesis x := by
  unfold sovGenesis Len64
  have h0 : (x ||| 1) % 2 ^ 64 ≠ 0 := by
    intro h
    rw [or_one_eq] at h
    omega
  have : 1 ≤ bitLen 64 ((x ||| 1) % 2 ^ 64) := by
    show 1 ≤ bitLen (63 + 1) _
    unfold bitLen
    rw [if_neg h0]; omega
  omega
theorem varintBytes_length_le (fuel : Nat) : ∀ v, 1 ≤ (varintBytes fuel v).length := by
  induction fuel with
  | zero => intro v; simp [varintBytes]
  | succ n ih =>
    intro v
    unfold varintBytes
    split <;> simp

theorem sovGenesis_small (v : Nat) (h : v < 128) : sovGenesis v = 1 := by
  have h1 := (sovGenesis_le_iff v 1 (by omega) (by decide)).2 (by simpa using h)
  have h2 := sovGenesis_pos v
  omega

theorem sovGenesis_step (v : Nat) (hv : v < 2 ^ 64) (h : 128 ≤ v) :
    sovGenesis v = sovGenesis (v / 128) + 1 := by
  have hq : v / 128 < 2 ^ 64 := lt_of_le_of_lt (Nat.div_le_self _ _) hv
  have key : ∀ n, 1 ≤ n → (sovGenesis v ≤ n + 1 ↔ sovGenesis (v / 128) ≤ n) := by
    intro n hn
    rw [sovGenesis_le_iff v (n + 1) hv (by omega), sovGenesis_le_iff (v / 128) n hq hn,
      Nat.div_lt_iff_lt_mul (by decide)]
    have : 2 ^ (7 * (n + 1)) = 2 ^ (7 * n) * 128 := by
      rw [Nat.mul_add, pow_add]; norm_num
    rw [this]
  have h1 : ¬ sovGenesis v ≤ 1 := by
    rw [sovGenesis_le_iff v 1 hv (by decide)]
    simp; omega
  have hp := sovGenesis_pos (v / 128)
  have a := (key (sovGenesis (v / 128)) hp).2 (le_refl _)
  have b := (key (sovGenesis v - 1) (by omega)).1 (by omega)
  omega

theorem varintBytes_length (fuel : Nat) : ∀ v, v < 2 ^ 64 → v < 2 ^ (7 * (fuel + 1)) →
    (varintBytes fuel v).length = sovGenesis v := by
  induction fuel with
  | zero =>
    intro v _ h
    simp [varintBytes]
    exact (sovGenesis_small v (by simpa using h)).symm
  | succ n ih =>
    intro v hv h
    unfold varintBytes
    by_cases h128 : v < 128
    · rw [if_pos h128]; simp; exact (sovGenesis_small v h128).symm
    · rw [if_neg h128]
      have hq : v / 128 < 2 ^ (7 * (n + 1)) := by
        rw [Nat.div_lt_iff_lt_mul (by decide)]
        have : 2 ^ (7 * (n + 1 + 1)) = 2 ^ (7 * (n + 1)) * 128 := by
          rw [Nat.mul_add 7 (n + 1) 1, pow_add]; norm_num
        omega
      simp only [List.length_cons]
      rw [ih _ (lt_of_le_of_lt (Nat.div_le_self _ _) hv) hq, sovGenesis_step v hv (by omega)]

theorem varint_length (v : Nat) (hv : v < 2 ^ 64) : (varint v).length = sovGenesis v :=
  varintBytes_length 9 v hv (lt_of_lt_of_le hv (by norm_num))

theorem setByte_append (pre post : List Byte) (x b : Byte) :
    setByte (pre ++ x :: post) (pre.length : Int) b = .ok (pre ++ b :: post) := by
  unfold setByte
  rw [if_pos]
  · simp
  · simp

theorem copyAt_append (pre mid post s : List Byte) (h : mid.length = s.length) :
    copyAt (pre ++ mid ++ post) (pre.length : Int) s = .ok (pre ++ s ++ post) := by
  unfold copyAt
  rw [if_pos]
  · simp [h, List.take_of_length_le, List.drop_append]
  · simp; omega

theorem groupByte (v : Nat) : uint8 (v &&& 0x7f ||| 0x80) = uint8 (v % 128 + 128) := by
  have h1 : v &&& 0x7f = v % 128 := Nat.and_pow_two_sub_one_eq_mod v 7
  have h2 : ∀ a, a < 128 → a ||| 128 = a + 128 := by decide
  rw [h1, h2 _ (Nat.mod_lt _ (by decide))]

theorem encodeVarintLoop_append (fuel : Nat) : ∀ (pre mid post : List Byte) (v : Nat),
    v < 2 ^ (7 * (fuel + 1)) → mid.length = (varintBytes fuel v).length →
    encodeVarintLoop (fuel + 1) (pre ++ mid ++ post) (pre.length : Int) v
      = .ok (pre ++ varintBytes fuel v ++ post) := by
  induction fuel with
  | zero =>
    intro pre mid post v hv hmid
    have hv : v < 128 := by simpa using hv
    simp only [varintBytes, List.length_singleton] at hmid ⊢
    obtain ⟨x, rfl⟩ := List.length_eq_one.1 hmid
    unfold encodeVarintLoop
    rw [if_neg (by simp; omega)]
    simpa using setByte_append pre post x (uint8 v)
  | succ n ih =>
    intro pre mid post v hv hmid
    unfold encodeVarintLoop
    unfold varintBytes at hmid ⊢
    by_cases h128 : v < 128
    · rw [if_pos h128] at hmid ⊢
      rw [if_neg (by simp; omega)]
      obtain ⟨x, rfl⟩ := List.length_eq_one.1 hmid
      simpa using setByte_append pre post x (uint8 v)
    · rw [if_neg h128] at hmid ⊢
      rw [if_pos (by simp; omega)]
      cases mid with
      | nil => simp at hmid
      | cons x mid =>
        have h1 := setByte_append pre (mid ++ post) x (uint8 (v &&& 0x7f ||| 0x80))
        simp only [List.append_assoc, List.cons_append] at h1 ⊢
        rw [h1]
        simp only
        have hq : v / 128 < 2 ^ (7 * (n + 1)) := by
          rw [Nat.div_lt_iff_lt_mul (by decide)]
          have : 2 ^ (7 * (n + 1 + 1)) = 2 ^ (7 * (n + 1)) * 128 := by
            rw [Nat.mul_add 7 (n + 1) 1, pow_add]; norm_num
          omega
        have h2 := ih (pre ++ [uint8 (v &&& 0x7f ||| 0x80)]) mid post (v / 128) hq
          (by simpa using hmid)
        have hs : v >>> 7 = v / 128 := by rw [Nat.shiftRight_eq_div_pow]
        simp only [List.append_assoc, List.length_append, List.length_singleton, List.singleton_append,
          Nat.cast_add, Nat.cast_one, List.cons_append, List.nil_append] at h2
        rw [hs, h2, groupByte]

theorem encodeVarintGenesis_append (X post : List Byte) (v : Nat) (hv : v < 2 ^ 64)
    (h : sovGenesis v ≤ X.length) :
    encodeVarintGenesis (X ++ post) (X.length : Int) v
      = .ok (X.take (X.length - sovGenesis v) ++ varint v ++ post,
          ((X.length - sovGenesis v : Nat) : Int)) := by
  unfold encodeVarintGenesis
  have hX : X = X.take (X.length - sovGenesis v) ++ X.drop (X.length - sovGenesis v) :=
    (List.take_append_drop _ _).symm
  have hoff : (X.length : Int) - (sovGenesis v : Int) = ((X.take (X.length - sovGenesis v)).length : Int) := by
    rw [List.length_take]; omega
  have hl := encodeVarintLoop_append 9 (X.take (X.length - sovGenesis v))
    (X.drop (X.length - sovGenesis v)) post v (lt_of_lt_of_le hv (by norm_num))
    (by rw [List.length_drop]; have := varint_length v hv; unfold varint at this; omega)
  rw [← hX] at hl
  simp only [hoff]
  rw [hl]
  simp [varint]

theorem take_snoc (X : List Byte) (n : Nat) (h : n < X.length) :
    X.take (n + 1) = X.take n ++ [X.get ⟨n, h⟩] := by
  rw [List.take_succ, List.getElem?_eq_getElem h]
  rfl

theorem putVarintField_append (X post : List Byte) (tag : Byte) (v : Nat) (hv : v < 2 ^ 64)
    (h : sovGenesis v + 1 ≤ X.length) :
    putVarintField (X ++ post) (X.length : Int) tag v
      = .ok (X.take (X.length - (sovGenesis v + 1)) ++ (tag :: varint v) ++ post,
          ((X.length - (sovGenesis v + 1) : Nat) : Int)) := by
  unfold putVarintField
  rw [encodeVarintGenesis_append X post v hv (by omega)]
  simp only
  have e : X.length - sovGenesis v = (X.length - (sovGenesis v + 1)) + 1 := by omega
  have hlen : (((X.length - (sovGenesis v + 1)) + 1 : Nat) : Int) - 1 =
      (((X.take (X.length - (sovGenesis v + 1))).length : Nat) : Int) := by
    rw [List.length_take]; omega
  rw [e, take_snoc X _ (by omega)]
  simp only [hlen]
  have := setByte_append (X.take (X.length - (sovGenesis v + 1))) (varint v ++ post)
    (X.get ⟨X.length - (sovGenesis v + 1), by omega⟩) tag
  simp only [List.append_assoc, List.singleton_append, List.cons_append, List.nil_append] at this ⊢
  rw [this]
  simp

theorem putBytesField_append (X post : List Byte) (tag : Byte) (s : List Byte) (hs : s.length < 2 ^ 64)
    (h : s.length + sovGenesis s.length + 1 ≤ X.length) :
    putBytesField (X ++ post) (X.length : Int) tag s
      = .ok (X.take (X.length - (s.length + sovGenesis s.length + 1)) ++
            (tag :: varint s.length ++ s) ++ post,
          ((X.length - (s.length + sovGenesis s.length + 1) : Nat) : Int)) := by
  unfold putBytesField
  have hX : X = X.take (X.length - s.length) ++ X.drop (X.length - s.length) :=
    (List.take_append_drop _ _).symm
  have hoff : (X.length : Int) - (s.length : Int) = ((X.take (X.length - s.length)).length : Int) := by
    rw [List.length_take]; omega
  have hc := copyAt_append (X.take (X.length - s.length)) (X.drop (X.length - s.length)) post s
    (by rw [List.length_drop]; omega)
  rw [← hX] at hc
  simp only [hoff]
  rw [hc]
  simp only [uint64, Nat.mod_eq_of_lt hs]
  have hp := putVarintField_append (X.take (X.length - s.length)) (s ++ post) tag s.length hs
    (by rw [List.length_take]; omega)
  simp only [List.append_assoc] at hp ⊢
  rw [hp]
  simp only [List.length_take, List.take_take]
  have e1 : min (X.length - s.length) X.length = X.length - s.length := by omega
  have e2 : X.length - s.length - (sovGenesis s.length + 1) = X.length - (s.length + sovGenesis s.length + 1) := by omega
  have e3 : min (X.length - (s.length + sovGenesis s.length + 1)) (X.length - s.length)
      = X.length - (s.length + sovGenesis s.length + 1) := by omega
  rw [e1, e2, e3]
theorem writes_skip : Writes (fun d i => .ok (d, i)) [] := by
  intro X post _
  simp

theorem writes_putVarintField (tag : Byte) (v : Nat) (hv : v < 2 ^ 64) :
    Writes (fun d i => putVarintField d i tag v) (tag :: varint v) := by
  intro X post h
  have hl : (tag :: varint v).length = sovGenesis v + 1 := by simp [varint_length v hv]
  rw [hl] at h ⊢
  exact putVarintField_append X post tag v hv h

theorem writes_putBytesField (tag : Byte) (s : List Byte) (hs : s.length < 2 ^ 64) :
    Writes (fun d i => putBytesField d i tag s) (tag :: varint s.length ++ s) := by
  intro X post h
  have hl : (tag :: varint s.length ++ s).length = s.length + sovGenesis s.length + 1 := by
    simp [varint_length s.length hs]; omega
  rw [hl] at h ⊢
  exact putBytesField_append X post tag s hs h

theorem writes_ite (c : Prop) [Decidable c] (f : List Byte → Int → Except Err (List Byte × Int))
    (bs : List Byte) (h : c → Writes f bs) :
    Writes (fun d i => if c then f d i else .ok (d, i)) (if c then bs else []) := by
  by_cases hc : c
  · simp only [if_pos hc]; exact h hc
  · simp only [if_neg hc]; exact writes_skip

theorem writes_seq (f g : List Byte → Int → Except Err (List Byte × Int)) (a b : List Byte)
    (hf : Writes f a) (hg : Writes g b) :
    Writes (fun d i => match f d i with
      | .error e => .error e
      | .ok (d, i) => g d i) (b ++ a) := by
  intro X post h
  simp only [List.length_append] at h
  simp only
  rw [hf X post (by omega)]
  simp only
  have e0 : (X.take (X.length - a.length)).length = X.length - a.length := by
    rw [List.length_take]; omega
  have := hg (X.take (X.length - a.length)) (a ++ post) (by rw [e0]; omega)
  rw [e0] at this
  simp only [List.append_assoc] at this ⊢
  rw [this]
  simp only [List.take_take, List.length_append]
  have e2 : X.length - a.length - b.length = X.length - (b.length + a.length) := by omega
  have e3 : min (X.length - (b.length + a.length)) (X.length - a.length)
      = X.length - (b.length + a.length) := by omega
  rw [e2, e3]

theorem uint64OfInt_lt (x : Int) : uint64OfInt x < 2 ^ 64 := by
  unfold uint64OfInt
  have h1 : 0 ≤ x % 2 ^ 64 := Int.emod_nonneg _ (by norm_num)
  have h2 : x % 2 ^ 64 < 2 ^ 64 := Int.emod_lt_of_pos _ (by norm_num)
  omega

theorem packet_wire_length (m : InFlightPacket) (h : m.WF) : m.wire.length = m.Size := by
  obtain ⟨h1, _, h5⟩ := h
  have l1 := varint_length m.OriginalSenderAddress.length (by omega)
  have l2 := varint_length m.RefundChannelId.length (by omega)
  have l3 := varint_length m.RefundPortId.length (by omega)
  have l4 := varint_length (uint64OfInt m.RetriesRemaining) (uint64OfInt_lt _)
  have l5 := varint_length m.Timeout h5
  have u1 : uint64 m.OriginalSenderAddress.length = m.OriginalSenderAddress.length := Nat.mod_eq_of_lt (by omega)
  have u2 : uint64 m.RefundChannelId.length = m.RefundChannelId.length := Nat.mod_eq_of_lt (by omega)
  have u3 : uint64 m.RefundPortId.length = m.RefundPortId.length := Nat.mod_eq_of_lt (by omega)
  have u5 : uint64 m.Timeout = m.Timeout := Nat.mod_eq_of_lt h5
  unfold InFlightPacket.wire InFlightPacket.Size bytesField
  simp only [u1, u2, u3, u5]
  split_ifs <;> simp [l1, l2, l3, l4, l5] <;> omega
theorem finishes_return : Finishes (fun d i => .ok (d, (d.length : Int) - i)) [] := by
  intro X post _
  simp

theorem finishes_andThen (f k : List Byte → Int → Except Err (List Byte × Int)) (a b : List Byte)
    (hf : Writes f a) (hk : Finishes k b) :
    Finishes (fun d i => andThen (f d i) k) (b ++ a) := by
  intro X post h
  simp only [List.length_append] at h
  simp only
  rw [hf X post (by omega)]
  simp only [andThen]
  have e0 : (X.take (X.length - a.length)).length = X.length - a.length := by
    rw [List.length_take]; omega
  have := hk (X.take (X.length - a.length)) (a ++ post) (by rw [e0]; omega)
  rw [e0] at this
  simp only [List.append_assoc] at this ⊢
  rw [this]
  simp only [List.take_take, List.length_append]
  have e2 : X.length - a.length - b.length = X.length - (b.length + a.length) := by omega
  have e3 : min (X.length - (b.length + a.length)) (X.length - a.length)
      = X.length - (b.length + a.length) := by omega
  rw [e2, e3, Nat.add_assoc]

theorem packet_MarshalToSizedBuffer_eq (m : InFlightPacket) (h : m.WF) (X : List Byte)
    (hX : m.Size ≤ X.length) :
    m.MarshalToSizedBuffer X = .ok (X.take (X.length - m.Size) ++ m.wire, (m.Size : Int)) := by
  have hlen := packet_wire_length m h
  obtain ⟨h1, _, h5⟩ := h
  have key : Finishes (fun d i =>
      andThen (if m.Timeout ≠ 0 then putVarintField d i 0x28 (uint64 m.Timeout) else .ok (d, i))
        fun dAtA i =>
      andThen (if m.RetriesRemaining ≠ 0 then putVarintField dAtA i 0x20 (uint64OfInt m.RetriesRemaining)
        else .ok (dAtA, i)) fun dAtA i =>
      andThen (if m.RefundPortId.length > 0 then putBytesField dAtA i 0x1a m.RefundPortId else .ok (dAtA, i))
        fun dAtA i =>
      andThen (if m.RefundChannelId.length > 0 then putBytesField dAtA i 0x12 m.RefundChannelId
        else .ok (dAtA, i)) fun dAtA i =>
      andThen (if m.OriginalSenderAddress.length > 0 then putBytesField dAtA i 0xa m.OriginalSenderAddress
        else .ok (dAtA, i)) fun dAtA i =>
      .ok (dAtA, (dAtA.length : Int) - i)) m.wire := by
    unfold InFlightPacket.wire bytesField
    refine finishes_andThen _ _ _ _ (writes_ite _ (fun d i => putVarintField d i 0x28 (uint64 m.Timeout)) _ ?_) ?_
    · intro _
      have : uint64 m.Timeout = m.Timeout := Nat.mod_eq_of_lt h5
      rw [this]
      exact writes_putVarintField _ _ h5
    refine finishes_andThen _ _ _ _ (writes_ite _ (fun d i => putVarintField d i 0x20 (uint64OfInt m.RetriesRemaining)) _ ?_) ?_
    · intro _; exact writes_putVarintField _ _ (uint64OfInt_lt _)
    refine finishes_andThen _ _ _ _ (writes_ite _ (fun d i => putBytesField d i 0x1a m.RefundPortId) _ ?_) ?_
    · intro _; exact writes_putBytesField _ _ (by omega)
    refine finishes_andThen _ _ _ _ (writes_ite _ (fun d i => putBytesField d i 0x12 m.RefundChannelId) _ ?_) ?_
    · intro _; exact writes_putBytesField _ _ (by omega)
    have := finishes_andThen _ _ _ _ (writes_ite (m.OriginalSenderAddress.length > 0) (fun d i => putBytesField d i 0xa m.OriginalSenderAddress) _
      (fun _ => writes_putBytesField _ _ (by omega))) finishes_return
    simpa using this
  have := key X [] (by omega)
  simp only [List.append_nil, hlen, List.length_nil, Nat.add_zero] at this
  exact this

theorem sliceTo_eq (d : List Byte) (n : Nat) (h : n ≤ d.length) :
    sliceTo d (n : Int) = .ok (d.take n) := by
  unfold sliceTo
  rw [if_pos (by omega)]
  simp

theorem packet_Marshal_eq (m : InFlightPacket) (h : m.WF) : m.Marshal = .ok m.wire := by
  unfold InFlightPacket.Marshal
  simp only
  rw [packet_MarshalToSizedBuffer_eq m h _ (by simp)]
  simp only [List.length_replicate, Nat.sub_self, List.take_zero, List.nil_append]
  rw [sliceTo_eq _ _ (by rw [packet_wire_length m h])]
  rw [← packet_wire_length m h, List.take_length]
theorem andThen_assoc (r : Except Err (List Byte × Int))
    (f g : List Byte → Int → Except Err (List Byte × Int)) :
    andThen (andThen r f) g = andThen r (fun d i => andThen (f d i) g) := by
  cases r with
  | error e => rfl
  | ok p => rfl

theorem writes_andThen (f g : List Byte → Int → Except Err (List Byte × Int)) (a b : List Byte)
    (hf : Writes f a) (hg : Writes g b) :
    Writes (fun d i => andThen (f d i) g) (b ++ a) := by
  have := writes_seq f g a b hf hg
  intro X post h
  have h2 := this X post h
  simp only [andThen] at h2 ⊢
  exact h2

theorem writes_putTag (tag : Byte) : Writes (fun d i => putTag d i tag) [tag] := by
  intro X post h
  simp only [List.length_singleton] at h ⊢
  unfold putTag
  obtain ⟨P, x, rfl⟩ : ∃ P x, X = P ++ [x] := by
    refine ⟨X.dropLast, X.getLast (by intro h0; simp [h0] at h), ?_⟩
    exact (List.dropLast_append_getLast _).symm
  have e2 : (((P ++ [x]).length : Nat) : Int) - 1 = ((P.length : Nat) : Int) := by
    simp
  have e3 : (P ++ [x]).length - 1 = P.length := by simp
  simp only [e2, e3]
  have := setByte_append P post x tag
  simp only [List.append_assoc, List.singleton_append] at this ⊢
  rw [this]
  simp

theorem uint64OfInt_natCast (n : Nat) (h : n < 2 ^ 64) : uint64OfInt (n : Int) = n := by
  unfold uint64OfInt
  have : ((n : Int) % 2 ^ 64) = n := Int.emod_eq_of_lt (by omega) (by omega)
  rw [this]; simp

theorem writes_putNested (f : List Byte → Except Err (List Byte × Int)) (n : Nat) (bs : List Byte)
    (hn : n < 2 ^ 64) (hbs : bs.length = n)
    (hf : ∀ X : List Byte, n ≤ X.length → f X = .ok (X.take (X.length - n) ++ bs, (n : Int))) :
    Writes (putNested f) (varint n ++ bs) := by
  intro X post h
  have hl := varint_length n hn
  simp only [List.length_append, hl, hbs] at h ⊢
  unfold putNested
  rw [sliceTo_eq (X ++ post) X.length (by simp)]
  simp only [List.take_left']
  rw [hf X (by omega)]
  simp only [Int.toNat_ofNat, List.drop_left']
  have e0 : (X.take (X.length - n)).length = X.length - n := by
    rw [List.length_take]; omega
  have e1 : ((X.length : Nat) : Int) - (n : Int) = (((X.take (X.length - n)).length : Nat) : Int) := by
    rw [e0]; omega
  rw [e1, uint64OfInt_natCast n hn]
  have := encodeVarintGenesis_append (X.take (X.length - n)) (bs ++ post) n hn (by rw [e0]; omega)
  simp only [List.append_assoc] at this ⊢
  rw [this, e0, List.take_take]
  have e3 : min (X.length - n - sovGenesis n) (X.length - n) = X.length - (sovGenesis n + n) := by omega
  have e4 : X.length - n - sovGenesis n = X.length - (sovGenesis n + n) := by omega
  rw [e3, e4]
theorem writes_andThen_dep (f : List Byte → Int → Except Err (List Byte × Int))
    (g : Int → List Byte → Int → Except Err (List Byte × Int)) (a b : List Byte)
    (hf : Writes f a) (hg : Writes (g (a.length : Int)) b) :
    Writes (fun d i => andThen (f d i) (fun d' i' => g (i - i') d' i')) (b ++ a) := by
  intro X post h
  have h0 := writes_andThen f (g (a.length : Int)) a b hf hg X post h
  simp only [List.length_append] at h
  simp only at h0 ⊢
  rw [hf X post (by omega)] at h0 ⊢
  simp only [andThen] at h0 ⊢
  have e : ((X.length : Nat) : Int) - ((X.length - a.length : Nat) : Int) = (a.length : Int) := by omega
  rw [e]
  exact h0

theorem sovGenesis_le_ten (x : Nat) (hx : x < 2 ^ 64) : sovGenesis x ≤ 10 :=
  (sovGenesis_le_iff x 10 hx (by decide)).2 (lt_of_lt_of_le hx (by norm_num))

theorem uint64_lt (x : Nat) : uint64 x < 2 ^ 64 := Nat.mod_lt _ (by norm_num)

theorem packet_Size_le (m : InFlightPacket) :
    m.Size ≤ m.OriginalSenderAddress.length + m.RefundChannelId.length + m.RefundPortId.length + 55 := by
  have s1 := sovGenesis_le_ten _ (uint64_lt m.OriginalSenderAddress.length)
  have s2 := sovGenesis_le_ten _ (uint64_lt m.RefundChannelId.length)
  have s3 := sovGenesis_le_ten _ (uint64_lt m.RefundPortId.length)
  have s4 := sovGenesis_le_ten _ (uint64OfInt_lt m.RetriesRemaining)
  have s5 := sovGenesis_le_ten _ (uint64_lt m.Timeout)
  unfold InFlightPacket.Size
  simp only
  split_ifs <;> omega

theorem writes_marshalEntry (mp : PacketMap) (k : List Byte) (hk : k.length < 2 ^ 62)
    (hv : (mp.index k).WF) : Writes (marshalEntry mp k) (entryWire k (mp.index k)) := by
  have hsz := packet_Size_le (mp.index k)
  have hwl := packet_wire_length (mp.index k) hv
  have hW := hv.1
  have h1 : Writes (putNested (mp.index k).MarshalToSizedBuffer)
      (varint (mp.index k).wire.length ++ (mp.index k).wire) := by
    apply writes_putNested _ _ _ (by omega) rfl
    intro X hX
    rw [hwl] at hX ⊢
    exact packet_MarshalToSizedBuffer_eq _ hv X hX
  have h2 := writes_andThen _ _ _ _ (writes_putTag 0x12) (writes_putBytesField 0xa k (by omega))
  have h3 := writes_andThen _ _ _ _ h1 h2
  have hb : ((0xa : Byte) :: varint k.length ++ k ++ [(0x12 : Byte)] ++
      (varint (mp.index k).wire.length ++ (mp.index k).wire)).length < 2 ^ 64 := by
    have := varint_length k.length (by omega)
    have := varint_length (mp.index k).wire.length (by omega)
    have := sovGenesis_le_ten k.length (by omega)
    have := sovGenesis_le_ten (mp.index k).wire.length (by omega)
    simp only [List.length_append, List.length_cons, List.length_nil]
    omega
  have h4 := writes_andThen_dep _ (fun n d i => putVarintField d i 0x12 (uint64OfInt n)) _ _ h3
    (by
      simp only
      rw [uint64OfInt_natCast _ hb]
      exact writes_putVarintField 0x12 _ hb)
  have e : marshalEntry mp k = (fun d i => andThen (andThen (putNested (mp.index k).MarshalToSizedBuffer d i)
      (fun d i => andThen (putTag d i 0x12) (fun d i => putBytesField d i 0xa k)))
      (fun d' i' => putVarintField d' i' 0x12 (uint64OfInt (i - i')))) := by
    funext d i
    simp only [marshalEntry, andThen_assoc]
  rw [e]
  have ew : entryWire k (mp.index k) = (0x12 : Byte) :: varint ((0xa : Byte) :: varint k.length ++ k ++ [(0x12 : Byte)] ++
      (varint (mp.index k).wire.length ++ (mp.index k).wire)).length ++ ((0xa : Byte) :: varint k.length ++ k ++ [(0x12 : Byte)] ++
      (varint (mp.index k).wire.length ++ (mp.index k).wire)) := by
    simp [entryWire]
  rw [ew]
  exact h4

theorem writes_marshalEntries (mp : PacketMap) (ks : List (List Byte))
    (h : ∀ k ∈ ks, k.length < 2 ^ 62 ∧ (mp.index k).WF) :
    Writes (marshalEntries mp ks) (entriesWire mp ks.reverse) := by
  induction ks with
  | nil =>
    have : marshalEntries mp [] = fun d i => .ok (d, i) := by
      funext d i; rfl
    rw [this]
    exact writes_skip
  | cons k ks ih =>
    have e : marshalEntries mp (k :: ks) = fun d i => andThen (marshalEntry mp k d i) (marshalEntries mp ks) := by
      funext d i; rfl
    rw [e]
    have hw : entriesWire mp (k :: ks).reverse = entriesWire mp ks.reverse ++ entryWire k (mp.index k) := by
      simp [entriesWire]
    rw [hw]
    exact writes_andThen _ _ _ _
      (writes_marshalEntry mp k (h k (List.mem_cons_self _ _)).1 (h k (List.mem_cons_self _ _)).2)
      (ih (fun k' hk' => h k' (List.mem_cons_of_mem _ hk')))
theorem sliceFrom_eq (d : List Byte) (n : Nat) (h : n ≤ d.length) :
    sliceFrom d (n : Int) = .ok (d.drop n) := by
  unfold sliceFrom
  rw [if_pos (by omega)]
  simp

theorem params_wire_length {C : DecCodec} (p : Params C) (hm : C.Marshals p.FeePercentage) :
    p.wire.length = p.Size := by
  obtain ⟨h1, h2, _⟩ := hm
  have := varint_length (C.Size p.FeePercentage) (by omega)
  have u : uint64 (C.Size p.FeePercentage) = C.Size p.FeePercentage := Nat.mod_eq_of_lt (by omega)
  simp only [Params.wire, Params.Size, List.length_append, List.length_cons, this, h2, u]
  omega

theorem params_MarshalToSizedBuffer_eq {C : DecCodec} (p : Params C) (hm : C.Marshals p.FeePercentage)
    (X : List Byte) (hX : p.Size ≤ X.length) :
    p.MarshalToSizedBuffer X = .ok (X.take (X.length - p.Size) ++ p.wire, (p.Size : Int)) := by
  have hwl := params_wire_length p hm
  obtain ⟨h1, h2, h3⟩ := hm
  have hs : p.Size = 1 + C.Size p.FeePercentage + sovGenesis (C.Size p.FeePercentage) := by
    simp only [Params.Size, uint64, Nat.mod_eq_of_lt (show C.Size p.FeePercentage < 2 ^ 64 by omega)]
  unfold Params.MarshalToSizedBuffer
  simp only
  have e1 : ((X.length : Nat) : Int) - ((C.Size p.FeePercentage : Nat) : Int)
      = ((X.length - C.Size p.FeePercentage : Nat) : Int) := by omega
  rw [e1, sliceFrom_eq _ _ (by omega)]
  simp only
  rw [h3 _ (by rw [List.length_drop]; omega)]
  simp only [Int.toNat_ofNat]
  have e2 : (X.drop (X.length - C.Size p.FeePercentage)).drop (C.Size p.FeePercentage) = [] := by
    rw [List.drop_drop]; apply List.drop_of_length_le; omega
  have e0 : (X.take (X.length - C.Size p.FeePercentage)).length = X.length - C.Size p.FeePercentage := by
    rw [List.length_take]; omega
  rw [e2, List.append_nil]
  have hp := putVarintField_append (X.take (X.length - C.Size p.FeePercentage)) (C.text p.FeePercentage) 0xa
    (C.Size p.FeePercentage) (by omega) (by rw [e0]; omega)
  rw [e0] at hp
  simp only [uint64, Nat.mod_eq_of_lt (show C.Size p.FeePercentage < 2 ^ 64 by omega)]
  rw [hp]
  simp only [List.take_take, List.length_append, List.length_take, List.length_cons, Params.wire,
    List.append_assoc, List.cons_append]
  have := varint_length (C.Size p.FeePercentage) (by omega)
  have e3 : min (X.length - C.Size p.FeePercentage - (sovGenesis (C.Size p.FeePercentage) + 1))
      (X.length - C.Size p.FeePercentage) = X.length - p.Size := by omega
  rw [e3, this, h2]
  have e4 : (((X.length - p.Size) ⊓ X.length + (sovGenesis (C.Size p.FeePercentage) + C.Size p.FeePercentage + 1) : Nat) : Int)
      - ((X.length - C.Size p.FeePercentage - (sovGenesis (C.Size p.FeePercentage) + 1) : Nat) : Int) = (p.Size : Int) := by
    omega
  rw [e4]

theorem foldl_add_eq (f : List Byte → Nat) (ks : List (List Byte)) (n : Nat) :
    ks.foldl (fun n k => n + f k) n = n + (ks.map f).sum := by
  induction ks generalizing n with
  | nil => simp
  | cons k ks ih => simp [ih]; omega

theorem entryWire_length (k : List Byte) (v : InFlightPacket) (hk : k.length < 2 ^ 62) (hv : v.WF) :
    (entryWire k v).length = entrySize k v := by
  have hsz := packet_Size_le v
  have hwl := packet_wire_length v hv
  have hW := hv.1
  have l1 := varint_length k.length (by omega)
  have l2 := varint_length v.Size (by omega)
  have s1 := sovGenesis_le_ten k.length (by omega)
  have s2 := sovGenesis_le_ten v.Size (by omega)
  have u1 : uint64 k.length = k.length := Nat.mod_eq_of_lt (by omega)
  have u2 : uint64 v.Size = v.Size := Nat.mod_eq_of_lt (by omega)
  have hb : (1 + k.length + sovGenesis k.length + 1 + v.Size + sovGenesis v.Size) < 2 ^ 64 := by omega
  have u3 : uint64 (1 + k.length + sovGenesis k.length + 1 + v.Size + sovGenesis v.Size)
      = 1 + k.length + sovGenesis k.length + 1 + v.Size + sovGenesis v.Size := Nat.mod_eq_of_lt hb
  have eb : ((0xa : Byte) :: varint k.length ++ k ++ ((0x12 : Byte) :: varint v.wire.length ++ v.wire)).length
      = 1 + k.length + sovGenesis k.length + 1 + v.Size + sovGenesis v.Size := by
    simp only [List.length_append, List.length_cons, hwl, l1, l2]; omega
  simp only [entryWire, entrySize, u1, u2, u3, List.length_append, List.length_cons, eb,
    varint_length _ hb]
  omega
theorem lookup_isSome_of_mem (es : List (List Byte × InFlightPacket)) (k : List Byte)
    (h : k ∈ es.map Prod.fst) : ∃ v, es.lookup k = some v := by
  induction es with
  | nil => simp at h
  | cons e es ih =>
    obtain ⟨k', v'⟩ := e
    by_cases hk : k = k'
    · subst hk; exact ⟨v', by simp [List.lookup]⟩
    · have hne : (k == k') = false := by simpa using hk
      have : k ∈ es.map Prod.fst := by
        simp only [List.map_cons, List.mem_cons] at h
        rcases h with h | h
        · exact absurd h hk
        · exact h
      obtain ⟨v, hv⟩ := ih this
      exact ⟨v, by simp [List.lookup, hne, hv]⟩

theorem packetMap_get_of_mem_keys (mp : PacketMap) (k : List Byte) (h : k ∈ mp.keys) :
    ∃ v, mp.get k = some v ∧ mp.index k = v := by
  cases mp with
  | none => simp [PacketMap.keys] at h
  | some es =>
    obtain ⟨v, hv⟩ := lookup_isSome_of_mem es k h
    exact ⟨v, hv, by simp [PacketMap.index, PacketMap.get, hv]⟩

theorem packetMap_wf_of_enumerates (mp : PacketMap) (hmp : mp.WF) (ks : List (List Byte))
    (hks : mp.Enumerates ks) : ∀ k ∈ ks, k.length < 2 ^ 62 ∧ (mp.index k).WF := by
  intro k hk
  obtain ⟨v, hv, hi⟩ := packetMap_get_of_mem_keys mp k (hks.mem_iff.1 hk)
  rw [hi]
  exact hmp.2 k v hv

theorem packetMap_enumerates_nil_of_len (mp : PacketMap) (ks : List (List Byte))
    (hks : mp.Enumerates ks) (h : ¬ mp.len > 0) : ks = [] := by
  have : mp.keys = [] := by
    cases mp with
    | none => rfl
    | some es =>
      simp only [PacketMap.len, gt_iff_lt, not_lt, Nat.le_zero, List.length_eq_zero] at h
      simp [PacketMap.keys, h]
  unfold PacketMap.Enumerates at hks
  rw [this] at hks
  exact hks.eq_nil

theorem genesis_MarshalToSizedBuffer_eq {C : DecCodec} (g : GenesisState C) (hg : g.WF)
    (ks : List (List Byte)) (hks : g.InFlightPackets.Enumerates ks) (X : List Byte)
    (hX : (g.wire ks.reverse).length ≤ X.length) :
    g.MarshalToSizedBuffer ks X
      = .ok (X.take (X.length - (g.wire ks.reverse).length) ++ g.wire ks.reverse,
          ((g.wire ks.reverse).length : Int)) := by
  obtain ⟨hm, hmp⟩ := hg
  have hpl := params_wire_length g.Params hm
  have hps : g.Params.Size < 2 ^ 64 := by
    have := sovGenesis_le_ten (uint64 (C.Size g.Params.FeePercentage)) (uint64_lt _)
    have := hm.1
    simp only [Params.Size]; omega
  have h1 : Writes (fun d i => if g.InFlightPackets.len > 0 then marshalEntries g.InFlightPackets ks d i
      else .ok (d, i)) (entriesWire g.InFlightPackets ks.reverse) := by
    by_cases hl : g.InFlightPackets.len > 0
    · simp only [if_pos hl]
      exact writes_marshalEntries _ _ (packetMap_wf_of_enumerates _ hmp ks hks)
    · simp only [if_neg hl]
      rw [packetMap_enumerates_nil_of_len _ ks hks hl]
      exact writes_skip
  have h2 : Writes (putNested g.Params.MarshalToSizedBuffer) (varint g.Params.wire.length ++ g.Params.wire) := by
    apply writes_putNested _ _ _ (by omega) rfl
    intro X hX
    rw [hpl] at hX ⊢
    exact params_MarshalToSizedBuffer_eq _ hm X hX
  have h3 := finishes_andThen _ _ _ _ (writes_putTag 0xa) finishes_return
  have h4 := finishes_andThen _ _ _ _ h2 h3
  have h5 := finishes_andThen _ _ _ _ h1 h4
  have := h5 X [] (by simpa [GenesisState.wire, Nat.add_comm, Nat.add_left_comm, Nat.add_assoc] using hX)
  simp only [GenesisState.MarshalToSizedBuffer]
  simp only [List.append_nil, List.nil_append, List.singleton_append, List.length_nil, Nat.add_zero] at this
  simpa [GenesisState.wire] using this

theorem genesis_Size_eq {C : DecCodec} (g : GenesisState C) (hg : g.WF)
    (ks₁ ks₂ : List (List Byte)) (h₁ : g.InFlightPackets.Enumerates ks₁)
    (h₂ : g.InFlightPackets.Enumerates ks₂) : g.Size ks₁ = (g.wire ks₂).length := by
  obtain ⟨hm, hmp⟩ := hg
  have hpl := params_wire_length g.Params hm
  have hps : g.Params.Size < 2 ^ 64 := by
    have := sovGenesis_le_ten (uint64 (C.Size g.Params.FeePercentage)) (uint64_lt _)
    have := hm.1
    simp only [Params.Size]; omega
  have hperm : ks₁.Perm ks₂ := h₁.trans h₂.symm
  have hsum : (ks₂.map fun k => (entryWire k (g.InFlightPackets.index k)).length).sum
      = (ks₁.map fun k => entrySize k (g.InFlightPackets.index k)).sum := by
    rw [(hperm.map _).sum_eq]
    congr 1
    apply List.map_congr_left
    intro k hk
    obtain ⟨a, b⟩ := packetMap_wf_of_enumerates _ hmp ks₂ h₂ k hk
    exact entryWire_length k _ a b
  have hw : (g.wire ks₂).length = 1 + g.Params.Size + sovGenesis (uint64 g.Params.Size)
      + (ks₁.map fun k => entrySize k (g.InFlightPackets.index k)).sum := by
    simp only [GenesisState.wire, entriesWire, List.length_append, List.length_cons, List.length_flatten,
      List.map_map, hpl, varint_length _ hps, uint64, Nat.mod_eq_of_lt hps]
    rw [← hsum]
    simp only [Function.comp_def]
    omega
  rw [hw]
  unfold GenesisState.Size
  simp only
  split_ifs with hl
  · rw [foldl_add_eq]
  · rw [packetMap_enumerates_nil_of_len _ ks₁ h₁ hl]
    simp

theorem genesis_Marshal_eq {C : DecCodec} (g : GenesisState C) (hg : g.WF)
    (ks₁ ks₂ : List (List Byte)) (h₁ : g.InFlightPackets.Enumerates ks₁)
    (h₂ : g.InFlightPackets.Enumerates ks₂) :
    g.Marshal ks₁ ks₂ = .ok (g.wire ks₂.reverse) := by
  have hr : g.InFlightPackets.Enumerates ks₂.reverse := (List.reverse_perm ks₂).trans h₂
  have hs := genesis_Size_eq g hg ks₁ ks₂.reverse h₁ hr
  unfold GenesisState.Marshal
  simp only
  rw [genesis_MarshalToSizedBuffer_eq g hg ks₂ h₂ _ (by simp [hs])]
  simp only [List.length_replicate, hs, Nat.sub_self, List.take_zero, List.nil_append]
  rw [sliceTo_eq _ _ (le_refl _), List.take_length]
theorem shift_split (v s w : Nat) :
    ((v % 128) <<< s) % 2 ^ w ||| ((v / 128) <<< (s + 7)) % 2 ^ w = (v <<< s) % 2 ^ w := by
  apply Nat.eq_of_testBit_eq
  intro j
  have h128 : (128 : Nat) = 2 ^ 7 := by norm_num
  have hd : v / 128 = v >>> 7 := by rw [Nat.shiftRight_eq_div_pow]
  rw [hd, h128]
  simp only [Nat.testBit_or, Nat.testBit_mod_two_pow, Nat.testBit_shiftLeft, Nat.testBit_shiftRight]
  by_cases hw : j < w
  · by_cases hs : s ≤ j
    · by_cases h7 : j - s < 7
      · have : ¬ (s + 7 ≤ j) := by omega
        simp [hw, hs, h7, this]
      · have h1 : s + 7 ≤ j := by omega
        have h2 : 7 + (j - (s + 7)) = j - s := by omega
        simp [hw, hs, h7, h1, h2]
    · have : ¬ (s + 7 ≤ j) := by omega
      simp [hw, hs, this]
  · simp [hw]

theorem getElem?_of_drop_eq (d : List Byte) (i : Nat) (b : Byte) (t : List Byte)
    (h : d.drop i = b :: t) : d[i]? = some b ∧ d.drop (i + 1) = t ∧ i < d.length := by
  have h1 : d[i]? = some b := by
    have := congrArg (fun l => l[0]?) h
    simpa using this
  have h2 : d.drop (i + 1) = t := by
    have := congrArg List.tail h
    simpa using this
  have h3 : i < d.length := by
    by_contra hc
    rw [List.drop_of_length_le (by omega)] at h
    cases h
  exact ⟨h1, h2, h3⟩

theorem decodeVarint_varintBytes (w n : Nat) : ∀ (v shift i acc dfuel : Nat) (d rest : List Byte),
    v < 2 ^ (7 * (n + 1)) → shift + 7 * n < 64 → n < dfuel →
    d.drop i = varintBytes n v ++ rest →
    decodeVarint w d d.length dfuel shift i acc
      = (acc ||| (v <<< shift) % 2 ^ w, .ok (i + (varintBytes n v).length)) := by
  have small : ∀ (v shift i acc dfuel : Nat) (d rest : List Byte), v < 128 → shift < 64 → 0 < dfuel →
      d.drop i = uint8 v :: rest →
      decodeVarint w d d.length dfuel shift i acc = (acc ||| (v <<< shift) % 2 ^ w, .ok (i + 1)) := by
    intro v shift i acc dfuel d rest hv hs hf hd
    obtain ⟨f, rfl⟩ : ∃ f, dfuel = f + 1 := ⟨dfuel - 1, by omega⟩
    obtain ⟨h1, _, h3⟩ := getElem?_of_drop_eq d i _ _ hd
    unfold decodeVarint
    rw [if_neg (by omega), if_neg (by omega), h1]
    have hb : (uint8 v).val = v := by simp [uint8]; omega
    have ha : v &&& 0x7F = v := by
      have := Nat.and_pow_two_sub_one_eq_mod v 7
      simp at this
      rw [this]; omega
    simp only [hb, ha]
    rw [if_pos (by omega)]
  intro v
  induction n generalizing v with
  | zero =>
    intro shift i acc dfuel d rest hv hs hf hd
    simp only [varintBytes, List.singleton_append, List.length_singleton] at hd ⊢
    exact small v shift i acc dfuel d rest (by simpa using hv) (by omega) hf hd
  | succ n ih =>
    intro shift i acc dfuel d rest hv hs hf hd
    unfold varintBytes at hd ⊢
    by_cases h128 : v < 128
    · rw [if_pos h128] at hd ⊢
      simp only [List.singleton_append, List.length_singleton] at hd ⊢
      exact small v shift i acc dfuel d rest h128 (by omega) (by omega) hd
    · rw [if_neg h128] at hd ⊢
      obtain ⟨f, rfl⟩ : ∃ f, dfuel = f + 1 := ⟨dfuel - 1, by omega⟩
      simp only [List.cons_append] at hd
      obtain ⟨h1, h2, h3⟩ := getElem?_of_drop_eq d i _ _ hd
      unfold decodeVarint
      rw [if_neg (by omega), if_neg (by omega), h1]
      have hb : (uint8 (v % 128 + 128)).val = v % 128 + 128 := by simp [uint8]; omega
      have ha : (v % 128 + 128) &&& 0x7F = v % 128 := by
        have := Nat.and_pow_two_sub_one_eq_mod (v % 128 + 128) 7
        simp at this
        rw [this]
      simp only [hb, ha]
      rw [if_neg (by omega)]
      have hq : v / 128 < 2 ^ (7 * (n + 1)) := by
        rw [Nat.div_lt_iff_lt_mul (by decide)]
        have : 2 ^ (7 * (n + 1 + 1)) = 2 ^ (7 * (n + 1)) * 128 := by
          rw [Nat.mul_add 7 (n + 1) 1, pow_add]; norm_num
        omega
      rw [ih (v / 128) (shift + 7) (i + 1) _ f d rest hq (by omega) (by omega) h2]
      rw [Nat.or_assoc, shift_split]
      simp only [List.length_cons]
      have : i + 1 + (varintBytes n (v / 128)).length = i + ((varintBytes n (v / 128)).length + 1) := by omega
      rw [this]

theorem decodeVarint_varint (w v i : Nat) (d rest : List Byte) (hv : v < 2 ^ 64)
    (hd : d.drop i = varint v ++ rest) :
    decodeVarint w d d.length varintFuel 0 i 0 = (v % 2 ^ w, .ok (i + sovGenesis v)) := by
  have := decodeVarint_varintBytes w 9 v 0 i 0 varintFuel d rest (lt_of_lt_of_le hv (by norm_num))
    (by norm_num) (by decide) hd
  rw [this]
  have hl := varint_length v hv
  unfold varint at hl
  simp [hl]
theorem length_of_drop_eq (d : List Byte) (i : Nat) (a : List Byte) (h : d.drop i = a) (ha : a ≠ []) :
    i + a.length = d.length := by
  have := congrArg List.length h
  rw [List.length_drop] at this
  have : a.length ≠ 0 := by
    intro h0; exact ha (List.length_eq_zero.1 h0)
  omega

theorem varint_ne_nil (v : Nat) : varint v ≠ [] := by
  intro h
  have := varintBytes_length_le 9 v
  unfold varint at h
  rw [h] at this
  simp at this

theorem negInt64_false (n : Nat) (h : n < 2 ^ 63) : negInt64 n = false := by
  unfold negInt64
  rw [Nat.mod_eq_of_lt (by omega)]
  simp; omega

theorem readLen_eq (d : List Byte) (i n : Nat) (rest : List Byte) (hl : d.length < 2 ^ 63)
    (hn : n ≤ rest.length) (hd : d.drop i = varint n ++ rest) :
    readLen d d.length i = .ok (i + sovGenesis n, i + sovGenesis n + n)
      ∧ d.drop (i + sovGenesis n) = rest := by
  have hlen := length_of_drop_eq d i _ hd (by simp [varint_ne_nil])
  have hn64 : n < 2 ^ 64 := by simp only [List.length_append] at hlen; omega
  have hv := varint_length n hn64
  simp only [List.length_append, hv] at hlen
  have hdr : d.drop (i + sovGenesis n) = rest := by
    rw [← List.drop_drop, hd, ← hv, List.drop_left]
  refine ⟨?_, hdr⟩
  unfold readLen
  rw [decodeVarint_varint 64 n i d rest hn64 hd]
  simp only [Nat.mod_eq_of_lt hn64]
  rw [negInt64_false n (by omega)]
  have e : (i + sovGenesis n + n) % 2 ^ 64 = i + sovGenesis n + n := Nat.mod_eq_of_lt (by omega)
  simp only [e, Bool.false_eq_true, if_false]
  rw [negInt64_false (i + sovGenesis n + n) (by omega)]
  simp only [Bool.false_eq_true, if_false]
  rw [if_neg (by omega)]

theorem readBytes_eq (d : List Byte) (i : Nat) (s rest : List Byte) (hl : d.length < 2 ^ 63)
    (hd : d.drop i = varint s.length ++ s ++ rest) :
    readBytes d d.length i = .ok (s, i + sovGenesis s.length + s.length)
      ∧ d.drop (i + sovGenesis s.length + s.length) = rest := by
  rw [List.append_assoc] at hd
  obtain ⟨h1, h2⟩ := readLen_eq d i s.length (s ++ rest) hl (by simp) hd
  have hlen := length_of_drop_eq d i _ hd (by simp [varint_ne_nil])
  have hv := varint_length s.length (by simp only [List.length_append] at hlen; omega)
  simp only [List.length_append, hv] at hlen
  have hdr : d.drop (i + sovGenesis s.length + s.length) = rest := by
    rw [← List.drop_drop, h2, List.drop_left]
  refine ⟨?_, hdr⟩
  unfold readBytes
  rw [h1]
  simp only [slice]
  rw [if_pos (by omega)]
  simp only [List.drop_take, h2]
  have : i + sovGenesis s.length + s.length - (i + sovGenesis s.length) = s.length := by omega
  rw [this, List.take_left]
theorem toInt32_uint64OfInt (r : Int) (h1 : -(2 : Int) ^ 31 ≤ r) (h2 : r < 2 ^ 31) :
    toInt32 (uint64OfInt r % 2 ^ 32) = r := by
  unfold toInt32 uint64OfInt
  simp only [Nat.mod_mod]
  norm_num at h1 h2 ⊢
  split_ifs <;> omega

theorem decodeVarint_tag (t i : Nat) (d rest : List Byte) (ht : t < 128)
    (hd : d.drop i = uint8 t :: rest) :
    decodeVarint 64 d d.length varintFuel 0 i 0 = (t, .ok (i + 1)) := by
  have := decodeVarint_varintBytes 64 0 t 0 i 0 varintFuel d rest (by simpa using ht) (by norm_num)
    (by decide) (by simpa [varintBytes] using hd)
  rw [this]
  simp [varintBytes]
  omega

theorem packet_unmarshalField_1 (m : InFlightPacket) (d : List Byte) (i : Nat) (s rest : List Byte)
    (hl : d.length < 2 ^ 63) (hd : d.drop i = (0x0a : Byte) :: varint s.length ++ s ++ rest) :
    m.unmarshalField d d.length i
      = ({ m with OriginalSenderAddress := s }, .ok (i + ((0x0a : Byte) :: varint s.length ++ s).length)) := by
  simp only [List.cons_append] at hd
  obtain ⟨_, h2, _⟩ := getElem?_of_drop_eq d i _ _ hd
  obtain ⟨h3, _⟩ := readBytes_eq d (i + 1) s rest hl h2
  have hv := varint_length s.length (by
    have := length_of_drop_eq d (i + 1) _ h2 (by simp [varint_ne_nil])
    simp only [List.length_append] at this; omega)
  unfold InFlightPacket.unmarshalField
  simp only
  rw [decodeVarint_tag 10 i d _ (by decide) hd]
  simp [toInt32, h3, hv, show (10 &&& 7 : Nat) = 2 by decide, show (18 &&& 7 : Nat) = 2 by decide, show (26 &&& 7 : Nat) = 2 by decide]
  omega

theorem packet_unmarshalField_2 (m : InFlightPacket) (d : List Byte) (i : Nat) (s rest : List Byte)
    (hl : d.length < 2 ^ 63) (hd : d.drop i = (0x12 : Byte) :: varint s.length ++ s ++ rest) :
    m.unmarshalField d d.length i
      = ({ m with RefundChannelId := s }, .ok (i + ((0x12 : Byte) :: varint s.length ++ s).length)) := by
  simp only [List.cons_append] at hd
  obtain ⟨_, h2, _⟩ := getElem?_of_drop_eq d i _ _ hd
  obtain ⟨h3, _⟩ := readBytes_eq d (i + 1) s rest hl h2
  have hv := varint_length s.length (by
    have := length_of_drop_eq d (i + 1) _ h2 (by simp [varint_ne_nil])
    simp only [List.length_append] at this; omega)
  unfold InFlightPacket.unmarshalField
  simp only
  rw [decodeVarint_tag 18 i d _ (by decide) hd]
  simp [toInt32, h3, hv, show (10 &&& 7 : Nat) = 2 by decide, show (18 &&& 7 : Nat) = 2 by decide, show (26 &&& 7 : Nat) = 2 by decide]
  omega

theorem packet_unmarshalField_3 (m : InFlightPacket) (d : List Byte) (i : Nat) (s rest : List Byte)
    (hl : d.length < 2 ^ 63) (hd : d.drop i = (0x1a : Byte) :: varint s.length ++ s ++ rest) :
    m.unmarshalField d d.length i
      = ({ m with RefundPortId := s }, .ok (i + ((0x1a : Byte) :: varint s.length ++ s).length)) := by
  simp only [List.cons_append] at hd
  obtain ⟨_, h2, _⟩ := getElem?_of_drop_eq d i _ _ hd
  obtain ⟨h3, _⟩ := readBytes_eq d (i + 1) s rest hl h2
  have hv := varint_length s.length (by
    have := length_of_drop_eq d (i + 1) _ h2 (by simp [varint_ne_nil])
    simp only [List.length_append] at this; omega)
  unfold InFlightPacket.unmarshalField
  simp only
  rw [decodeVarint_tag 26 i d _ (by decide) hd]
  simp [toInt32, h3, hv, show (10 &&& 7 : Nat) = 2 by decide, show (18 &&& 7 : Nat) = 2 by decide, show (26 &&& 7 : Nat) = 2 by decide]
  omega

theorem packet_unmarshalField_4 (m : InFlightPacket) (d : List Byte) (i : Nat) (r : Int)
    (rest : List Byte) (h1 : -(2 : Int) ^ 31 ≤ r) (h2 : r < 2 ^ 31)
    (hd : d.drop i = (0x20 : Byte) :: varint (uint64OfInt r) ++ rest) :
    m.unmarshalField d d.length i
      = ({ m with RetriesRemaining := r }, .ok (i + ((0x20 : Byte) :: varint (uint64OfInt r)).length)) := by
  simp only [List.cons_append] at hd
  obtain ⟨_, h3, _⟩ := getElem?_of_drop_eq d i _ _ hd
  have hv := varint_length (uint64OfInt r) (uint64OfInt_lt r)
  unfold InFlightPacket.unmarshalField
  simp only
  rw [decodeVarint_tag 32 i d _ (by decide) hd]
  simp only [decodeVarint_varint 32 _ (i + 1) d rest (uint64OfInt_lt r) h3,
    toInt32_uint64OfInt r h1 h2]
  simp [toInt32, hv, show (32 &&& 7 : Nat) = 0 by decide, show (40 &&& 7 : Nat) = 0 by decide]
  omega

theorem packet_unmarshalField_5 (m : InFlightPacket) (d : List Byte) (i : Nat) (t : Nat)
    (rest : List Byte) (ht : t < 2 ^ 64)
    (hd : d.drop i = (0x28 : Byte) :: varint t ++ rest) :
    m.unmarshalField d d.length i
      = ({ m with Timeout := t }, .ok (i + ((0x28 : Byte) :: varint t).length)) := by
  simp only [List.cons_append] at hd
  obtain ⟨_, h3, _⟩ := getElem?_of_drop_eq d i _ _ hd
  have hv := varint_length t ht
  unfold InFlightPacket.unmarshalField
  simp only
  rw [decodeVarint_tag 40 i d _ (by decide) hd]
  simp only [decodeVarint_varint 64 _ (i + 1) d rest ht h3, Nat.mod_eq_of_lt ht]
  simp [toInt32, hv, show (32 &&& 7 : Nat) = 0 by decide, show (40 &&& 7 : Nat) = 0 by decide]
  omega
theorem packet_unmarshalLoop_end (d : List Byte) (fuel : Nat) (m : InFlightPacket) :
    InFlightPacket.unmarshalLoop d d.length fuel m d.length = (m, none) := by
  cases fuel <;> simp [InFlightPacket.unmarshalLoop]

theorem packet_unmarshalLoop_field (d : List Byte) (m m' : InFlightPacket) (i : Nat)
    (F rest : List Byte) (R : InFlightPacket × Option Err)
    (hd : d.drop i = F ++ rest)
    (hF : F ≠ [] → m.unmarshalField d d.length i = (m', .ok (i + F.length)))
    (hF0 : F = [] → m' = m)
    (hR : d.drop (i + F.length) = rest → ∀ fuel, d.length - (i + F.length) ≤ fuel →
      InFlightPacket.unmarshalLoop d d.length fuel m' (i + F.length) = R) :
    ∀ fuel, d.length - i ≤ fuel → InFlightPacket.unmarshalLoop d d.length fuel m i = R := by
  intro fuel hfuel
  have hdr : d.drop (i + F.length) = rest := by
    rw [← List.drop_drop, hd, List.drop_left]
  by_cases h0 : F = []
  · have := hR hdr fuel (by omega)
    rw [hF0 h0] at this
    simpa [h0] using this
  · have hlen := length_of_drop_eq d i _ hd (by simp [h0])
    have hpos : 0 < F.length := List.length_pos.2 h0
    simp only [List.length_append] at hlen
    obtain ⟨f, rfl⟩ : ∃ f, fuel = f + 1 := ⟨fuel - 1, by omega⟩
    unfold InFlightPacket.unmarshalLoop
    rw [if_pos (by omega), hF h0]
    exact hR hdr f (by omega)

theorem packet_Unmarshal_wire (m : InFlightPacket) (h : m.WF) :
    InFlightPacket.zero.Unmarshal m.wire = (m, none) := by
  have hsz := packet_Size_le m
  have hwl := packet_wire_length m h
  obtain ⟨hW, ⟨hr1, hr2⟩, ht⟩ := h
  have hl : m.wire.length < 2 ^ 63 := by omega
  unfold InFlightPacket.Unmarshal
  generalize hd : m.wire = d at hl
  have hd0 : d.drop 0 = m.wire := by simp [hd]
  unfold InFlightPacket.wire at hd0
  simp only [List.append_assoc] at hd0
  refine packet_unmarshalLoop_field d _ { InFlightPacket.zero with OriginalSenderAddress := m.OriginalSenderAddress }
    0 _ _ _ hd0 ?_ ?_ ?_ d.length (by omega)
  · intro hne
    have hs : m.OriginalSenderAddress.length > 0 := by
      by_contra hc; exact hne (by simp [bytesField, hc])
    simp only [bytesField, if_pos hs] at hd0 ⊢
    exact packet_unmarshalField_1 _ d 0 _ _ hl (by simpa using hd0)
  · intro h0
    have : m.OriginalSenderAddress = [] := by
      by_contra hc
      have : m.OriginalSenderAddress.length > 0 := List.length_pos.2 hc
      simp [bytesField, this] at h0
    simp [this, InFlightPacket.zero]
  intro hd1
  refine packet_unmarshalLoop_field d _ { InFlightPacket.zero with
    OriginalSenderAddress := m.OriginalSenderAddress, RefundChannelId := m.RefundChannelId }
    _ _ _ _ hd1 ?_ ?_ ?_
  · intro hne
    have hs : m.RefundChannelId.length > 0 := by
      by_contra hc; exact hne (by simp [bytesField, hc])
    simp only [bytesField, if_pos hs] at hd1 ⊢
    exact packet_unmarshalField_2 _ d _ _ _ hl (by simpa using hd1)
  · intro h0
    have : m.RefundChannelId = [] := by
      by_contra hc
      have : m.RefundChannelId.length > 0 := List.length_pos.2 hc
      simp [bytesField, this] at h0
    simp [this, InFlightPacket.zero]
  intro hd2
  refine packet_unmarshalLoop_field d _ { InFlightPacket.zero with
    OriginalSenderAddress := m.OriginalSenderAddress, RefundChannelId := m.RefundChannelId,
    RefundPortId := m.RefundPortId }
    _ _ _ _ hd2 ?_ ?_ ?_
  · intro hne
    have hs : m.RefundPortId.length > 0 := by
      by_contra hc; exact hne (by simp [bytesField, hc])
    simp only [bytesField, if_pos hs] at hd2 ⊢
    exact packet_unmarshalField_3 _ d _ _ _ hl (by simpa using hd2)
  · intro h0
    have : m.RefundPortId = [] := by
      by_contra hc
      have : m.RefundPortId.length > 0 := List.length_pos.2 hc
      simp [bytesField, this] at h0
    simp [this, InFlightPacket.zero]
  intro hd3
  refine packet_unmarshalLoop_field d _ { InFlightPacket.zero with
    OriginalSenderAddress := m.OriginalSenderAddress, RefundChannelId := m.RefundChannelId,
    RefundPortId := m.RefundPortId, RetriesRemaining := m.RetriesRemaining }
    _ _ _ _ hd3 ?_ ?_ ?_
  · intro hne
    have hs : m.RetriesRemaining ≠ 0 := by
      intro hc; exact hne (by simp [hc])
    simp only [if_pos hs] at hd3 ⊢
    exact packet_unmarshalField_4 _ d _ _ _ hr1 hr2 (by simpa using hd3)
  · intro h0
    have : m.RetriesRemaining = 0 := by
      by_contra hc
      simp [hc] at h0
    simp [this, InFlightPacket.zero]
  intro hd4
  refine packet_unmarshalLoop_field d _ m _ _ [] _ (by simpa using hd4) ?_ ?_ ?_
  · intro hne
    have hs : m.Timeout ≠ 0 := by
      intro hc; exact hne (by simp [hc])
    simp only [if_pos hs] at hd4 ⊢
    have := packet_unmarshalField_5 { InFlightPacket.zero with
      OriginalSenderAddress := m.OriginalSenderAddress, RefundChannelId := m.RefundChannelId,
      RefundPortId := m.RefundPortId, RetriesRemaining := m.RetriesRemaining } d _ _ [] ht
      (by simpa using hd4)
    simpa [hs] using this
  · intro h0
    have : m.Timeout = 0 := by
      by_contra hc
      simp [hc] at h0
    simp [← this, InFlightPacket.zero]
  intro hd5 fuel _
  have key := packet_unmarshalLoop_end d fuel m
  convert key using 2
  rw [← hd]
  simp only [InFlightPacket.wire, List.length_append]
  simp
theorem params_unmarshalLoop_end {C : DecCodec} (d : List Byte) (fuel : Nat) (m : Params C) :
    Params.unmarshalLoop d d.length fuel m d.length = (m, none) := by
  cases fuel <;> simp [Params.unmarshalLoop]

theorem params_Unmarshal_wire {C : DecCodec} (p p₀ : Params C) (hm : C.Marshals p.FeePercentage) :
    p₀.Unmarshal p.wire
      = (⟨(C.Unmarshal p₀.FeePercentage (C.text p.FeePercentage)).1⟩,
          (C.Unmarshal p₀.FeePercentage (C.text p.FeePercentage)).2) := by
  obtain ⟨h1, h2, _⟩ := hm
  have hv := varint_length (C.Size p.FeePercentage) (by omega)
  have hs := sovGenesis_le_ten (C.Size p.FeePercentage) (by omega)
  have hlen : p.wire.length = 1 + sovGenesis (C.Size p.FeePercentage) + C.Size p.FeePercentage := by
    simp only [Params.wire, List.length_append, List.length_cons, hv, h2]; omega
  unfold Params.Unmarshal
  generalize hd : p.wire = d at hlen
  have hd0 : d.drop 0 = (0x0a : Byte) :: (varint (C.text p.FeePercentage).length ++ C.text p.FeePercentage ++ []) := by
    simp [← hd, Params.wire, h2]
  obtain ⟨_, hd1, _⟩ := getElem?_of_drop_eq d 0 _ _ hd0
  obtain ⟨hrb, _⟩ := readBytes_eq d (0 + 1) _ _ (by omega) hd1
  obtain ⟨f, hf⟩ : ∃ f, d.length = f + 1 := ⟨d.length - 1, by omega⟩
  have hidx : 0 + 1 + sovGenesis (C.text p.FeePercentage).length + (C.text p.FeePercentage).length = d.length := by
    rw [h2]; omega
  rw [hidx] at hrb
  conv_lhs => arg 3; rw [hf]
  unfold Params.unmarshalLoop
  rw [if_pos (by omega)]
  unfold Params.unmarshalField
  simp only
  rw [decodeVarint_tag 10 0 d _ (by decide) hd0]
  simp only [toInt32, show (10 &&& 7 : Nat) = 2 by decide, show (10 >>> 3 : Nat) = 1 by decide]
  norm_num
  rw [hrb]
  simp only
  rcases hC : C.Unmarshal p₀.FeePercentage (C.text p.FeePercentage) with ⟨dd, _ | e⟩
  · simp only
    rw [params_unmarshalLoop_end]
  · simp only
theorem entryField_key (d : List Byte) (post i : Nat) (mk k rest : List Byte) (mv : InFlightPacket)
    (hl : d.length < 2 ^ 63) (hd : d.drop i = (0x0a : Byte) :: varint k.length ++ k ++ rest) :
    entryField d d.length post mk mv i
      = .ok (k, mv, i + ((0x0a : Byte) :: varint k.length ++ k).length)
      ∧ d.drop (i + ((0x0a : Byte) :: varint k.length ++ k).length) = rest := by
  simp only [List.cons_append] at hd
  obtain ⟨_, h2, _⟩ := getElem?_of_drop_eq d i _ _ hd
  obtain ⟨h3, h4⟩ := readBytes_eq d (i + 1) k rest hl h2
  have hv := varint_length k.length (by
    have := length_of_drop_eq d (i + 1) _ h2 (by simp [varint_ne_nil])
    simp only [List.length_append] at this; omega)
  have e : i + ((0x0a : Byte) :: varint k.length ++ k).length = i + 1 + sovGenesis k.length + k.length := by
    simp only [List.length_append, List.length_cons, hv]; omega
  rw [e]
  refine ⟨?_, h4⟩
  unfold entryField
  simp only
  rw [decodeVarint_tag 10 i d _ (by decide) hd]
  simp only [toInt32, show (10 >>> 3 : Nat) = 1 by decide]
  norm_num
  rw [h3]

theorem entryField_value (d : List Byte) (post i : Nat) (mk rest : List Byte) (mv v : InFlightPacket)
    (hv : v.WF)
    (hl : d.length < 2 ^ 63) (hd : d.drop i = (0x12 : Byte) :: varint v.wire.length ++ v.wire ++ rest) :
    entryField d d.length post mk mv i
      = .ok (mk, v, i + ((0x12 : Byte) :: varint v.wire.length ++ v.wire).length)
      ∧ d.drop (i + ((0x12 : Byte) :: varint v.wire.length ++ v.wire).length) = rest := by
  simp only [List.cons_append] at hd
  obtain ⟨_, h2, _⟩ := getElem?_of_drop_eq d i _ _ hd
  obtain ⟨h3, h4⟩ := readBytes_eq d (i + 1) v.wire rest hl h2
  have hvl := varint_length v.wire.length (by
    have := length_of_drop_eq d (i + 1) _ h2 (by simp [varint_ne_nil])
    simp only [List.length_append] at this; omega)
  have e : i + ((0x12 : Byte) :: varint v.wire.length ++ v.wire).length
      = i + 1 + sovGenesis v.wire.length + v.wire.length := by
    simp only [List.length_append, List.length_cons, hvl]; omega
  rw [e]
  refine ⟨?_, h4⟩
  unfold entryField
  simp only
  rw [decodeVarint_tag 18 i d _ (by decide) hd]
  simp only [toInt32, show (18 >>> 3 : Nat) = 2 by decide]
  norm_num
  rw [h3]
  simp only [packet_Unmarshal_wire v hv]

theorem entryLoop_body (d : List Byte) (i : Nat) (k rest : List Byte) (v : InFlightPacket)
    (hv : v.WF) (hl : d.length < 2 ^ 63)
    (hd : d.drop i = ((0x0a : Byte) :: varint k.length ++ k) ++
      ((0x12 : Byte) :: varint v.wire.length ++ v.wire) ++ rest) :
    entryLoop d d.length
      (i + (((0x0a : Byte) :: varint k.length ++ k) ++ ((0x12 : Byte) :: varint v.wire.length ++ v.wire)).length)
      (((0x0a : Byte) :: varint k.length ++ k) ++ ((0x12 : Byte) :: varint v.wire.length ++ v.wire)).length
      [] InFlightPacket.zero i = .ok (k, v) := by
  rw [List.append_assoc] at hd
  obtain ⟨h1, h2⟩ := entryField_key d
    (i + (((0x0a : Byte) :: varint k.length ++ k) ++ ((0x12 : Byte) :: varint v.wire.length ++ v.wire)).length)
    i [] k _ InFlightPacket.zero hl hd
  obtain ⟨h3, h4⟩ := entryField_value d
    (i + (((0x0a : Byte) :: varint k.length ++ k) ++ ((0x12 : Byte) :: varint v.wire.length ++ v.wire)).length)
    _ k rest InFlightPacket.zero v hv hl h2
  generalize hA : ((0x0a : Byte) :: varint k.length ++ k) = A at *
  generalize hB : ((0x12 : Byte) :: varint v.wire.length ++ v.wire) = B at *
  have hA1 : 1 ≤ A.length := by rw [← hA]; simp
  have hB1 : 1 ≤ B.length := by rw [← hB]; simp
  obtain ⟨f, hf⟩ : ∃ f, (A ++ B).length = f + 1 + 1 := ⟨(A ++ B).length - 2, by
    simp only [List.length_append]; omega⟩
  conv_lhs => arg 4; rw [hf]
  simp only [List.length_append] at hf h1 h3 ⊢
  unfold entryLoop
  rw [if_pos (by omega), h1]
  simp only
  unfold entryLoop
  rw [if_pos (by omega), h3]
  simp only
  cases f <;> simp [entryLoop] <;> omega
theorem entryWire_eq (k : List Byte) (v : InFlightPacket) :
    entryWire k v = (0x12 : Byte) :: varint
      (((0x0a : Byte) :: varint k.length ++ k) ++ ((0x12 : Byte) :: varint v.wire.length ++ v.wire)).length
      ++ (((0x0a : Byte) :: varint k.length ++ k) ++ ((0x12 : Byte) :: varint v.wire.length ++ v.wire)) := rfl

theorem genesis_unmarshalField_entry {C : DecCodec} (m : GenesisState C) (d : List Byte) (i : Nat)
    (k rest : List Byte) (v : InFlightPacket) (hv : v.WF) (hl : d.length < 2 ^ 63)
    (hd : d.drop i = entryWire k v ++ rest) :
    m.unmarshalField d d.length i
      = ({ m with InFlightPackets := some (insertEntry k v (m.InFlightPackets.getD [])) },
          .ok (i + (entryWire k v).length)) := by
  rw [entryWire_eq] at hd ⊢
  generalize hB : (((0x0a : Byte) :: varint k.length ++ k) ++ ((0x12 : Byte) :: varint v.wire.length ++ v.wire)) = B at hd ⊢
  simp only [List.cons_append, List.append_assoc] at hd
  obtain ⟨_, h2, _⟩ := getElem?_of_drop_eq d i _ _ hd
  obtain ⟨h3, h4⟩ := readLen_eq d (i + 1) B.length (B ++ rest) hl (by simp) h2
  have hvl := varint_length B.length (by
    have := length_of_drop_eq d (i + 1) _ h2 (by simp [varint_ne_nil])
    simp only [List.length_append] at this; omega)
  have hloop := entryLoop_body d (i + 1 + sovGenesis B.length) k rest v hv hl
    (by rw [hB]; exact h4)
  rw [hB] at hloop
  have e : i + ((0x12 : Byte) :: varint B.length ++ B).length = i + 1 + sovGenesis B.length + B.length := by
    simp only [List.length_append, List.length_cons, hvl]; omega
  rw [e]
  unfold GenesisState.unmarshalField
  simp only
  rw [decodeVarint_tag 18 i d _ (by decide) hd]
  simp only [toInt32, show (18 >>> 3 : Nat) = 2 by decide, show (18 &&& 7 : Nat) = 2 by decide]
  norm_num
  rw [h3]
  simp only
  have e2 : i + 1 + sovGenesis B.length + B.length - (i + 1 + sovGenesis B.length) = B.length := by omega
  rw [e2, hloop]
  cases m.InFlightPackets <;> rfl

theorem genesis_unmarshalField_params {C : DecCodec} (m : GenesisState C) (d : List Byte) (i : Nat)
    (p : Params C) (rest : List Byte) (hm : C.Marshals p.FeePercentage) (hl : d.length < 2 ^ 63)
    (hd : d.drop i = (0x0a : Byte) :: varint p.wire.length ++ p.wire ++ rest) :
    m.unmarshalField d d.length i
      = ({ m with Params := ⟨(C.Unmarshal m.Params.FeePercentage (C.text p.FeePercentage)).1⟩ },
          match (C.Unmarshal m.Params.FeePercentage (C.text p.FeePercentage)).2 with
          | some e => .error e
          | none => .ok (i + ((0x0a : Byte) :: varint p.wire.length ++ p.wire).length)) := by
  simp only [List.cons_append, List.append_assoc] at hd
  obtain ⟨_, h2, _⟩ := getElem?_of_drop_eq d i _ _ hd
  rw [← List.append_assoc] at h2
  obtain ⟨h3, h4⟩ := readBytes_eq d (i + 1) _ rest hl h2
  have hvl := varint_length p.wire.length (by
    have := length_of_drop_eq d (i + 1) _ h2 (by simp [varint_ne_nil])
    simp only [List.length_append] at this; omega)
  have e : i + ((0x0a : Byte) :: varint p.wire.length ++ p.wire).length
      = i + 1 + sovGenesis p.wire.length + p.wire.length := by
    simp only [List.length_append, List.length_cons, hvl]; omega
  rw [e]
  unfold GenesisState.unmarshalField
  simp only
  rw [decodeVarint_tag 10 i d _ (by decide) hd]
  simp only [toInt32, show (10 >>> 3 : Nat) = 1 by decide, show (10 &&& 7 : Nat) = 2 by decide]
  norm_num
  rw [h3]
  simp only [params_Unmarshal_wire p m.Params hm]
  rcases hC : (C.Unmarshal m.Params.FeePercentage (C.text p.FeePercentage)).2 with _ | e <;> simp

theorem genesis_unmarshalLoop_end {C : DecCodec} (d : List Byte) (fuel : Nat) (m : GenesisState C) :
    GenesisState.unmarshalLoop d d.length fuel m d.length = (m, none) := by
  cases fuel <;> simp [GenesisState.unmarshalLoop]

theorem genesis_unmarshalLoop_entries {C : DecCodec} (d : List Byte) (hl : d.length < 2 ^ 63) :
    ∀ (es : List (List Byte × InFlightPacket)) (m : GenesisState C) (i : Nat), (∀ e ∈ es, e.2.WF) →
      i ≤ d.length → d.drop i = (es.map fun e => entryWire e.1 e.2).flatten →
      ∀ fuel, d.length - i ≤ fuel →
      GenesisState.unmarshalLoop d d.length fuel m i
        = ({ m with InFlightPackets := applyEntries m.InFlightPackets es }, none) := by
  intro es
  induction es with
  | nil =>
    intro m i _ hi hd fuel _
    have : i = d.length := by
      have := congrArg List.length hd
      simp at this; omega
    rw [this, genesis_unmarshalLoop_end]
    rfl
  | cons e es ih =>
    intro m i hwf hi hd fuel hfuel
    simp only [List.map_cons, List.flatten_cons] at hd
    have hstep := genesis_unmarshalField_entry m d i e.1 _ e.2 (hwf e (List.mem_cons_self _ _)) hl hd
    have hlen := length_of_drop_eq d i _ hd (by simp [entryWire])
    have hpos : 1 ≤ (entryWire e.1 e.2).length := by simp [entryWire]
    simp only [List.length_append] at hlen
    obtain ⟨f, rfl⟩ : ∃ f, fuel = f + 1 := ⟨fuel - 1, by omega⟩
    unfold GenesisState.unmarshalLoop
    rw [if_pos (by omega), hstep]
    simp only
    rw [ih _ (i + (entryWire e.1 e.2).length) (fun e' he' => hwf e' (List.mem_cons_of_mem _ he'))
      (by omega) (by rw [← List.drop_drop, hd, List.drop_left]) f (by omega)]
    rfl

theorem genesis_Unmarshal_snapshotWire {C : DecCodec} (s : GenesisState C) (p : Params C)
    (es : List (List Byte × InFlightPacket)) (hm : C.Marshals p.FeePercentage)
    (hwf : ∀ e ∈ es, e.2.WF) (hl : (snapshotWire p es).length < 2 ^ 63)
    (hC : (C.Unmarshal s.Params.FeePercentage (C.text p.FeePercentage)).2 = none) :
    s.Unmarshal (snapshotWire p es)
      = (⟨⟨(C.Unmarshal s.Params.FeePercentage (C.text p.FeePercentage)).1⟩,
          applyEntries s.InFlightPackets es⟩, none) := by
  unfold GenesisState.Unmarshal
  generalize hd : snapshotWire p es = d at hl
  have hd0 : d.drop 0 = (0x0a : Byte) :: varint p.wire.length ++ p.wire ++
      (es.map fun e => entryWire e.1 e.2).flatten := by
    simp [← hd, snapshotWire]
  have hstep := genesis_unmarshalField_params s d 0 p _ hm hl hd0
  rw [hC] at hstep
  simp only at hstep
  have hlen := length_of_drop_eq d 0 _ hd0 (by simp)
  rw [List.length_append] at hlen
  have hpos : 1 ≤ ((0x0a : Byte) :: varint p.wire.length ++ p.wire).length := by simp
  obtain ⟨f, hf⟩ : ∃ f, d.length = f + 1 := ⟨d.length - 1, by omega⟩
  conv_lhs => arg 3; rw [hf]
  unfold GenesisState.unmarshalLoop
  rw [if_pos (by omega), hstep]
  simp only
  rw [genesis_unmarshalLoop_entries d hl es _ _ hwf (by omega)
    (by rw [← List.drop_drop, hd0, List.drop_left]) f (by omega)]
theorem lookup_filter_ne (es : List (List Byte × InFlightPacket)) (k k' : List Byte) :
    (es.filter (fun e => !(e.1 == k))).lookup k' = if k' = k then none else es.lookup k' := by
  induction es with
  | nil => simp
  | cons e es ih =>
    obtain ⟨a, b⟩ := e
    by_cases hak : a = k
    · subst hak
      simp only [List.filter_cons, beq_self_eq_true, Bool.not_true, Bool.false_eq_true, if_false, ih]
      by_cases hk : k' = a
      · simp [hk]
      · have : (k' == a) = false := by simpa using hk
        simp [hk, List.lookup_cons, this]
    · have h1 : (a == k) = false := by simpa using hak
      simp only [List.filter_cons, h1, Bool.not_false, if_true, List.lookup_cons, ih]
      by_cases hk : k' = a
      · subst hk
        simp [hak]
      · have : (k' == a) = false := by simpa using hk
        simp [this]

theorem get_insertEntry (es : List (List Byte × InFlightPacket)) (k k' : List Byte) (v : InFlightPacket) :
    PacketMap.get (some (insertEntry k v es)) k' = if k' = k then some v else PacketMap.get (some es) k' := by
  simp only [PacketMap.get, insertEntry, List.lookup_cons, lookup_filter_ne]
  by_cases hk : k' = k
  · simp [hk]
  · have : (k' == k) = false := by simpa using hk
    simp [hk, this]

theorem get_getD (mp : PacketMap) (k : List Byte) : PacketMap.get (some (mp.getD [])) k = mp.get k := by
  cases mp <;> simp [PacketMap.get]

theorem get_applyEntries (es : List (List Byte × InFlightPacket)) : ∀ (mp : PacketMap) (k : List Byte),
    (applyEntries mp es).get k = (es.reverse.lookup k).or (mp.get k) := by
  induction es with
  | nil => intro mp k; simp [applyEntries]
  | cons e es ih =>
    intro mp k
    obtain ⟨a, b⟩ := e
    have : applyEntries mp ((a, b) :: es) = applyEntries (some (insertEntry a b (mp.getD []))) es := rfl
    rw [this, ih, get_insertEntry, get_getD]
    simp only [List.reverse_cons, List.lookup_append]
    cases h : List.lookup k es.reverse with
    | some v => simp
    | none =>
      by_cases hk : k = a
      · simp [hk, List.lookup_cons]
      · have : (k == a) = false := by simpa using hk
        simp [hk, List.lookup_cons, this]

theorem lookup_map_pair (ks : List (List Byte)) (f : List Byte → InFlightPacket) (k : List Byte) :
    (ks.map fun k => (k, f k)).lookup k = if k ∈ ks then some (f k) else none := by
  induction ks with
  | nil => simp
  | cons a ks ih =>
    by_cases hk : k = a
    · subst hk; simp [List.lookup_cons]
    · have : (k == a) = false := by simpa using hk
      simp [List.lookup_cons, this, ih, hk]

theorem packetMap_get_eq_none_of_not_mem (mp : PacketMap) (k : List Byte) (h : k ∉ mp.keys) :
    mp.get k = none := by
  cases mp with
  | none => rfl
  | some es =>
    simp only [PacketMap.get, List.lookup_eq_none_iff]
    intro e he
    simp only [bne_iff_ne, ne_eq]
    intro hk
    apply h
    simp only [PacketMap.keys, List.mem_map]
    exact ⟨e, he, hk.symm⟩

theorem get_applyEntries_enum (mp mp₀ : PacketMap) (ks : List (List Byte)) (hks : mp.Enumerates ks)
    (k : List Byte) :
    (applyEntries mp₀ (ks.map fun k => (k, mp.index k))).get k = (mp.get k).or (mp₀.get k) := by
  rw [get_applyEntries, ← List.map_reverse, lookup_map_pair]
  by_cases hk : k ∈ ks
  · obtain ⟨v, hv, hi⟩ := packetMap_get_of_mem_keys mp k (hks.mem_iff.1 hk)
    simp [hk, hv, hi]
  · have := packetMap_get_eq_none_of_not_mem mp k (fun h => hk (hks.mem_iff.2 h))
    simp [hk, this]
theorem genesis_wire_eq_snapshotWire {C : DecCodec} (g : GenesisState C) (ks : List (List Byte)) :
    g.wire ks = snapshotWire g.Params (ks.map fun k => (k, g.InFlightPackets.index k)) := by
  simp [GenesisState.wire, snapshotWire, entriesWire, List.map_map, Function.comp_def]

theorem genesis_Unmarshal_snapshotWire_error {C : DecCodec} (s : GenesisState C) (p : Params C)
    (es : List (List Byte × InFlightPacket)) (hm : C.Marshals p.FeePercentage)
    (hl : (snapshotWire p es).length < 2 ^ 63) (e : Err)
    (hC : (C.Unmarshal s.Params.FeePercentage (C.text p.FeePercentage)).2 = some e) :
    (s.Unmarshal (snapshotWire p es)).2 = some e := by
  unfold GenesisState.Unmarshal
  generalize hd : snapshotWire p es = d at hl
  have hd0 : d.drop 0 = (0x0a : Byte) :: varint p.wire.length ++ p.wire ++
      (es.map fun e => entryWire e.1 e.2).flatten := by
    simp [← hd, snapshotWire]
  have hstep := genesis_unmarshalField_params s d 0 p _ hm hl hd0
  rw [hC] at hstep
  simp only at hstep
  have hlen := length_of_drop_eq d 0 _ hd0 (by simp)
  rw [List.length_append] at hlen
  have hpos : 1 ≤ ((0x0a : Byte) :: varint p.wire.length ++ p.wire).length := by simp
  obtain ⟨f, hf⟩ : ∃ f, d.length = f + 1 := ⟨d.length - 1, by omega⟩
  conv_lhs => arg 1; arg 3; rw [hf]
  unfold GenesisState.unmarshalLoop
  rw [if_pos (by omega), hstep]

theorem keys_applyEntries (es : List (List Byte × InFlightPacket)) : ∀ (mp : PacketMap),
    (es.map Prod.fst).Nodup → (∀ k ∈ es.map Prod.fst, k ∉ mp.keys) → es ≠ [] →
    (applyEntries mp es).keys = (es.map Prod.fst).reverse ++ mp.keys := by
  induction es with
  | nil => intro mp _ _ h; exact absurd rfl h
  | cons e es ih =>
    intro mp hnd hdis _
    obtain ⟨a, b⟩ := e
    have hstep : applyEntries mp ((a, b) :: es) = applyEntries (some (insertEntry a b (mp.getD []))) es := rfl
    have hk : PacketMap.keys (some (insertEntry a b (mp.getD []))) = a :: mp.keys := by
      have ha : a ∉ mp.keys := hdis a (by simp)
      have : (mp.getD []).filter (fun e => !(e.1 == a)) = mp.getD [] := by
        apply List.filter_eq_self.2
        intro e he
        simp only [Bool.not_eq_eq_eq_not, Bool.not_true, beq_eq_false_iff_ne, ne_eq]
        intro h
        apply ha
        cases mp with
        | none => simp at he
        | some l =>
          simp only [PacketMap.keys, List.mem_map]
          exact ⟨e, he, h⟩
      simp only [PacketMap.keys, insertEntry, this, List.map_cons]
      cases mp <;> rfl
    by_cases hes : es = []
    · subst hes
      rw [hstep]
      simp [applyEntries, hk]
    · rw [hstep, ih _ (List.nodup_cons.1 (by simpa using hnd)).2 ?_ hes, hk]
      · simp
      · intro k hkm
        rw [hk]
        simp only [List.mem_cons, not_or]
        constructor
        · intro h
          subst h
          exact (List.nodup_cons.1 (by simpa using hnd)).1 hkm
        · exact hdis k (by simp only [List.map_cons, List.mem_cons]; exact Or.inr hkm)

theorem packetMap_wf_some (es : List (List Byte × InFlightPacket)) (hnd : (es.map Prod.fst).Nodup)
    (h : ∀ e ∈ es, e.1.length < 2 ^ 62 ∧ e.2.WF) : PacketMap.WF (some es) := by
  refine ⟨hnd, ?_⟩
  intro k v hkv
  simp only [PacketMap.get] at hkv
  have := List.lookup_eq_some_iff.1 hkv
  obtain ⟨l1, l2, rfl, _⟩ := this
  exact h (k, v) (by simp)

theorem textDec_marshals (d : List Byte) (h : d.length < 2 ^ 62) : textDec.Marshals d := by
  have ht : textDec.text d = d := by
    simp [DecCodec.text, textDec]
  refine ⟨h, ?_, ?_⟩
  · rw [ht]; rfl
  · intro buf hb
    rw [ht]
    have hb' : d.length ≤ buf.length := hb
    simp only [textDec]
    rw [List.take_of_length_le hb', Nat.min_eq_left hb']

theorem textDec_roundTrips (d : List Byte) : textDec.RoundTrips d := by
  have ht : textDec.text d = d := by
    simp [DecCodec.text, textDec]
  unfold DecCodec.RoundTrips
  rw [ht]
  rfl
theorem toInt32_range (n : Nat) : -(2 : Int) ^ 31 ≤ toInt32 n ∧ toInt32 n < 2 ^ 31 := by
  unfold toInt32
  have : n % 2 ^ 32 < 2 ^ 32 := Nat.mod_lt _ (by norm_num)
  norm_num at this ⊢
  split_ifs <;> omega

theorem packet_unmarshalField_retries (m : InFlightPacket) (d : List Byte) (l i : Nat) :
    (m.unmarshalField d l i).1.RetriesRemaining = m.RetriesRemaining ∨
      ∃ x, (m.unmarshalField d l i).1.RetriesRemaining = toInt32 x := by
  unfold InFlightPacket.unmarshalField
  simp only
  repeat' split
  all_goals first
    | (left; rfl)
    | (right; exact ⟨_, rfl⟩)

theorem packet_unmarshalLoop_retries (d : List Byte) (l : Nat) : ∀ (fuel : Nat) (m : InFlightPacket) (i : Nat),
    (-(2 : Int) ^ 31 ≤ m.RetriesRemaining ∧ m.RetriesRemaining < 2 ^ 31) →
    (-(2 : Int) ^ 31 ≤ (InFlightPacket.unmarshalLoop d l fuel m i).1.RetriesRemaining ∧
      (InFlightPacket.unmarshalLoop d l fuel m i).1.RetriesRemaining < 2 ^ 31) := by
  intro fuel
  induction fuel with
  | zero =>
    intro m i h
    unfold InFlightPacket.unmarshalLoop
    split_ifs <;> exact h
  | succ n ih =>
    intro m i h
    unfold InFlightPacket.unmarshalLoop
    have hstep := packet_unmarshalField_retries m d l i
    have hm' : -(2 : Int) ^ 31 ≤ (m.unmarshalField d l i).1.RetriesRemaining ∧
        (m.unmarshalField d l i).1.RetriesRemaining < 2 ^ 31 := by
      rcases hstep with h1 | ⟨x, h1⟩
      · rw [h1]; exact h
      · rw [h1]; exact toInt32_range x
    split_ifs
    · rcases hr : m.unmarshalField d l i with ⟨m', _ | i'⟩
      · rw [hr] at hm'; exact hm'
      · rw [hr] at hm'; exact ih m' i' hm'
    · exact h
    · exact h

theorem genesis_unmarshalField_map {C : DecCodec} (m : GenesisState C) (d : List Byte) (l i : Nat) :
    (m.unmarshalField d l i).1.InFlightPackets = m.InFlightPackets ∨
    (m.unmarshalField d l i).1.InFlightPackets = some (m.InFlightPackets.getD []) ∨
    ∃ k v, (m.unmarshalField d l i).1.InFlightPackets = some (insertEntry k v (m.InFlightPackets.getD [])) := by
  unfold GenesisState.unmarshalField
  rcases hmp : m.InFlightPackets with _ | es
  all_goals
    simp only [Option.getD]
    repeat' split
    all_goals first
      | (left; exact hmp)
      | (left; rfl)
      | (right; left; rfl)
      | (right; right; exact ⟨_, _, rfl⟩)

theorem genesis_unmarshalLoop_keeps {C : DecCodec} (d : List Byte) (l : Nat) (k : List Byte) :
    ∀ (fuel : Nat) (m : GenesisState C) (i : Nat), (m.InFlightPackets.get k).isSome →
      ((GenesisState.unmarshalLoop d l fuel m i).1.InFlightPackets.get k).isSome := by
  intro fuel
  induction fuel with
  | zero =>
    intro m i h
    unfold GenesisState.unmarshalLoop
    split_ifs <;> exact h
  | succ n ih =>
    intro m i h
    unfold GenesisState.unmarshalLoop
    have hm' : ((m.unmarshalField d l i).1.InFlightPackets.get k).isSome := by
      rcases genesis_unmarshalField_map m d l i with h1 | h1 | ⟨k', v, h1⟩
      · rw [h1]; exact h
      · rw [h1, get_getD]; exact h
      · rw [h1, get_insertEntry, get_getD]
        split_ifs
        · rfl
        · exact h
    split_ifs
    · rcases hr : m.unmarshalField d l i with ⟨m', _ | i'⟩
      · rw [hr] at hm'; exact hm'
      · rw [hr] at hm'; exact ih m' i' hm'
    · exact h
    · exact h
theorem exPacket_wf : exPacket.WF := by
  unfold InFlightPacket.WF exPacket
  decide

theorem zero_wf : InFlightPacket.zero.WF := by
  unfold InFlightPacket.WF InFlightPacket.zero
  decide

theorem exLater_wf : exLater.WF := by
  unfold InFlightPacket.WF exLater
  decide

theorem exGenesis_wf : exGenesis.WF := by
  refine ⟨textDec_marshals _ (by decide), packetMap_wf_some _ (by decide) ?_⟩
  intro e he
  simp only [List.mem_cons, List.mem_singleton, List.not_mem_nil, or_false] at he
  rcases he with rfl | rfl
  · exact ⟨by decide, exPacket_wf⟩
  · exact ⟨by decide, zero_wf⟩

theorem exGenesisOne_wf : exGenesisOne.WF := by
  refine ⟨textDec_marshals _ (by decide), packetMap_wf_some _ (by decide) ?_⟩
  intro e he
  simp only [List.mem_singleton] at he
  subst he
  exact ⟨by decide, exPacket_wf⟩

theorem exGenesis_enum : exGenesis.InFlightPackets.Enumerates [[7], [8, 9]] := List.Perm.refl _

theorem exGenesis_enum_swap : exGenesis.InFlightPackets.Enumerates [[8, 9], [7]] :=
  List.Perm.swap _ _ _

theorem exGenesisOne_enum : exGenesisOne.InFlightPackets.Enumerates [[7]] := List.Perm.refl _

theorem exDup_wf : ∀ e ∈ ([] : List (List Byte × InFlightPacket)) ++ ([7], InFlightPacket.zero) :: [] ++
    ([7], exLater) :: [], e.2.WF := by
  intro e he
  simp only [List.nil_append, List.cons_append, List.mem_cons, List.mem_singleton, List.not_mem_nil,
    or_false] at he
  rcases he with rfl | rfl
  · exact zero_wf
  · exact exLater_wf
theorem sovGenesis_lt_pow (x : Nat) (hx : x < 2 ^ 64) : x < 2 ^ (7 * sovGenesis x) :=
  (sovGenesis_le_iff x (sovGenesis x) hx (sovGenesis_pos x)).1 (le_refl _)

/-- The `j`-th byte of a varint: the `j`-th 7-bit group, with the high bit set unless it is the last. -/
theorem varintBytes_getElem (n : Nat) : ∀ (v j : Nat), v < 2 ^ (7 * (n + 1)) →
    j < (varintBytes n v).length →
    (varintBytes n v)[j]? = some (uint8 ((v / 128 ^ j) % 128 +
      if j + 1 < (varintBytes n v).length then 128 else 0)) := by
  induction n with
  | zero =>
    intro v j hv hj
    have hv : v < 128 := by simpa using hv
    simp only [varintBytes, List.length_singleton] at hj ⊢
    have : j = 0 := by omega
    subst this
    simp [Nat.mod_eq_of_lt hv]
  | succ n ih =>
    intro v j hv hj
    unfold varintBytes at hj ⊢
    by_cases h128 : v < 128
    · simp only [if_pos h128, List.length_singleton] at hj ⊢
      have : j = 0 := by omega
      subst this
      simp [Nat.mod_eq_of_lt h128]
    · simp only [if_neg h128, List.length_cons] at hj ⊢
      have hq : v / 128 < 2 ^ (7 * (n + 1)) := by
        rw [Nat.div_lt_iff_lt_mul (by decide)]
        have : 2 ^ (7 * (n + 1 + 1)) = 2 ^ (7 * (n + 1)) * 128 := by
          rw [Nat.mul_add 7 (n + 1) 1, pow_add]; norm_num
        omega
      have hpos := varintBytes_length_le n (v / 128)
      cases j with
      | zero =>
        simp only [List.getElem?_cons_zero, pow_zero, Nat.div_one]
        rw [if_pos (by omega)]
      | succ j =>
        simp only [List.getElem?_cons_succ]
        rw [ih (v / 128) j hq (by omega)]
        have e : v / 128 / 128 ^ j = v / 128 ^ (j + 1) := by
          rw [Nat.div_div_eq_div_mul, pow_succ, Nat.mul_comm]
        rw [e]
        congr 3
        simp only [Nat.add_lt_add_iff_right]
theorem decodeVarint_continue (w : Nat) (d : List Byte) : ∀ (n fuel shift i acc : Nat),
    (∀ j, j < n → ∃ x : Byte, d[i + j]? = some x ∧ 0x80 ≤ x.val) → i + n ≤ d.length →
    shift + 7 * n ≤ 70 →
    ∃ acc', decodeVarint w d d.length (fuel + n) shift i acc
      = decodeVarint w d d.length fuel (shift + 7 * n) (i + n) acc' := by
  intro n
  induction n with
  | zero => intro fuel shift i acc _ _ _; exact ⟨acc, rfl⟩
  | succ n ih =>
    intro fuel shift i acc hb hl hs
    obtain ⟨x, hx, hx80⟩ := hb 0 (by omega)
    rw [Nat.add_zero] at hx
    have hrest : ∀ j, j < n → ∃ x : Byte, d[i + 1 + j]? = some x ∧ 0x80 ≤ x.val := by
      intro j hj
      have := hb (j + 1) (by omega)
      rwa [show i + (j + 1) = i + 1 + j by omega] at this
    obtain ⟨acc', h⟩ := ih fuel (shift + 7) (i + 1)
      (acc ||| ((x.val &&& 0x7F) <<< shift) % 2 ^ w) hrest (by omega) (by omega)
    refine ⟨acc', ?_⟩
    rw [show fuel + (n + 1) = (fuel + n) + 1 by omega]
    conv_lhs => unfold decodeVarint
    rw [if_neg (by omega), if_neg (by omega), hx]
    simp only
    have hnlt : ¬ (x.val < 0x80) := by omega
    have e1 : shift + 7 + 7 * n = shift + 7 * (n + 1) := by omega
    have e2 : i + 1 + n = i + (n + 1) := by omega
    rw [if_neg hnlt, h, e1, e2]

theorem decodeVarint_overlong (w : Nat) (d : List Byte) (h : 10 ≤ d.length)
    (hb : ∀ i, i < 10 → ∃ x : Byte, d[i]? = some x ∧ 0x80 ≤ x.val) :
    (decodeVarint w d d.length varintFuel 0 0 0).2 = .error .ErrIntOverflowGenesis := by
  obtain ⟨acc', h10⟩ := decodeVarint_continue w d 10 1 0 0 0
    (by intro j hj; simpa using hb j hj) (by omega) (by norm_num)
  have : varintFuel = 1 + 10 := rfl
  rw [this, h10]
  simp [decodeVarint]

theorem decodeVarint_safe (w : Nat) (d : List Byte) : ∀ (fuel shift i acc : Nat),
    1 ≤ fuel → 64 ≤ shift + 7 * (fuel - 1) →
    StepOK d.length i (decodeVarint w d d.length fuel shift i acc).2 := by
  intro fuel
  induction fuel with
  | zero => intro shift i acc h; omega
  | succ n ih =>
    intro shift i acc _ hs
    unfold decodeVarint
    by_cases h64 : shift ≥ 64
    · rw [if_pos h64]; simp [StepOK, Err.returned]
    · rw [if_neg h64]
      by_cases hl : i ≥ d.length
      · rw [if_pos hl]; simp [StepOK, Err.returned]
      · rw [if_neg hl]
        have hi : i < d.length := by omega
        rw [List.getElem?_eq_getElem hi]
        simp only
        by_cases hb : (d[i]).val < 0x80
        · rw [if_pos hb]
          simp only [StepOK]
          omega
        · rw [if_neg hb]
          have hn : 1 ≤ n := by
            by_contra hc
            have : n = 0 := by omega
            subst this
            simp at hs
            omega
          have := ih (shift + 7) (i + 1) (acc ||| ((d[i]).val &&& 0x7F) <<< shift % 2 ^ w) hn (by omega)
          revert this
          generalize (decodeVarint w d d.length n (shift + 7) (i + 1)
            (acc ||| ((d[i]).val &&& 0x7F) <<< shift % 2 ^ w)).2 = r
          intro hr
          cases r with
          | error e => exact hr
          | ok i' => simp only [StepOK] at hr ⊢; omega

theorem decodeVarint_safe_top (w : Nat) (d : List Byte) (i : Nat) :
    StepOK d.length i (decodeVarint w d d.length varintFuel 0 i 0).2 :=
  decodeVarint_safe w d varintFuel 0 i 0 (by decide) (by decide)

theorem negInt64_eq_false_iff (n : Nat) (h : n < 2 ^ 64) : negInt64 n = false ↔ n < 2 ^ 63 := by
  unfold negInt64
  rw [Nat.mod_eq_of_lt h]
  simp

theorem decodeVarint_lt (w : Nat) (d : List Byte) (l : Nat) : ∀ (fuel shift i acc : Nat),
    acc < 2 ^ w → (decodeVarint w d l fuel shift i acc).1 < 2 ^ w := by
  intro fuel
  induction fuel with
  | zero => intro shift i acc h; simpa [decodeVarint] using h
  | succ n ih =>
    intro shift i acc h
    unfold decodeVarint
    split_ifs
    · exact h
    · exact h
    · split
      · exact h
      · rename_i b _
        have hacc : acc ||| ((b.val &&& 0x7F) <<< shift) % 2 ^ w < 2 ^ w :=
          Nat.or_lt_two_pow h (Nat.mod_lt _ (Nat.pos_pow_of_pos _ (by decide)))
        simp only
        split_ifs
        · exact hacc
        · exact ih _ _ _ hacc

theorem readLen_safe (d : List Byte) (hl : d.length < 2 ^ 63) (i : Nat) :
    match readLen d d.length i with
    | .error e => e.returned = true
    | .ok (i₁, post) => i < i₁ ∧ i₁ ≤ post ∧ post ≤ d.length := by
  have h1 := decodeVarint_safe_top 64 d i
  have h2 := decodeVarint_lt 64 d d.length varintFuel 0 i 0 (by norm_num)
  unfold readLen negInt64
  rcases hdv : decodeVarint 64 d d.length varintFuel 0 i 0 with ⟨n, e | i₁⟩
  · rw [hdv] at h1
    simpa [StepOK] using h1
  · rw [hdv] at h1 h2
    simp only [StepOK] at h1 h2
    simp only [decide_eq_true_eq]
    split_ifs
    · rfl
    · rfl
    · rfl
    · simp only
      omega

theorem readBytes_safe (d : List Byte) (hl : d.length < 2 ^ 63) (i : Nat) :
    match readBytes d d.length i with
    | .error e => e.returned = true
    | .ok (s, post) => i < post ∧ post ≤ d.length ∧ s.length ≤ d.length := by
  have h1 := readLen_safe d hl i
  unfold readBytes
  rcases hrl : readLen d d.length i with e | ⟨i₁, post⟩
  · rw [hrl] at h1
    simpa using h1
  · rw [hrl] at h1
    simp only at h1 ⊢
    unfold slice
    rw [if_pos ⟨h1.2.1, h1.2.2⟩]
    simp only [List.length_drop, List.length_take]
    omega
theorem skipGenesisLoop_succ (d : List Byte) (l fuel i depth : Nat) :
    skipGenesisLoop d l (fuel + 1) i depth =
      if i < l then
        match decodeVarint 64 d l varintFuel 0 i 0 with
        | (_, .error e) => .error e
        | (wire, .ok i₁) =>
          match skipStep d l wire i₁ depth with
          | .error e => .error e
          | .ok (i₂, depth) =>
            if negInt64 i₂ then .error .ErrInvalidLengthGenesis
            else if depth = 0 then .ok i₂
            else skipGenesisLoop d l fuel i₂ depth
      else .error .ErrUnexpectedEOF := by
  rw [skipGenesisLoop]
  rfl

theorem skipStep_safe (d : List Byte) (hl : d.length < 2 ^ 63) (wire i depth : Nat)
    (hi : i ≤ d.length) :
    match skipStep d d.length wire i depth with
    | .error e => e.returned = true
    | .ok (i', _) => i ≤ i' ∧ i' < 2 ^ 64 := by
  have h2 := decodeVarint_safe_top 64 d i
  have h3 := decodeVarint_lt 64 d d.length varintFuel 0 i 0 (by norm_num)
  unfold skipStep negInt64
  rcases hdv2 : decodeVarint 64 d d.length varintFuel 0 i 0 with ⟨len, e | i₂⟩
  · rw [hdv2] at h2
    simp only [StepOK] at h2
    simp only
    split_ifs <;> first | exact h2 | rfl | (simp only; omega)
  · rw [hdv2] at h2 h3
    simp only [StepOK] at h2 h3
    simp only [decide_eq_true_eq]
    split_ifs <;> first | rfl | (simp only; omega)

theorem skipGenesisLoop_safe (d : List Byte) (hl : d.length < 2 ^ 63) : ∀ (fuel i depth : Nat),
    d.length ≤ i + fuel → i < 2 ^ 63 →
    match skipGenesisLoop d d.length fuel i depth with
    | .error e => e.returned = true
    | .ok n => i < n ∧ n < 2 ^ 63 := by
  intro fuel
  induction fuel with
  | zero =>
    intro i depth h _
    unfold skipGenesisLoop
    rw [if_neg (by omega)]
    rfl
  | succ f ih =>
    intro i depth h hi
    rw [skipGenesisLoop_succ]
    by_cases hlt : i < d.length
    · rw [if_pos hlt]
      have h1 := decodeVarint_safe_top 64 d i
      rcases hdv : decodeVarint 64 d d.length varintFuel 0 i 0 with ⟨wire, e | i₁⟩
      · rw [hdv] at h1
        simpa [StepOK] using h1
      · rw [hdv] at h1
        simp only [StepOK] at h1
        have hstep := skipStep_safe d hl wire i₁ depth h1.2
        simp only
        rcases hss : skipStep d d.length wire i₁ depth with e | ⟨i', depth'⟩
        · rw [hss] at hstep; exact hstep
        · rw [hss] at hstep
          simp only at hstep ⊢
          by_cases hneg : negInt64 i' = true
          · rw [if_pos hneg]; rfl
          · rw [if_neg hneg]
            have hi' : i' < 2 ^ 63 := (negInt64_eq_false_iff i' hstep.2).1 (by simpa using hneg)
            by_cases hd0 : depth' = 0
            · rw [if_pos hd0]
              exact ⟨by omega, hi'⟩
            · rw [if_neg hd0]
              have := ih i' depth' (by omega) hi'
              revert this
              generalize skipGenesisLoop d d.length f i' depth' = r
              intro hr
              cases r with
              | error e => exact hr
              | ok n => simp only at hr ⊢; omega
    · rw [if_neg hlt]
      rfl

theorem skipGenesis_safe (d : List Byte) (hl : d.length < 2 ^ 63) :
    match skipGenesis d with
    | .error e => e.returned = true
    | .ok n => 0 < n ∧ n < 2 ^ 63 :=
  skipGenesisLoop_safe d hl d.length 0 0 (by omega) (by norm_num)

theorem slice_to_end (d : List Byte) (i : Nat) (h : i ≤ d.length) :
    slice d i d.length = .ok (d.drop i) := by
  unfold slice
  rw [if_pos ⟨h, le_refl _⟩, List.take_length]

theorem skipField_safe (d : List Byte) (hl : d.length < 2 ^ 63) (pre limit : Nat)
    (hpre : pre ≤ d.length) (hlim : limit ≤ d.length) :
    match skipField d pre limit with
    | .error e => e.returned = true
    | .ok i' => pre < i' ∧ i' ≤ limit := by
  unfold skipField
  simp only
  rw [slice_to_end d pre hpre]
  simp only
  have h1 := skipGenesis_safe (d.drop pre) (by rw [List.length_drop]; omega)
  rcases hsk : skipGenesis (d.drop pre) with e | skippy
  · rw [hsk] at h1; exact h1
  · rw [hsk] at h1
    simp only at h1 ⊢
    unfold negInt64
    simp only [Bool.or_eq_true, decide_eq_true_eq]
    split_ifs
    · rfl
    · rfl
    · simp only
      omega
theorem packet_unmarshalField_safe (m : InFlightPacket) (d : List Byte) (hl : d.length < 2 ^ 63)
    (i : Nat) (hi : i ≤ d.length) : StepOK d.length i (m.unmarshalField d d.length i).2 := by
  have h1 := decodeVarint_safe_top 64 d i
  have hs := skipField_safe d hl i d.length hi (le_refl _)
  unfold InFlightPacket.unmarshalField
  rcases hdv : decodeVarint 64 d d.length varintFuel 0 i 0 with ⟨wire, e | i₁⟩
  · rw [hdv] at h1
    simpa [StepOK] using h1
  · rw [hdv] at h1
    simp only [StepOK] at h1
    have hb := readBytes_safe d hl i₁
    have h4 := decodeVarint_safe_top 32 d i₁
    have h5 := decodeVarint_safe_top 64 d i₁
    simp only
    split_ifs
    · rfl
    · rfl
    · rfl
    · rcases hrb : readBytes d d.length i₁ with e | ⟨s, p⟩
      · rw [hrb] at hb; exact hb
      · rw [hrb] at hb; simp only [StepOK] at hb ⊢; omega
    · rfl
    · rcases hrb : readBytes d d.length i₁ with e | ⟨s, p⟩
      · rw [hrb] at hb; exact hb
      · rw [hrb] at hb; simp only [StepOK] at hb ⊢; omega
    · rfl
    · rcases hrb : readBytes d d.length i₁ with e | ⟨s, p⟩
      · rw [hrb] at hb; exact hb
      · rw [hrb] at hb; simp only [StepOK] at hb ⊢; omega
    · rfl
    · rcases hr : decodeVarint 32 d d.length varintFuel 0 i₁ 0 with ⟨x, e | p⟩
      · rw [hr] at h4; exact h4
      · rw [hr] at h4; simp only [StepOK] at h4 ⊢; omega
    · rfl
    · rcases hr : decodeVarint 64 d d.length varintFuel 0 i₁ 0 with ⟨x, e | p⟩
      · rw [hr] at h5; exact h5
      · rw [hr] at h5; simp only [StepOK] at h5 ⊢; omega
    · rcases hsk : skipField d i d.length with e | p
      · rw [hsk] at hs; exact hs
      · rw [hsk] at hs; simp only [StepOK] at hs ⊢; exact hs

theorem packet_unmarshalLoop_safe (d : List Byte) (hl : d.length < 2 ^ 63) :
    ∀ (fuel : Nat) (m : InFlightPacket) (i : Nat), d.length ≤ i + fuel → i ≤ d.length →
      ResultOK (InFlightPacket.unmarshalLoop d d.length fuel m i).2 := by
  intro fuel
  induction fuel with
  | zero =>
    intro m i h hi
    unfold InFlightPacket.unmarshalLoop
    rw [if_neg (by omega), if_neg (by omega)]
    intro e he
    cases he
  | succ f ih =>
    intro m i h hi
    unfold InFlightPacket.unmarshalLoop
    by_cases hlt : i < d.length
    · rw [if_pos hlt]
      have hstep := packet_unmarshalField_safe m d hl i hi
      rcases hr : m.unmarshalField d d.length i with ⟨m', e | i'⟩
      · rw [hr] at hstep
        simp only [StepOK] at hstep ⊢
        intro e' he'
        cases he'
        exact hstep
      · rw [hr] at hstep
        simp only [StepOK] at hstep ⊢
        exact ih m' i' (by omega) hstep.2
    · rw [if_neg hlt, if_neg (by omega)]
      intro e he
      cases he

theorem packet_Unmarshal_safe (m : InFlightPacket) (d : List Byte) (hl : d.length < 2 ^ 63) :
    ResultOK (m.Unmarshal d).2 :=
  packet_unmarshalLoop_safe d hl d.length m 0 (by omega) (by omega)
theorem params_unmarshalField_safe {C : DecCodec} (hc : ∀ (x : C.Dec) (bs : List Byte), ResultOK (C.Unmarshal x bs).2)
    (m : Params C) (d : List Byte) (hl : d.length < 2 ^ 63)
    (i : Nat) (hi : i ≤ d.length) : StepOK d.length i (m.unmarshalField d d.length i).2 := by
  have h1 := decodeVarint_safe_top 64 d i
  have hs := skipField_safe d hl i d.length hi (le_refl _)
  unfold Params.unmarshalField
  rcases hdv : decodeVarint 64 d d.length varintFuel 0 i 0 with ⟨wire, e | i₁⟩
  · rw [hdv] at h1
    simpa [StepOK] using h1
  · rw [hdv] at h1
    simp only [StepOK] at h1
    have hb := readBytes_safe d hl i₁
    simp only
    split_ifs
    · rfl
    · rfl
    · rfl
    · rcases hrb : readBytes d d.length i₁ with e | ⟨s, p⟩
      · rw [hrb] at hb; exact hb
      · rw [hrb] at hb
        simp only at hb ⊢
        have hcs := hc m.FeePercentage s
        rcases hu : C.Unmarshal m.FeePercentage s with ⟨x, _ | e⟩
        · simp only [StepOK]; omega
        · rw [hu] at hcs
          exact hcs e rfl
    · rcases hsk : skipField d i d.length with e | p
      · rw [hsk] at hs; exact hs
      · rw [hsk] at hs; simp only [StepOK] at hs ⊢; exact hs

theorem params_unmarshalLoop_safe {C : DecCodec} (hc : ∀ (x : C.Dec) (bs : List Byte), ResultOK (C.Unmarshal x bs).2)
    (d : List Byte) (hl : d.length < 2 ^ 63) :
    ∀ (fuel : Nat) (m : Params C) (i : Nat), d.length ≤ i + fuel → i ≤ d.length →
      ResultOK (Params.unmarshalLoop d d.length fuel m i).2 := by
  intro fuel
  induction fuel with
  | zero =>
    intro m i h hi
    unfold Params.unmarshalLoop
    rw [if_neg (by omega), if_neg (by omega)]
    intro e he
    cases he
  | succ f ih =>
    intro m i h hi
    unfold Params.unmarshalLoop
    by_cases hlt : i < d.length
    · rw [if_pos hlt]
      have hstep := params_unmarshalField_safe hc m d hl i hi
      rcases hr : m.unmarshalField d d.length i with ⟨m', e | i'⟩
      · rw [hr] at hstep
        simp only [StepOK] at hstep ⊢
        intro e' he'
        cases he'
        exact hstep
      · rw [hr] at hstep
        simp only [StepOK] at hstep ⊢
        exact ih m' i' (by omega) hstep.2
    · rw [if_neg hlt, if_neg (by omega)]
      intro e he
      cases he

theorem params_Unmarshal_safe {C : DecCodec} (hc : ∀ (x : C.Dec) (bs : List Byte), ResultOK (C.Unmarshal x bs).2)
    (m : Params C) (d : List Byte) (hl : d.length < 2 ^ 63) : ResultOK (m.Unmarshal d).2 :=
  params_unmarshalLoop_safe hc d hl d.length m 0 (by omega) (by omega)

theorem entryField_safe (d : List Byte) (hl : d.length < 2 ^ 63) (post : Nat) (hpost : post ≤ d.length)
    (mk : List Byte) (mv : InFlightPacket) (i : Nat) (hi : i ≤ d.length) :
    match entryField d d.length post mk mv i with
    | .error e => e.returned = true
    | .ok (_, _, i') => i < i' ∧ i' ≤ d.length := by
  have h1 := decodeVarint_safe_top 64 d i
  have hs := skipField_safe d hl i post hi hpost
  unfold entryField
  rcases hdv : decodeVarint 64 d d.length varintFuel 0 i 0 with ⟨wire, e | i₁⟩
  · rw [hdv] at h1
    simpa [StepOK] using h1
  · rw [hdv] at h1
    simp only [StepOK] at h1
    have hb := readBytes_safe d hl i₁
    simp only
    split_ifs
    · rcases hrb : readBytes d d.length i₁ with e | ⟨s, p⟩
      · rw [hrb] at hb; exact hb
      · rw [hrb] at hb; simp only at hb ⊢; omega
    · rcases hrb : readBytes d d.length i₁ with e | ⟨s, p⟩
      · rw [hrb] at hb; exact hb
      · rw [hrb] at hb
        simp only at hb ⊢
        have hu := packet_Unmarshal_safe InFlightPacket.zero s (by omega)
        rcases hu' : InFlightPacket.zero.Unmarshal s with ⟨v, _ | e⟩
        · simp only; omega
        · rw [hu'] at hu
          exact hu e rfl
    · rcases hsk : skipField d i post with e | p
      · rw [hsk] at hs; exact hs
      · rw [hsk] at hs; simp only at hs ⊢; omega

theorem entryLoop_safe (d : List Byte) (hl : d.length < 2 ^ 63) (post : Nat) (hpost : post ≤ d.length) :
    ∀ (fuel : Nat) (mk : List Byte) (mv : InFlightPacket) (i : Nat), post ≤ i + fuel → i ≤ d.length →
      match entryLoop d d.length post fuel mk mv i with
      | .error e => e.returned = true
      | .ok _ => True := by
  intro fuel
  induction fuel with
  | zero =>
    intro mk mv i h hi
    unfold entryLoop
    rw [if_neg (by omega)]
    trivial
  | succ f ih =>
    intro mk mv i h hi
    unfold entryLoop
    by_cases hlt : i < post
    · rw [if_pos hlt]
      have hstep := entryField_safe d hl post hpost mk mv i hi
      rcases hr : entryField d d.length post mk mv i with e | ⟨mk', mv', i'⟩
      · rw [hr] at hstep; exact hstep
      · rw [hr] at hstep
        simp only at hstep ⊢
        exact ih mk' mv' i' (by omega) hstep.2
    · rw [if_neg hlt]
      trivial

theorem genesis_unmarshalField_safe {C : DecCodec} (hc : ∀ (x : C.Dec) (bs : List Byte), ResultOK (C.Unmarshal x bs).2)
    (m : GenesisState C) (d : List Byte) (hl : d.length < 2 ^ 63)
    (i : Nat) (hi : i ≤ d.length) : StepOK d.length i (m.unmarshalField d d.length i).2 := by
  have h1 := decodeVarint_safe_top 64 d i
  have hs := skipField_safe d hl i d.length hi (le_refl _)
  unfold GenesisState.unmarshalField
  rcases hdv : decodeVarint 64 d d.length varintFuel 0 i 0 with ⟨wire, e | i₁⟩
  · rw [hdv] at h1
    simpa [StepOK] using h1
  · rw [hdv] at h1
    simp only [StepOK] at h1
    have hb := readBytes_safe d hl i₁
    have hrl := readLen_safe d hl i₁
    simp only
    split_ifs
    · rfl
    · rfl
    · rfl
    · rcases hrb : readBytes d d.length i₁ with e | ⟨s, p⟩
      · rw [hrb] at hb; exact hb
      · rw [hrb] at hb
        simp only at hb ⊢
        have hu := params_Unmarshal_safe hc m.Params s (by omega)
        rcases hu' : m.Params.Unmarshal s with ⟨x, _ | e⟩
        · simp only [StepOK]; omega
        · rw [hu'] at hu
          exact hu e rfl
    · rfl
    · rcases hr : readLen d d.length i₁ with e | ⟨i₂, post⟩
      · rw [hr] at hrl; exact hrl
      · rw [hr] at hrl
        simp only at hrl ⊢
        have hel := entryLoop_safe d hl post hrl.2.2 (post - i₂) [] InFlightPacket.zero i₂
          (by omega) (by omega)
        rcases he : entryLoop d d.length post (post - i₂) [] InFlightPacket.zero i₂ with e | ⟨mk, mv⟩
        · rw [he] at hel; exact hel
        · simp only [StepOK]; omega
    · rcases hsk : skipField d i d.length with e | p
      · rw [hsk] at hs; exact hs
      · rw [hsk] at hs; simp only [StepOK] at hs ⊢; exact hs

theorem genesis_unmarshalLoop_safe {C : DecCodec} (hc : ∀ (x : C.Dec) (bs : List Byte), ResultOK (C.Unmarshal x bs).2)
    (d : List Byte) (hl : d.length < 2 ^ 63) :
    ∀ (fuel : Nat) (m : GenesisState C) (i : Nat), d.length ≤ i + fuel → i ≤ d.length →
      ResultOK (GenesisState.unmarshalLoop d d.length fuel m i).2 := by
  intro fuel
  induction fuel with
  | zero =>
    intro m i h hi
    unfold GenesisState.unmarshalLoop
    rw [if_neg (by omega), if_neg (by omega)]
    intro e he
    cases he
  | succ f ih =>
    intro m i h hi
    unfold GenesisState.unmarshalLoop
    by_cases hlt : i < d.length
    · rw [if_pos hlt]
      have hstep := genesis_unmarshalField_safe hc m d hl i hi
      rcases hr : m.unmarshalField d d.length i with ⟨m', e | i'⟩
      · rw [hr] at hstep
        simp only [StepOK] at hstep ⊢
        intro e' he'
        cases he'
        exact hstep
      · rw [hr] at hstep
        simp only [StepOK] at hstep ⊢
        exact ih m' i' (by omega) hstep.2
    · rw [if_neg hlt, if_neg (by omega)]
      intro e he
      cases he
theorem decodeVarint_truncated (w : Nat) (d : List Byte) : ∀ (q : List Byte) (n v shift i acc fuel : Nat)
    (t : List Byte), varintBytes n v = q ++ t → t ≠ [] → d.drop i = q → i ≤ d.length →
    shift + 7 * q.length < 64 → q.length < fuel →
    (decodeVarint w d d.length fuel shift i acc).2 = .error .ErrUnexpectedEOF := by
  intro q
  induction q with
  | nil =>
    intro n v shift i acc fuel t _ _ hd hi hs hf
    have hlen := congrArg List.length hd
    rw [List.length_drop, List.length_nil] at hlen
    obtain ⟨f, rfl⟩ : ∃ f, fuel = f + 1 := ⟨fuel - 1, by simp at hf; omega⟩
    unfold decodeVarint
    rw [if_neg (by simp at hs; omega), if_pos (by omega)]
  | cons b q ih =>
    intro n v shift i acc fuel t hv ht hd hi hs hf
    obtain ⟨hb, hd', hlt⟩ := getElem?_of_drop_eq d i b q hd
    simp only [List.length_cons] at hs hf
    obtain ⟨f, rfl⟩ : ∃ f, fuel = f + 1 := ⟨fuel - 1, by omega⟩
    -- the varint has at least two bytes, so its first byte is a continuation byte
    have hlong : 2 ≤ (varintBytes n v).length := by
      rw [hv]
      have : 1 ≤ t.length := List.length_pos.2 ht
      simp only [List.length_append, List.length_cons]
      omega
    cases n with
    | zero => simp [varintBytes] at hlong
    | succ n =>
      unfold varintBytes at hv hlong
      by_cases h128 : v < 128
      · rw [if_pos h128] at hlong; simp at hlong
      · rw [if_neg h128] at hv
        simp only [List.cons_append, List.cons.injEq] at hv
        obtain ⟨hbeq, hrest⟩ := hv
        unfold decodeVarint
        rw [if_neg (by omega), if_neg (by omega), hb]
        have hbv : ¬ (b.val < 0x80) := by
          rw [← hbeq]
          simp [uint8]
          omega
        simp only
        rw [if_neg hbv]
        exact ih n (v / 128) (shift + 7) (i + 1) _ f t hrest ht hd' (by omega) (by omega) (by omega)
theorem decodeVarint_truncated_top (w : Nat) (d : List Byte) (v i : Nat) (q t : List Byte)
    (hv : v < 2 ^ 64) (hqt : varint v = q ++ t) (ht : t ≠ []) (hd : d.drop i = q) (hi : i ≤ d.length) :
    (decodeVarint w d d.length varintFuel 0 i 0).2 = .error .ErrUnexpectedEOF := by
  have hlen := varint_length v hv
  have hten := sovGenesis_le_ten v hv
  have hq : q.length < 10 := by
    have h1 := congrArg List.length hqt
    rw [hlen, List.length_append] at h1
    have : 1 ≤ t.length := List.length_pos.2 ht
    omega
  exact decodeVarint_truncated w d q 9 v 0 i 0 varintFuel t hqt ht hd hi (by omega)
    (by unfold varintFuel; omega)

theorem readBytes_truncated (d : List Byte) (i : Nat) (s q t : List Byte)
    (hl : d.length + t.length < 2 ^ 63)
    (hs : s.length < 2 ^ 62) (hqt : varint s.length ++ s = q ++ t) (ht : t ≠ [])
    (hd : d.drop i = q) (hi : i ≤ d.length) :
    readBytes d d.length i = .error .ErrUnexpectedEOF := by
  have hdl : d.length = i + q.length := by
    have := congrArg List.length hd
    rw [List.length_drop] at this
    omega
  have hcases : (∃ a, q = varint s.length ++ a ∧ s = a ++ t) ∨
      (∃ c, c ≠ [] ∧ varint s.length = q ++ c) := by
    rcases List.append_eq_append_iff.1 hqt with ⟨a, h1, h2⟩ | ⟨c, h1, h2⟩
    · exact Or.inl ⟨a, h1, h2⟩
    · by_cases hc : c = []
      · subst hc
        refine Or.inl ⟨[], by simpa using h1.symm, by simpa using h2.symm⟩
      · exact Or.inr ⟨c, hc, h1⟩
  unfold readBytes readLen
  rcases hcases with ⟨a, hq, hsa⟩ | ⟨c, hc, hvq⟩
  · have hv := varint_length s.length (by omega)
    have hdv := decodeVarint_varint 64 s.length i d a (by omega) (by rw [hd, hq])
    rw [hdv]
    have hn : s.length % 2 ^ 64 = s.length := Nat.mod_eq_of_lt (by omega)
    have hql : q.length = sovGenesis s.length + a.length := by
      rw [hq, List.length_append, hv]
    have hsl : s.length = a.length + t.length := by rw [hsa, List.length_append]
    have htl : 1 ≤ t.length := List.length_pos.2 ht
    simp only [hn]
    rw [negInt64_false s.length (by omega)]
    have e : (i + sovGenesis s.length + s.length) % 2 ^ 64 = i + sovGenesis s.length + s.length :=
      Nat.mod_eq_of_lt (by omega)
    simp only [e, Bool.false_eq_true, if_false]
    rw [negInt64_false (i + sovGenesis s.length + s.length) (by omega)]
    simp only [Bool.false_eq_true, if_false]
    rw [if_pos (by omega)]
  · have := decodeVarint_truncated_top 64 d s.length i q c (by omega) hvq hc hd hi
    rcases hdv : decodeVarint 64 d d.length varintFuel 0 i 0 with ⟨x, r⟩
    rw [hdv] at this
    simp only at this
    subst this
    rfl

theorem decodeVarint_tag_end (t i : Nat) (d rest : List Byte) (ht : t < 128)
    (hd : d.drop i = uint8 t :: rest) :
    decodeVarint 64 d d.length varintFuel 0 i 0 = (t, .ok (i + 1)) ∧ d.drop (i + 1) = rest ∧
      i + 1 ≤ d.length :=
  ⟨decodeVarint_tag t i d rest ht hd, (getElem?_of_drop_eq d i _ _ hd).2.1,
    (getElem?_of_drop_eq d i _ _ hd).2.2⟩

theorem packet_unmarshalField_1_truncated (m : InFlightPacket) (d : List Byte) (i : Nat)
    (s q t : List Byte) (hl : d.length + t.length < 2 ^ 63) (hs : s.length < 2 ^ 62)
    (hqt : (0x0a : Byte) :: varint s.length ++ s = q ++ t) (hq : q ≠ []) (ht : t ≠ [])
    (hd : d.drop i = q) :
    (m.unmarshalField d d.length i).2 = .error .ErrUnexpectedEOF := by
  obtain ⟨b, q', rfl⟩ := List.exists_cons_of_ne_nil hq
  simp only [List.cons_append, List.cons.injEq] at hqt
  obtain ⟨hb, hqt'⟩ := hqt
  subst hb
  obtain ⟨h1, h2, h3⟩ := decodeVarint_tag_end 10 i d q' (by decide) hd
  have hrb := readBytes_truncated d (i + 1) s q' t hl hs hqt' ht h2 h3
  unfold InFlightPacket.unmarshalField
  simp only
  rw [h1]
  simp [toInt32, hrb, show (10 &&& 7 : Nat) = 2 by decide]

theorem packet_unmarshalField_2_truncated (m : InFlightPacket) (d : List Byte) (i : Nat)
    (s q t : List Byte) (hl : d.length + t.length < 2 ^ 63) (hs : s.length < 2 ^ 62)
    (hqt : (0x12 : Byte) :: varint s.length ++ s = q ++ t) (hq : q ≠ []) (ht : t ≠ [])
    (hd : d.drop i = q) :
    (m.unmarshalField d d.length i).2 = .error .ErrUnexpectedEOF := by
  obtain ⟨b, q', rfl⟩ := List.exists_cons_of_ne_nil hq
  simp only [List.cons_append, List.cons.injEq] at hqt
  obtain ⟨hb, hqt'⟩ := hqt
  subst hb
  obtain ⟨h1, h2, h3⟩ := decodeVarint_tag_end 18 i d q' (by decide) hd
  have hrb := readBytes_truncated d (i + 1) s q' t hl hs hqt' ht h2 h3
  unfold InFlightPacket.unmarshalField
  simp only
  rw [h1]
  simp [toInt32, hrb, show (18 &&& 7 : Nat) = 2 by decide]

theorem packet_unmarshalField_3_truncated (m : InFlightPacket) (d : List Byte) (i : Nat)
    (s q t : List Byte) (hl : d.length + t.length < 2 ^ 63) (hs : s.length < 2 ^ 62)
    (hqt : (0x1a : Byte) :: varint s.length ++ s = q ++ t) (hq : q ≠ []) (ht : t ≠ [])
    (hd : d.drop i = q) :
    (m.unmarshalField d d.length i).2 = .error .ErrUnexpectedEOF := by
  obtain ⟨b, q', rfl⟩ := List.exists_cons_of_ne_nil hq
  simp only [List.cons_append, List.cons.injEq] at hqt
  obtain ⟨hb, hqt'⟩ := hqt
  subst hb
  obtain ⟨h1, h2, h3⟩ := decodeVarint_tag_end 26 i d q' (by decide) hd
  have hrb := readBytes_truncated d (i + 1) s q' t hl hs hqt' ht h2 h3
  unfold InFlightPacket.unmarshalField
  simp only
  rw [h1]
  simp [toInt32, hrb, show (26 &&& 7 : Nat) = 2 by decide]

theorem packet_unmarshalField_4_truncated (m : InFlightPacket) (d : List Byte) (i : Nat) (r : Int)
    (q t : List Byte) (hqt : (0x20 : Byte) :: varint (uint64OfInt r) = q ++ t) (hq : q ≠ [])
    (ht : t ≠ []) (hd : d.drop i = q) :
    (m.unmarshalField d d.length i).2 = .error .ErrUnexpectedEOF := by
  obtain ⟨b, q', rfl⟩ := List.exists_cons_of_ne_nil hq
  simp only [List.cons_append, List.cons.injEq] at hqt
  obtain ⟨hb, hqt'⟩ := hqt
  subst hb
  obtain ⟨h1, h2, h3⟩ := decodeVarint_tag_end 32 i d q' (by decide) hd
  have hv := decodeVarint_truncated_top 32 d (uint64OfInt r) (i + 1) q' t (uint64OfInt_lt r) hqt' ht h2 h3
  unfold InFlightPacket.unmarshalField
  simp only
  rw [h1]
  simp [toInt32, hv, show (32 &&& 7 : Nat) = 0 by decide]

theorem packet_unmarshalField_5_truncated (m : InFlightPacket) (d : List Byte) (i : Nat) (v : Nat)
    (q t : List Byte) (hv64 : v < 2 ^ 64) (hqt : (0x28 : Byte) :: varint v = q ++ t) (hq : q ≠ [])
    (ht : t ≠ []) (hd : d.drop i = q) :
    (m.unmarshalField d d.length i).2 = .error .ErrUnexpectedEOF := by
  obtain ⟨b, q', rfl⟩ := List.exists_cons_of_ne_nil hq
  simp only [List.cons_append, List.cons.injEq] at hqt
  obtain ⟨hb, hqt'⟩ := hqt
  subst hb
  obtain ⟨h1, h2, h3⟩ := decodeVarint_tag_end 40 i d q' (by decide) hd
  have hv := decodeVarint_truncated_top 64 d v (i + 1) q' t hv64 hqt' ht h2 h3
  unfold InFlightPacket.unmarshalField
  simp only
  rw [h1]
  simp [toInt32, hv, show (40 &&& 7 : Nat) = 0 by decide]
theorem packet_wire_eq_flatten (m : InFlightPacket) : m.wire = m.fieldsWire.flatten := by
  simp [InFlightPacket.wire, InFlightPacket.fieldsWire]

theorem packet_fieldsWire_encoded (m : InFlightPacket) (h : m.WF) :
    ∀ F ∈ m.fieldsWire, EncodedField F := by
  obtain ⟨hW, hr, ht⟩ := h
  intro F hF
  simp only [InFlightPacket.fieldsWire, List.mem_cons, List.mem_singleton, List.not_mem_nil,
    or_false] at hF
  rcases hF with rfl | rfl | rfl | rfl | rfl
  · unfold bytesField
    split_ifs
    · exact Or.inr (Or.inl ⟨_, by omega, Or.inl rfl⟩)
    · exact Or.inl rfl
  · unfold bytesField
    split_ifs
    · exact Or.inr (Or.inl ⟨_, by omega, Or.inr (Or.inl rfl)⟩)
    · exact Or.inl rfl
  · unfold bytesField
    split_ifs
    · exact Or.inr (Or.inl ⟨_, by omega, Or.inr (Or.inr rfl)⟩)
    · exact Or.inl rfl
  · split_ifs
    · exact Or.inr (Or.inr (Or.inl ⟨_, hr, rfl⟩))
    · exact Or.inl rfl
  · split_ifs
    · exact Or.inr (Or.inr (Or.inr ⟨_, ht, rfl⟩))
    · exact Or.inl rfl

theorem encodedField_complete (F : List Byte) (hF : EncodedField F) (hne : F ≠ [])
    (m : InFlightPacket) (d : List Byte) (i : Nat) (rest : List Byte) (hl : d.length < 2 ^ 63)
    (hd : d.drop i = F ++ rest) :
    ∃ m', m.unmarshalField d d.length i = (m', .ok (i + F.length)) := by
  rcases hF with h | ⟨s, _, h | h | h⟩ | ⟨r, ⟨h1, h2⟩, h⟩ | ⟨v, hv, h⟩
  · exact absurd h hne
  · subst h; exact ⟨_, packet_unmarshalField_1 m d i s rest hl hd⟩
  · subst h; exact ⟨_, packet_unmarshalField_2 m d i s rest hl hd⟩
  · subst h; exact ⟨_, packet_unmarshalField_3 m d i s rest hl hd⟩
  · subst h; exact ⟨_, packet_unmarshalField_4 m d i r rest h1 h2 hd⟩
  · subst h; exact ⟨_, packet_unmarshalField_5 m d i v rest hv hd⟩

theorem encodedField_truncated (F q t : List Byte) (hF : EncodedField F) (hqt : F = q ++ t)
    (hq : q ≠ []) (ht : t ≠ []) (m : InFlightPacket) (d : List Byte) (i : Nat)
    (hl : d.length + t.length < 2 ^ 63) (hd : d.drop i = q) :
    (m.unmarshalField d d.length i).2 = .error .ErrUnexpectedEOF := by
  rcases hF with h | ⟨s, hs, h | h | h⟩ | ⟨r, _, h⟩ | ⟨v, hv, h⟩
  · rw [h] at hqt
    have := congrArg List.length hqt
    simp only [List.length_nil, List.length_append] at this
    have hpos : 1 ≤ q.length := List.length_pos.2 hq
    omega
  · exact packet_unmarshalField_1_truncated m d i s q t hl hs (h ▸ hqt) hq ht hd
  · exact packet_unmarshalField_2_truncated m d i s q t hl hs (h ▸ hqt) hq ht hd
  · exact packet_unmarshalField_3_truncated m d i s q t hl hs (h ▸ hqt) hq ht hd
  · exact packet_unmarshalField_4_truncated m d i r q t (h ▸ hqt) hq ht hd
  · exact packet_unmarshalField_5_truncated m d i v q t hv (h ▸ hqt) hq ht hd

theorem packet_unmarshalLoop_truncated (d F q t : List Byte) (hF : EncodedField F) (hqt : F = q ++ t)
    (hq : q ≠ []) (ht : t ≠ []) (hl : d.length + t.length < 2 ^ 63) :
    ∀ (pre : List (List Byte)), (∀ G ∈ pre, EncodedField G) →
      ∀ (i : Nat) (m : InFlightPacket) (fuel : Nat), d.drop i = pre.flatten ++ q →
        d.length - i ≤ fuel →
        (InFlightPacket.unmarshalLoop d d.length fuel m i).2 = some .ErrUnexpectedEOF := by
  intro pre
  induction pre with
  | nil =>
    intro _ i m fuel hd hfuel
    simp only [List.flatten_nil, List.nil_append] at hd
    have hlen := length_of_drop_eq d i q hd hq
    have hpos : 1 ≤ q.length := List.length_pos.2 hq
    obtain ⟨f, rfl⟩ : ∃ f, fuel = f + 1 := ⟨fuel - 1, by omega⟩
    have hstep := encodedField_truncated F q t hF hqt hq ht m d i hl hd
    unfold InFlightPacket.unmarshalLoop
    rw [if_pos (by omega)]
    rcases hr : m.unmarshalField d d.length i with ⟨m', r⟩
    rw [hr] at hstep
    simp only at hstep
    subst hstep
    rfl
  | cons G pre ih =>
    intro hpre i m fuel hd hfuel
    simp only [List.flatten_cons, List.append_assoc] at hd
    by_cases hG : G = []
    · subst hG
      exact ih (fun G' h' => hpre G' (List.mem_cons_of_mem _ h')) i m fuel (by simpa using hd) hfuel
    · have hlen := length_of_drop_eq d i _ hd (by simp [hG])
      have hpos : 1 ≤ G.length := List.length_pos.2 hG
      rw [List.length_append] at hlen
      obtain ⟨f, rfl⟩ : ∃ f, fuel = f + 1 := ⟨fuel - 1, by omega⟩
      obtain ⟨m', hstep⟩ := encodedField_complete G (hpre G (List.mem_cons_self _ _)) hG m d i _
        (by omega) hd
      unfold InFlightPacket.unmarshalLoop
      rw [if_pos (by omega), hstep]
      exact ih (fun G' h' => hpre G' (List.mem_cons_of_mem _ h')) (i + G.length) m' f
        (by rw [← List.drop_drop, hd, List.drop_left]) (by omega)

/-! ### The outcome handler -/

theorem outcomeHandler_store_descends (ft : Nat) (st : Tracker) (env : Env) (n : Notification)
    (k' : OutboundKey) (r' : InFlightPacket) (h : (outcomeHandler ft st env n).1.store k' = some r') :
    ∃ k r, st.store k = some r ∧ r'.RetriesRemaining ≤ r.RetriesRemaining ∧
      (0 ≤ r.RetriesRemaining → 0 ≤ r'.RetriesRemaining) ∧
      r'.OriginalSenderAddress = r.OriginalSenderAddress ∧ r'.RefundChannelId = r.RefundChannelId ∧
      r'.RefundPortId = r.RefundPortId := by
  unfold outcomeHandler at h
  cases hs : st.store n.key with
  | none =>
    rw [hs] at h
    exact ⟨k', r', h, le_refl _, id, rfl, rfl, rfl⟩
  | some r =>
    rw [hs] at h
    have keep : ∀ {x : Option InFlightPacket}, (storeDelete st.store n.key k' = x) → x = some r' →
        st.store k' = some r' := by
      intro x hx hx'
      rw [hx'] at hx
      unfold storeDelete at hx
      split_ifs at hx
      exact hx
    have retry : (if r.RetriesRemaining > 0 then
        match dispatch st env r.OriginalSenderAddress r.RefundChannelId r.RefundPortId n.packet
            (r.RetriesRemaining - 1) ft with
        | (st', .error f) => (({ st with calls := st'.calls } : Tracker), some f)
        | (st', .ok _) => ({ st' with store := storeDelete st'.store n.key }, none)
      else
        ({ store := storeDelete st.store n.key,
           calls := Call.refund r.OriginalSenderAddress r.RefundChannelId r.RefundPortId n.packet.amount
             n.packet.denom env.refundCompletes :: st.calls },
         if env.refundCompletes then none else some Failure.refundFailure)).1.store k' = some r' →
        ∃ k r, st.store k = some r ∧ r'.RetriesRemaining ≤ r.RetriesRemaining ∧
      (0 ≤ r.RetriesRemaining → 0 ≤ r'.RetriesRemaining) ∧
          r'.OriginalSenderAddress = r.OriginalSenderAddress ∧ r'.RefundChannelId = r.RefundChannelId ∧
          r'.RefundPortId = r.RefundPortId := by
      intro h
      by_cases hpos : r.RetriesRemaining > 0
      · rw [if_pos hpos] at h
        unfold dispatch at h
        cases hsend : env.send with
        | none =>
          rw [hsend] at h
          exact ⟨k', r', h, le_refl _, id, rfl, rfl, rfl⟩
        | some kn =>
          rw [hsend] at h
          simp only [storeDelete, storePut] at h
          split_ifs at h with h1 h2
          · injection h with h
            subst h
            have hpos' : 0 < r.RetriesRemaining := hpos
            exact ⟨n.key, r, hs, (by show r.RetriesRemaining - 1 ≤ r.RetriesRemaining; omega),
              (fun _ => by show 0 ≤ r.RetriesRemaining - 1; omega), rfl, rfl, rfl⟩
          · exact ⟨k', r', h, le_refl _, id, rfl, rfl, rfl⟩
      · rw [if_neg hpos] at h
        exact ⟨k', r', keep rfl h, le_refl _, id, rfl, rfl, rfl⟩
    cases ho : n.outcome with
    | Success =>
      rw [ho] at h
      exact ⟨k', r', keep rfl h, le_refl _, id, rfl, rfl, rfl⟩
    | Timeout => rw [ho] at h; exact retry h
    | Error => rw [ho] at h; exact retry h

theorem runHandler_store_descends (ft : Nat) (events : List (Env × Notification)) :
    ∀ (st : Tracker) (k' : OutboundKey) (r' : InFlightPacket),
      (runHandler ft st events).store k' = some r' →
      ∃ k r, st.store k = some r ∧ r'.RetriesRemaining ≤ r.RetriesRemaining ∧
      (0 ≤ r.RetriesRemaining → 0 ≤ r'.RetriesRemaining) ∧
        r'.OriginalSenderAddress = r.OriginalSenderAddress ∧ r'.RefundChannelId = r.RefundChannelId ∧
        r'.RefundPortId = r.RefundPortId := by
  induction events with
  | nil => intro st k' r' h; exact ⟨k', r', h, le_refl _, id, rfl, rfl, rfl⟩
  | cons e rest ih =>
    intro st k' r' h
    obtain ⟨env, n⟩ := e
    obtain ⟨k₁, r₁, h₁, hle₁, hz₁, a₁, b₁, c₁⟩ := ih _ k' r' h
    obtain ⟨k₀, r₀, h₀, hle₀, hz₀, a₀, b₀, c₀⟩ :=
      outcomeHandler_store_descends ft st env n k₁ r₁ h₁
    exact ⟨k₀, r₀, h₀, le_trans hle₁ hle₀, fun hz => hz₁ (hz₀ hz), a₁.trans a₀, b₁.trans b₀,
      c₁.trans c₀⟩

theorem outcomeHandler_absent (ft : Nat) (st : Tracker) (env : Env) (n : Notification)
    (hs : st.store n.key = none) : outcomeHandler ft st env n = (st, none) := by
  unfold outcomeHandler
  rw [hs]

theorem outcomeHandler_retry (ft : Nat) (st : Tracker) (env : Env) (n : Notification) (r : InFlightPacket)
    (kn : OutboundKey) (hs : st.store n.key = some r) (ho : n.outcome ≠ .Success)
    (hpos : 0 < r.RetriesRemaining) (hsend : env.send = some kn) :
    outcomeHandler ft st env n =
      ({ store := storeDelete (storePut st.store kn
            ⟨r.OriginalSenderAddress, r.RefundChannelId, r.RefundPortId, r.RetriesRemaining - 1,
              uint64 (env.now + ft)⟩) n.key,
         calls := Call.send n.packet (some kn) :: st.calls }, none) := by
  unfold outcomeHandler
  rw [hs]
  cases hout : n.outcome with
  | Success => exact absurd hout ho
  | Timeout => simp only [gt_iff_lt, if_pos hpos, dispatch, hsend]
  | Error => simp only [gt_iff_lt, if_pos hpos, dispatch, hsend]

theorem outcomeHandler_retry_failed (ft : Nat) (st : Tracker) (env : Env) (n : Notification)
    (r : InFlightPacket) (hs : st.store n.key = some r) (ho : n.outcome ≠ .Success)
    (hpos : 0 < r.RetriesRemaining) (hsend : env.send = none) :
    outcomeHandler ft st env n =
      ({ store := st.store, calls := Call.send n.packet none :: st.calls },
        some .dispatchFailure) := by
  unfold outcomeHandler
  rw [hs]
  cases hout : n.outcome with
  | Success => exact absurd hout ho
  | Timeout => simp only [gt_iff_lt, if_pos hpos, dispatch, hsend]
  | Error => simp only [gt_iff_lt, if_pos hpos, dispatch, hsend]

theorem outcomeHandler_exhausted (ft : Nat) (st : Tracker) (env : Env) (n : Notification)
    (r : InFlightPacket) (hs : st.store n.key = some r) (ho : n.outcome ≠ .Success)
    (h0 : r.RetriesRemaining ≤ 0) :
    outcomeHandler ft st env n =
      ({ store := storeDelete st.store n.key,
         calls := Call.refund r.OriginalSenderAddress r.RefundChannelId r.RefundPortId n.packet.amount
           n.packet.denom env.refundCompletes :: st.calls },
       if env.refundCompletes then none else some .refundFailure) := by
  have hpos : ¬ (r.RetriesRemaining > 0) := by omega
  unfold outcomeHandler
  rw [hs]
  cases hout : n.outcome with
  | Success => exact absurd hout ho
  | Timeout => simp only [if_neg hpos]
  | Error => simp only [if_neg hpos]

theorem outcomeHandler_success (ft : Nat) (st : Tracker) (env : Env) (n : Notification)
    (r : InFlightPacket) (hs : st.store n.key = some r) (ho : n.outcome = .Success) :
    outcomeHandler ft st env n = ({ st with store := storeDelete st.store n.key }, none) := by
  unfold outcomeHandler
  rw [hs, ho]

theorem storeDelete_self (s : OutboundKey → Option InFlightPacket) (k : OutboundKey) :
    storeDelete s k k = none := by
  simp [storeDelete]

theorem storeDelete_other (s : OutboundKey → Option InFlightPacket) (k k' : OutboundKey) (h : k' ≠ k) :
    storeDelete s k k' = s k' := by
  simp [storeDelete, h]

theorem storePut_self (s : OutboundKey → Option InFlightPacket) (k : OutboundKey) (r : InFlightPacket) :
    storePut s k r k = some r := by
  simp [storePut]

theorem storePut_other (s : OutboundKey → Option InFlightPacket) (k k' : OutboundKey) (r : InFlightPacket)
    (h : k' ≠ k) : storePut s k r k' = s k' := by
  simp [storePut, h]

/-- After a delivery that did not fail to dispatch, no record is left under the
notified key. -/
theorem outcomeHandler_consumes (ft : Nat) (st : Tracker) (env : Env) (n : Notification)
    (hok : (outcomeHandler ft st env n).2 ≠ some .dispatchFailure) :
    (outcomeHandler ft st env n).1.store n.key = none := by
  cases hs : st.store n.key with
  | none => rw [outcomeHandler_absent ft st env n hs]; exact hs
  | some r =>
    by_cases ho : n.outcome = .Success
    · rw [outcomeHandler_success ft st env n r hs ho]; exact storeDelete_self _ _
    · by_cases hpos : 0 < r.RetriesRemaining
      · cases hsend : env.send with
        | none =>
          rw [outcomeHandler_retry_failed ft st env n r hs ho hpos hsend] at hok
          exact absurd rfl hok
        | some kn =>
          rw [outcomeHandler_retry ft st env n r kn hs ho hpos hsend]
          exact storeDelete_self _ _
      · rw [outcomeHandler_exhausted ft st env n r hs ho (by omega)]
        exact storeDelete_self _ _


/-! ### Varints of any spelling, and tags of the wrong wire type -/

theorem and_127_eq_mod (v : Nat) : v &&& 0x7F = v % 128 := by
  have := Nat.and_pow_two_sub_one_eq_mod v 7
  simpa using this

theorem isVarint_cons_cons (b c : Byte) (bs : List Byte) :
    isVarint (b :: c :: bs) = (decide (0x80 ≤ b.val) && isVarint (c :: bs)) := rfl

/-- The varint loop on any varint whose bytes are all read at a shift below 64:
the groups are or-ed in at their shifts, cut to the width. -/
theorem decodeVarint_isVarint (w : Nat) : ∀ (vs : List Byte) (shift i acc fuel : Nat)
    (d rest : List Byte), isVarint vs = true → shift + 7 * vs.length < 71 → vs.length ≤ fuel →
    d.drop i = vs ++ rest →
    decodeVarint w d d.length fuel shift i acc
      = (acc ||| (varintValue vs <<< shift) % 2 ^ w, .ok (i + vs.length)) := by
  intro vs
  induction vs with
  | nil => intro shift i acc fuel d rest h; simp [isVarint] at h
  | cons b bs ih =>
    intro shift i acc fuel d rest hv hs hf hd
    simp only [List.length_cons] at hs hf
    obtain ⟨f, rfl⟩ : ∃ f, fuel = f + 1 := ⟨fuel - 1, by omega⟩
    simp only [List.cons_append] at hd
    obtain ⟨h1, h2, h3⟩ := getElem?_of_drop_eq d i _ _ hd
    conv_lhs => unfold decodeVarint
    rw [if_neg (by omega), if_neg (by omega), h1]
    simp only [and_127_eq_mod]
    cases bs with
    | nil =>
      have hb : b.val < 0x80 := by simpa [isVarint] using hv
      rw [if_pos hb]
      simp only [varintValue, Nat.mul_zero, Nat.add_zero, List.length_singleton]
    | cons c cs =>
      rw [isVarint_cons_cons, Bool.and_eq_true, decide_eq_true_eq] at hv
      rw [if_neg (by omega)]
      rw [ih (shift + 7) (i + 1) _ f d rest hv.2 (by simp only [List.length_cons] at hs ⊢; omega)
        (by omega) h2]
      have hm : varintValue (b :: c :: cs) % 128 = b.val % 128 := by
        conv_lhs => unfold varintValue
        omega
      have hq : varintValue (b :: c :: cs) / 128 = varintValue (c :: cs) := by
        conv_lhs => unfold varintValue
        omega
      rw [Nat.or_assoc, ← hm, ← hq, shift_split]
      simp only [List.length_cons]
      have : i + 1 + (cs.length + 1) = i + (cs.length + 1 + 1) := by omega
      rw [this]

theorem decodeVarint_isVarint_top (w i : Nat) (vs d rest : List Byte) (hv : isVarint vs = true)
    (hl : vs.length ≤ 10) (hd : d.drop i = vs ++ rest) :
    decodeVarint w d d.length varintFuel 0 i 0 = (varintValue vs % 2 ^ w, .ok (i + vs.length)) := by
  rw [decodeVarint_isVarint w vs 0 i 0 varintFuel d rest hv (by omega)
    (by simp only [varintFuel]; omega) hd]
  simp

theorem isVarint_high (vs : List Byte) : ∀ (j : Nat), isVarint vs = true → j + 1 < vs.length →
    ∃ x : Byte, vs[j]? = some x ∧ 0x80 ≤ x.val := by
  induction vs with
  | nil => intro j h; simp [isVarint] at h
  | cons b bs ih =>
    intro j hv hj
    cases bs with
    | nil => simp at hj
    | cons c cs =>
      rw [isVarint_cons_cons, Bool.and_eq_true, decide_eq_true_eq] at hv
      cases j with
      | zero => exact ⟨b, rfl, hv.1⟩
      | succ j =>
        obtain ⟨x, hx, hx80⟩ := ih j hv.2 (by simp only [List.length_cons] at hj ⊢; omega)
        exact ⟨x, by simpa using hx, hx80⟩

/-- The varint loop on a varint of more than ten bytes reports the overflow. -/
theorem decodeVarint_isVarint_long (w i : Nat) (vs d rest : List Byte) (hv : isVarint vs = true)
    (hl : 10 < vs.length) (hd : d.drop i = vs ++ rest) :
    (decodeVarint w d d.length varintFuel 0 i 0).2 = .error .ErrIntOverflowGenesis := by
  have hlen : i + vs.length ≤ d.length := by
    have := congrArg List.length hd
    simp only [List.length_drop, List.length_append] at this
    omega
  have hget : ∀ j, j < vs.length → d[i + j]? = vs[j]? := by
    intro j hj
    have := congrArg (fun l => l[j]?) hd
    simp only [List.getElem?_drop] at this
    rw [this, List.getElem?_append_left hj]
  obtain ⟨acc', h10⟩ := decodeVarint_continue w d 10 1 0 i 0
    (by
      intro j hj
      rw [hget j (by omega)]
      exact isVarint_high vs j hv (by omega)) (by omega) (by norm_num)
  have : varintFuel = 1 + 10 := rfl
  rw [this, h10]
  simp [decodeVarint]

theorem packet_unmarshalField_5_isVarint (m : InFlightPacket) (d : List Byte) (i : Nat)
    (vs rest : List Byte) (hv : isVarint vs = true) (hl : vs.length ≤ 10)
    (hd : d.drop i = (0x28 : Byte) :: vs ++ rest) :
    m.unmarshalField d d.length i
      = ({ m with Timeout := varintValue vs % 2 ^ 64 }, .ok (i + ((0x28 : Byte) :: vs).length)) := by
  simp only [List.cons_append] at hd
  obtain ⟨_, h3, _⟩ := getElem?_of_drop_eq d i _ _ hd
  unfold InFlightPacket.unmarshalField
  simp only
  rw [decodeVarint_tag 40 i d _ (by decide) hd]
  simp only [decodeVarint_isVarint_top 64 (i + 1) vs d rest hv hl h3]
  simp [toInt32, show (40 &&& 7 : Nat) = 0 by decide]
  omega

theorem packet_unmarshalField_5_long (m : InFlightPacket) (d : List Byte) (i : Nat)
    (vs rest : List Byte) (hv : isVarint vs = true) (hl : 10 < vs.length)
    (hd : d.drop i = (0x28 : Byte) :: vs ++ rest) :
    (m.unmarshalField d d.length i).2 = .error .ErrIntOverflowGenesis := by
  simp only [List.cons_append] at hd
  obtain ⟨_, h3, _⟩ := getElem?_of_drop_eq d i _ _ hd
  have hlong := decodeVarint_isVarint_long 64 (i + 1) vs d rest hv hl h3
  unfold InFlightPacket.unmarshalField
  simp only
  rw [decodeVarint_tag 40 i d _ (by decide) hd]
  rcases hdv : decodeVarint 64 d d.length varintFuel 0 (i + 1) 0 with ⟨x, r⟩
  rw [hdv] at hlong
  simp only at hlong
  subst hlong
  simp [toInt32, show (40 &&& 7 : Nat) = 0 by decide]
  rw [hdv]

theorem packet_Unmarshal_first_error (m : InFlightPacket) (d : List Byte) (hd : d ≠ [])
    (m' : InFlightPacket) (e : Err) (h : m.unmarshalField d d.length 0 = (m', .error e)) :
    m.Unmarshal d = (m', some e) := by
  have hpos : 0 < d.length := List.length_pos.2 hd
  obtain ⟨f, hf⟩ : ∃ f, d.length = f + 1 := ⟨d.length - 1, by omega⟩
  unfold InFlightPacket.Unmarshal
  conv_lhs => arg 3; rw [hf]
  unfold InFlightPacket.unmarshalLoop
  rw [if_pos hpos, h]

/-- The tag round on a tag whose wire type is not the declared one. -/
theorem packet_unmarshalField_wrong_wire (m : InFlightPacket) (d vs rest : List Byte)
    (f wt : Nat) (hf : 1 ≤ f ∧ f ≤ 5) (hwt : wt < 8) (hne : wt ≠ declaredWireType f)
    (hv : isVarint vs = true) (hval : varintValue vs = 8 * f + wt) (hd : d = vs ++ rest) :
    m.unmarshalField d d.length 0 =
      (m, .error (if 10 < vs.length then .ErrIntOverflowGenesis
        else if wt = 4 then .endGroupForNonGroup else .wrongWireType wt f)) := by
  have hdrop : d.drop 0 = vs ++ rest := by rw [List.drop_zero, hd]
  by_cases hl : 10 < vs.length
  · have hlong := decodeVarint_isVarint_long 64 0 vs d rest hv hl hdrop
    unfold InFlightPacket.unmarshalField
    simp only
    rcases hdv : decodeVarint 64 d d.length varintFuel 0 0 0 with ⟨x, r⟩
    rw [hdv] at hlong
    simp only at hlong
    subst hlong
    simp only [if_pos hl]
  · have hdec := decodeVarint_isVarint_top 64 0 vs d rest hv (by omega) hdrop
    rw [hval, Nat.mod_eq_of_lt (by omega)] at hdec
    unfold InFlightPacket.unmarshalField
    simp only
    rw [hdec, if_neg hl]
    obtain ⟨h1, h5⟩ := hf
    interval_cases f <;> interval_cases wt <;>
      first
      | exact absurd rfl hne
      | rfl

/-! ## The claims -/

/-- C1. Snapshot round trip: for every well-formed snapshot `g` whose encoding fits
a Go slice, and for every order `ks₁` in which `Size` and every order `ks₂` in
which `MarshalToSizedBuffer` range over the map, `Marshal` returns bytes without
error, and `Unmarshal` of those bytes into the zero `GenesisState` returns no
error and yields the same `FeePercentage` and a map with exactly the keys of
`g` (the decoded map is enumerated by `ks₂`), each bound to the same record; the
external decimal is assumed to marshal its value and to read it back. -/
theorem C1_snapshot_round_trip {C : DecCodec} (g : GenesisState C) (ks₁ ks₂ : List (List Byte))
    (hg : g.WF) (hrt : C.RoundTrips g.Params.FeePercentage)
    (h₁ : g.InFlightPackets.Enumerates ks₁) (h₂ : g.InFlightPackets.Enumerates ks₂)
    (hsize : g.Size ks₁ < 2 ^ 63) :
    ∃ b, g.Marshal ks₁ ks₂ = .ok b ∧
      ((GenesisState.zero C).Unmarshal b).2 = none ∧
      ((GenesisState.zero C).Unmarshal b).1.Params.FeePercentage = g.Params.FeePercentage ∧
      ((GenesisState.zero C).Unmarshal b).1.InFlightPackets.keys.Perm g.InFlightPackets.keys ∧
      ∀ k, ((GenesisState.zero C).Unmarshal b).1.InFlightPackets.get k = g.InFlightPackets.get k := by
  have hr : g.InFlightPackets.Enumerates ks₂.reverse := (List.reverse_perm ks₂).trans h₂
  have hwf := packetMap_wf_of_enumerates _ hg.2 ks₂.reverse hr
  have hlen : (g.wire ks₂.reverse).length < 2 ^ 63 := by
    rw [← genesis_Size_eq g hg ks₁ ks₂.reverse h₁ hr]; exact hsize
  have hdec := genesis_Unmarshal_snapshotWire (GenesisState.zero C) g.Params
    (ks₂.reverse.map fun k => (k, g.InFlightPackets.index k)) hg.1
    (by
      intro e he
      obtain ⟨k, hk, rfl⟩ := List.mem_map.1 he
      exact (hwf k hk).2)
    (by rw [← genesis_wire_eq_snapshotWire]; exact hlen)
    (by
      have := hrt
      unfold DecCodec.RoundTrips at this
      simp only [GenesisState.zero, this])
  rw [← genesis_wire_eq_snapshotWire] at hdec
  refine ⟨g.wire ks₂.reverse, genesis_Marshal_eq g hg ks₁ ks₂ h₁ h₂, ?_, ?_, ?_, ?_⟩
  · rw [hdec]
  · rw [hdec]
    have := hrt
    unfold DecCodec.RoundTrips at this
    simp only [GenesisState.zero, this]
  · rw [hdec]
    simp only [GenesisState.zero]
    by_cases hnil : ks₂ = []
    · subst hnil
      have hk : g.InFlightPackets.keys = [] := by
        have : ([] : List (List Byte)).Perm g.InFlightPackets.keys := h₂
        exact this.symm.eq_nil
      rw [hk]
      exact List.Perm.refl _
    · have hnd : ks₂.reverse.Nodup := (List.Perm.nodup_iff hr).2 hg.2.1
      rw [keys_applyEntries _ none (by simpa [List.map_map, Function.comp_def] using hnd)
        (by intro k _; simp [PacketMap.keys]) (by simpa using hnil)]
      simp only [List.map_map, Function.comp_def, List.map_id', List.reverse_reverse, PacketMap.keys,
        List.append_nil]
      exact h₂
  · intro k
    rw [hdec]
    simp only [GenesisState.zero]
    rw [get_applyEntries_enum g.InFlightPackets none ks₂.reverse hr k]
    cases g.InFlightPackets.get k <;> rfl

/-- C2. Record round trip: for every record `m` a Go `InFlightPacket` can hold,
`Marshal` returns bytes without error and `Unmarshal` of those bytes into the
zero record returns no error and yields a record equal to `m`. -/
theorem C2_record_round_trip (m : InFlightPacket) (h : m.WF) :
    ∃ b, m.Marshal = .ok b ∧ InFlightPacket.zero.Unmarshal b = (m, none) :=
  ⟨m.wire, packet_Marshal_eq m h, packet_Unmarshal_wire m h⟩

/-- C3, as amended. Import does not reject duplicate keys: for a snapshot byte
string laid out as `Marshal` lays it out (the parameters, then field-2 entries)
in which two entries carry the same key `k`, the second of them being the last
entry with that key, `Unmarshal` into any receiver returns no error when the
external decimal accepts its text, and the key `k` is then bound to the record
of that later entry. -/
theorem C3_duplicate_keys_last_wins {C : DecCodec} (s : GenesisState C) (p : Params C)
    (k : List Byte) (v₁ v₂ : InFlightPacket) (es₁ es₂ es₃ : List (List Byte × InFlightPacket))
    (hm : C.Marshals p.FeePercentage)
    (hwf : ∀ e ∈ es₁ ++ (k, v₁) :: es₂ ++ (k, v₂) :: es₃, e.2.WF)
    (hlast : ∀ e ∈ es₃, e.1 ≠ k)
    (hl : (snapshotWire p (es₁ ++ (k, v₁) :: es₂ ++ (k, v₂) :: es₃)).length < 2 ^ 63)
    (hC : (C.Unmarshal s.Params.FeePercentage (C.text p.FeePercentage)).2 = none) :
    (s.Unmarshal (snapshotWire p (es₁ ++ (k, v₁) :: es₂ ++ (k, v₂) :: es₃))).2 = none ∧
      (s.Unmarshal (snapshotWire p (es₁ ++ (k, v₁) :: es₂ ++ (k, v₂) :: es₃))).1.InFlightPackets.get k
        = some v₂ := by
  have hdec := genesis_Unmarshal_snapshotWire s p (es₁ ++ (k, v₁) :: es₂ ++ (k, v₂) :: es₃) hm hwf hl hC
  rw [hdec]
  refine ⟨rfl, ?_⟩
  simp only
  rw [get_applyEntries]
  have h3 : es₃.reverse.lookup k = none := by
    rw [List.lookup_eq_none_iff]
    intro e he
    simp only [bne_iff_ne, ne_eq]
    intro h
    exact hlast e (List.mem_reverse.1 he) h.symm
  simp [List.lookup_append, h3, List.lookup_cons]

/-- C4, as amended. A failed import may leave the receiver changed, but it loses
no entry: for every receiver `s` and every byte string `b`, if `s.Unmarshal(b)`
returns an error then every key that was bound in `s` before the call is still
bound after it. -/
theorem C4_failed_import_keeps_keys {C : DecCodec} (s : GenesisState C) (b k : List Byte) (e : Err)
    (herr : (s.Unmarshal b).2 = some e) (hk : (s.InFlightPackets.get k).isSome) :
    ((s.Unmarshal b).1.InFlightPackets.get k).isSome := by
  have _ := herr
  exact genesis_unmarshalLoop_keeps b b.length k b.length s 0 hk

/-- C5, as amended. Import merges into the prior contents: for every receiver `s`
and every well-formed snapshot `g` with `b = Marshal(g)`, after `s.Unmarshal(b)`
succeeds the map of `s` binds every key of `g` to the record `g` gives it and
every other key to what `s` bound it to before the call. -/
theorem C5_import_merges {C : DecCodec} (s g : GenesisState C) (ks₁ ks₂ : List (List Byte))
    (b : List Byte) (hg : g.WF) (h₁ : g.InFlightPackets.Enumerates ks₁)
    (h₂ : g.InFlightPackets.Enumerates ks₂) (hsize : g.Size ks₁ < 2 ^ 63)
    (hb : g.Marshal ks₁ ks₂ = .ok b) (hok : (s.Unmarshal b).2 = none) :
    ∀ k, (s.Unmarshal b).1.InFlightPackets.get k
      = (g.InFlightPackets.get k).or (s.InFlightPackets.get k) := by
  have hr : g.InFlightPackets.Enumerates ks₂.reverse := (List.reverse_perm ks₂).trans h₂
  have hwf := packetMap_wf_of_enumerates _ hg.2 ks₂.reverse hr
  have hlen : (g.wire ks₂.reverse).length < 2 ^ 63 := by
    rw [← genesis_Size_eq g hg ks₁ ks₂.reverse h₁ hr]; exact hsize
  have hbw : b = g.wire ks₂.reverse := by
    rw [genesis_Marshal_eq g hg ks₁ ks₂ h₁ h₂] at hb
    exact (Except.ok.inj hb).symm
  subst hbw
  intro k
  rw [genesis_wire_eq_snapshotWire] at hok hlen ⊢
  rcases hC : (C.Unmarshal s.Params.FeePercentage (C.text g.Params.FeePercentage)).2 with _ | e
  · rw [genesis_Unmarshal_snapshotWire s g.Params _ hg.1
      (by
        intro e he
        obtain ⟨k, hk, rfl⟩ := List.mem_map.1 he
        exact (hwf k hk).2) hlen hC]
    simp only
    exact get_applyEntries_enum g.InFlightPackets s.InFlightPackets ks₂.reverse hr k
  · have := genesis_Unmarshal_snapshotWire_error s g.Params _ hg.1 hlen e hC
    rw [this] at hok
    cases hok

/-- C6. Export enumerates every live entry exactly once: for every well-formed
snapshot `g` whose map has `N` entries and whose encoding fits a Go slice
(`Size` below `2^63`), the bytes `Marshal` produces are the Params field
followed by the field-2 records of a list `ks` of `N` keys that is a
rearrangement of the keys of the map (each key once), the record of a key
carrying that key and the record the map binds it to. -/
theorem C6_export_enumerates_once {C : DecCodec} (g : GenesisState C) (ks₁ ks₂ : List (List Byte))
    (hg : g.WF) (h₁ : g.InFlightPackets.Enumerates ks₁) (h₂ : g.InFlightPackets.Enumerates ks₂)
    (hsize : g.Size ks₁ < 2 ^ 63) :
    ∃ ks : List (List Byte), ks.Perm g.InFlightPackets.keys ∧ ks.Nodup ∧
      ks.length = g.InFlightPackets.len ∧
      g.Marshal ks₁ ks₂ = .ok (((0x0a : Byte) :: varint g.Params.wire.length ++ g.Params.wire) ++
        (ks.map fun k => entryWire k (g.InFlightPackets.index k)).flatten) := by
  have _ := hsize
  have hr : g.InFlightPackets.Enumerates ks₂.reverse := (List.reverse_perm ks₂).trans h₂
  refine ⟨ks₂.reverse, hr, (List.Perm.nodup_iff hr).2 hg.2.1, ?_, ?_⟩
  · rw [hr.length_eq]
    cases g.InFlightPackets <;> simp [PacketMap.keys, PacketMap.len]
  · exact genesis_Marshal_eq g hg ks₁ ks₂ h₁ h₂

/-- C7, as amended. The export depends on the order in which
`MarshalToSizedBuffer` ranges over the map, and on nothing else: for every
well-formed snapshot `g` whose encoding fits a Go slice and any two runs of
`Marshal` (orders `ks₁`, `ks₂` and `ks₁'`, `ks₂'`), `Size` is the same in both
runs, each output is the Params field of `g` followed by the field-2 records of
the entries of `g`, one per key, in the reverse of the order ranged over, the
records of one output are a rearrangement of the records of the other, and
two runs in which `MarshalToSizedBuffer` ranges in the same order give the
same bytes, whatever order `Size` ranges in. -/
theorem C7_export_up_to_order {C : DecCodec} (g : GenesisState C)
    (ks₁ ks₂ ks₁' ks₂' : List (List Byte)) (hg : g.WF)
    (h₁ : g.InFlightPackets.Enumerates ks₁) (h₂ : g.InFlightPackets.Enumerates ks₂)
    (h₁' : g.InFlightPackets.Enumerates ks₁') (h₂' : g.InFlightPackets.Enumerates ks₂')
    (hsize : g.Size ks₁ < 2 ^ 63) :
    g.Size ks₁' = g.Size ks₁ ∧
    g.Marshal ks₁ ks₂ = .ok (((0x0a : Byte) :: varint g.Params.wire.length ++ g.Params.wire) ++
      (ks₂.reverse.map fun k => entryWire k (g.InFlightPackets.index k)).flatten) ∧
    g.Marshal ks₁' ks₂' = .ok (((0x0a : Byte) :: varint g.Params.wire.length ++ g.Params.wire) ++
      (ks₂'.reverse.map fun k => entryWire k (g.InFlightPackets.index k)).flatten) ∧
    (ks₂.reverse.map fun k => entryWire k (g.InFlightPackets.index k)).Perm
      (ks₂'.reverse.map fun k => entryWire k (g.InFlightPackets.index k)) ∧
    g.Marshal ks₁' ks₂ = g.Marshal ks₁ ks₂ := by
  have _ := hsize
  refine ⟨?_, genesis_Marshal_eq g hg ks₁ ks₂ h₁ h₂, genesis_Marshal_eq g hg ks₁' ks₂' h₁' h₂',
    ?_, ?_⟩
  · rw [genesis_Size_eq g hg ks₁' ks₂ h₁' h₂, genesis_Size_eq g hg ks₁ ks₂ h₁ h₂]
  · apply List.Perm.map
    exact ((List.reverse_perm ks₂).trans (h₂.trans h₂'.symm)).trans (List.reverse_perm ks₂').symm
  · rw [genesis_Marshal_eq g hg ks₁ ks₂ h₁ h₂, genesis_Marshal_eq g hg ks₁' ks₂ h₁' h₂]

/-- C8, as amended. `RetriesRemaining` of a decoded record is an `int32`, not
necessarily non-negative: for every byte string `b`, if `Unmarshal` of `b` into
the zero record returns no error, the resulting `RetriesRemaining` lies in
`-2^31 .. 2^31 - 1`. -/
theorem C8_retries_is_int32 (b : List Byte) (h : (InFlightPacket.zero.Unmarshal b).2 = none) :
    -(2 : Int) ^ 31 ≤ (InFlightPacket.zero.Unmarshal b).1.RetriesRemaining ∧
      (InFlightPacket.zero.Unmarshal b).1.RetriesRemaining < 2 ^ 31 := by
  have _ := h
  exact packet_unmarshalLoop_retries b b.length b.length InFlightPacket.zero 0
    (by simp [InFlightPacket.zero])

/-- C9. Wire layout of a record: for every record `m` a Go `InFlightPacket` can
hold, `Marshal` returns the concatenation, in ascending field-number order, of:
for each non-empty string among `OriginalSenderAddress`, `RefundChannelId`,
`RefundPortId` the tag byte `0x0a`, `0x12`, `0x1a`, the varint of its byte
length and its bytes; if `RetriesRemaining != 0` the tag `0x20` and the varint of
`uint64(RetriesRemaining)`; if `Timeout != 0` the tag `0x28` and the varint of
`Timeout`. The zero record marshals to the empty byte string. -/
theorem C9_record_wire_layout (m : InFlightPacket) (h : m.WF) :
    m.Marshal = .ok (
      (if m.OriginalSenderAddress.length > 0 then
        (0x0a : Byte) :: varint m.OriginalSenderAddress.length ++ m.OriginalSenderAddress else []) ++
      (if m.RefundChannelId.length > 0 then
        (0x12 : Byte) :: varint m.RefundChannelId.length ++ m.RefundChannelId else []) ++
      (if m.RefundPortId.length > 0 then
        (0x1a : Byte) :: varint m.RefundPortId.length ++ m.RefundPortId else []) ++
      (if m.RetriesRemaining ≠ 0 then (0x20 : Byte) :: varint (uint64OfInt m.RetriesRemaining) else []) ++
      (if m.Timeout ≠ 0 then (0x28 : Byte) :: varint m.Timeout else []))
    ∧ InFlightPacket.zero.Marshal = .ok [] :=
  ⟨packet_Marshal_eq m h, rfl⟩

/-- C10. Fee conservation: for every amount `>= 0` and every rate
`units / scale` in `[0, 1)`, `computeFee` returns `(fee, netAmount)` with
`fee = floor(amount * rate)`, `fee + netAmount = amount`, `fee >= 0` and
`netAmount >= 0`; amount 1000 at rate 0.01 gives fee 10 and net 990. -/
theorem C10_fee_conservation (scale : Nat) (amount : Int) (units : Nat)
    (hamount : 0 ≤ amount) (hrate : units < scale) :
    (computeFee scale amount units).1 = ⌊(amount : ℚ) * ((units : ℚ) / (scale : ℚ))⌋ ∧
      (computeFee scale amount units).1 + (computeFee scale amount units).2 = amount ∧
      0 ≤ (computeFee scale amount units).1 ∧ 0 ≤ (computeFee scale amount units).2 ∧
      computeFee (10 ^ 18) 1000 (10 ^ 16) = (10, 990) := by
  have hs : (0 : Int) < scale := by exact_mod_cast (Nat.zero_lt_of_lt hrate)
  have hfee : (computeFee scale amount units).1 = amount * (units : Int) / (scale : Int) := by
    simp only [computeFee]
    exact Int.tdiv_eq_ediv (Int.mul_nonneg hamount (Int.ofNat_nonneg _)) (le_of_lt hs)
  have hnet : (computeFee scale amount units).2 = amount - amount * (units : Int) / (scale : Int) := by
    simp only [computeFee]
    rw [Int.tdiv_eq_ediv (Int.mul_nonneg hamount (Int.ofNat_nonneg _)) (le_of_lt hs)]
  have h0 : 0 ≤ amount * (units : Int) / (scale : Int) :=
    Int.ediv_nonneg (Int.mul_nonneg hamount (Int.ofNat_nonneg _)) (le_of_lt hs)
  have hle : amount * (units : Int) / (scale : Int) ≤ amount := by
    apply Int.ediv_le_of_le_mul hs
    apply Int.mul_le_mul_of_nonneg_left _ hamount
    exact_mod_cast le_of_lt hrate
  refine ⟨?_, ?_, ?_, ?_, by decide⟩
  · rw [hfee, ← Rat.floor_intCast_div_natCast]
    congr 1
    push_cast
    ring
  · rw [hfee, hnet]; omega
  · rw [hfee]; exact h0
  · rw [hnet]; omega

/-- C17. `encodeVarintGenesis` writes a base-128 varint in place: for every buffer
`d`, every `uint64` `v` and every offset with `sovGenesis(v) <= offset <= len(d)`,
the call returns `base = offset - sovGenesis(v)` and a buffer of the same length
in which byte `base + j`, for `j < sovGenesis(v)`, is the `j`-th 7-bit group of
`v` (least significant first) plus `0x80` unless it is the last one, and every
byte outside `[base, offset)` is unchanged. -/
theorem C17_encodeVarint_in_place (d : List Byte) (v offset : Nat) (hv : v < 2 ^ 64)
    (h₁ : sovGenesis v ≤ offset) (h₂ : offset ≤ d.length) :
    ∃ d' : List Byte,
      encodeVarintGenesis d (offset : Int) v = .ok (d', ((offset - sovGenesis v : Nat) : Int)) ∧
      d'.length = d.length ∧
      (∀ j, j < sovGenesis v → ∃ b : Byte, d'[offset - sovGenesis v + j]? = some b ∧
        b.val = (v / 128 ^ j) % 128 + if j + 1 < sovGenesis v then 128 else 0) ∧
      (∀ i, i < offset - sovGenesis v ∨ offset ≤ i → d'[i]? = d[i]?) := by
  have hd : d = d.take offset ++ d.drop offset := (List.take_append_drop _ _).symm
  have hX : (d.take offset).length = offset := by rw [List.length_take]; omega
  have hs := varint_length v hv
  have key := encodeVarintGenesis_append (d.take offset) (d.drop offset) v hv (by omega)
  rw [← hd, hX, List.take_take] at key
  have hmin : min (offset - sovGenesis v) offset = offset - sovGenesis v := by omega
  rw [hmin] at key
  have hA : (d.take (offset - sovGenesis v)).length = offset - sovGenesis v := by
    rw [List.length_take]; omega
  refine ⟨_, key, ?_, ?_, ?_⟩
  · simp only [List.length_append, hA, hs, List.length_drop]; omega
  · intro j hj
    have hg : (v / 128 ^ j) % 128 + (if j + 1 < sovGenesis v then 128 else 0) < 256 := by
      have := Nat.mod_lt (v / 128 ^ j) (show 0 < 128 by decide)
      split_ifs <;> omega
    refine ⟨uint8 ((v / 128 ^ j) % 128 + if j + 1 < sovGenesis v then 128 else 0), ?_, ?_⟩
    · rw [List.append_assoc, List.getElem?_append_right (by rw [hA]; omega), hA]
      have e : offset - sovGenesis v + j - (offset - sovGenesis v) = j := by omega
      rw [e, List.getElem?_append_left (by rw [hs]; exact hj)]
      have := varintBytes_getElem 9 v j (lt_of_lt_of_le hv (by norm_num)) (by
        unfold varint at hs; rw [hs]; exact hj)
      unfold varint at hs ⊢
      rw [this, hs]
    · simp only [uint8]
      exact Nat.mod_eq_of_lt hg
  · intro i hi
    rcases hi with hi | hi
    · rw [List.append_assoc, List.getElem?_append_left (by rw [hA]; exact hi), List.getElem?_take]
      rw [if_pos hi]
    · rw [List.getElem?_append_right (by simp only [List.length_append, hA, hs]; omega)]
      simp only [List.length_append, hA, hs]
      rw [List.getElem?_drop]
      congr 1
      omega

/-- C18. `sovGenesis` is the varint length: for every `uint64` `x`, `sovGenesis(x)`
is at least 1, `x < 2^(7 * sovGenesis(x))`, and no `n >= 1` with `x < 2^(7n)` is
smaller; `sovGenesis(0) = 1`, `sovGenesis(127) = 1`, `sovGenesis(128) = 2`, and
`sovGenesis(x) <= 10`. -/
theorem C18_sovGenesis_is_varint_length (x : Nat) (hx : x < 2 ^ 64) :
    1 ≤ sovGenesis x ∧ x < 2 ^ (7 * sovGenesis x) ∧
    (∀ n, 1 ≤ n → x < 2 ^ (7 * n) → sovGenesis x ≤ n) ∧
    sovGenesis x ≤ 10 ∧
    sovGenesis 0 = 1 ∧ sovGenesis 127 = 1 ∧ sovGenesis 128 = 2 :=
  ⟨sovGenesis_pos x, sovGenesis_lt_pow x hx,
    fun n hn h => (sovGenesis_le_iff x n hx hn).2 h,
    sovGenesis_le_ten x hx, by decide, by decide, by decide⟩

/-- C15. `Size` agrees with `Marshal` for records: for every record `m` a Go
`InFlightPacket` can hold, `MarshalToSizedBuffer` on a buffer of length
`m.Size()` returns without a bounds panic, leaves the buffer holding exactly the
encoding (so it is filled from index 0) and returns `n = m.Size()`; and
`Marshal` returns `m.Size()` bytes. -/
theorem C15_record_size_agrees (m : InFlightPacket) (X : List Byte) (h : m.WF)
    (hX : X.length = m.Size) :
    m.MarshalToSizedBuffer X = .ok (m.wire, (m.Size : Int)) ∧ m.wire.length = X.length ∧
      ∃ b, m.Marshal = .ok b ∧ b.length = m.Size := by
  have hw := packet_wire_length m h
  refine ⟨?_, by rw [hw, hX], m.wire, packet_Marshal_eq m h, hw⟩
  have := packet_MarshalToSizedBuffer_eq m h X (by omega)
  rw [this, hX]
  simp

/-- C16. `Size` agrees with `Marshal` for the snapshot: for every well-formed
snapshot `g` whose encoding fits a Go slice (`Size` below `2^63`) and every pair
of orders in which `Size` and `MarshalToSizedBuffer` range over the map,
`Marshal` returns without a bounds panic exactly `g.Size()`
bytes, and `g.Size()` is the size of the Params field plus, for each entry,
`1 + sov(E) + E` with `E = 1 + sov(len key) + len key + 1 + sov(Size value) +
Size value`. -/
theorem C16_snapshot_size_agrees {C : DecCodec} (g : GenesisState C) (ks₁ ks₂ : List (List Byte))
    (hg : g.WF) (h₁ : g.InFlightPackets.Enumerates ks₁) (h₂ : g.InFlightPackets.Enumerates ks₂)
    (hsize : g.Size ks₁ < 2 ^ 63) :
    ∃ b, g.Marshal ks₁ ks₂ = .ok b ∧ b.length = g.Size ks₁ ∧
      g.Size ks₁ = 1 + g.Params.Size + sovGenesis g.Params.Size +
        (ks₁.map fun k =>
          1 + sovGenesis (1 + sovGenesis k.length + k.length + 1 +
                sovGenesis (g.InFlightPackets.index k).Size + (g.InFlightPackets.index k).Size)
            + (1 + sovGenesis k.length + k.length + 1 +
                sovGenesis (g.InFlightPackets.index k).Size + (g.InFlightPackets.index k).Size)).sum := by
  have _ := hsize
  have hr : g.InFlightPackets.Enumerates ks₂.reverse := (List.reverse_perm ks₂).trans h₂
  refine ⟨g.wire ks₂.reverse, genesis_Marshal_eq g hg ks₁ ks₂ h₁ h₂,
    (genesis_Size_eq g hg ks₁ ks₂.reverse h₁ hr).symm, ?_⟩
  have hps : g.Params.Size < 2 ^ 64 := by
    have := sovGenesis_le_ten (uint64 (C.Size g.Params.FeePercentage)) (uint64_lt _)
    have := hg.1.1
    simp only [Params.Size]; omega
  have hentry : ∀ k ∈ ks₁, entrySize k (g.InFlightPackets.index k)
      = 1 + sovGenesis (1 + sovGenesis k.length + k.length + 1 +
                sovGenesis (g.InFlightPackets.index k).Size + (g.InFlightPackets.index k).Size)
            + (1 + sovGenesis k.length + k.length + 1 +
                sovGenesis (g.InFlightPackets.index k).Size + (g.InFlightPackets.index k).Size) := by
    intro k hk
    obtain ⟨hkl, hv⟩ := packetMap_wf_of_enumerates _ hg.2 ks₁ h₁ k hk
    have hsz := packet_Size_le (g.InFlightPackets.index k)
    have hW := hv.1
    have s1 := sovGenesis_le_ten k.length (by omega)
    have s2 := sovGenesis_le_ten (g.InFlightPackets.index k).Size (by omega)
    have u1 : uint64 k.length = k.length := Nat.mod_eq_of_lt (by omega)
    have u2 : uint64 (g.InFlightPackets.index k).Size = (g.InFlightPackets.index k).Size :=
      Nat.mod_eq_of_lt (by omega)
    have e : 1 + k.length + sovGenesis k.length + 1 + (g.InFlightPackets.index k).Size +
        sovGenesis (g.InFlightPackets.index k).Size
        = 1 + sovGenesis k.length + k.length + 1 +
          sovGenesis (g.InFlightPackets.index k).Size + (g.InFlightPackets.index k).Size := by omega
    have u3 : uint64 (1 + sovGenesis k.length + k.length + 1 +
          sovGenesis (g.InFlightPackets.index k).Size + (g.InFlightPackets.index k).Size)
        = 1 + sovGenesis k.length + k.length + 1 +
          sovGenesis (g.InFlightPackets.index k).Size + (g.InFlightPackets.index k).Size :=
      Nat.mod_eq_of_lt (by omega)
    simp only [entrySize, u1, u2, e, u3]
    omega
  unfold GenesisState.Size
  simp only [uint64, Nat.mod_eq_of_lt hps]
  split_ifs with hl
  · rw [foldl_add_eq]
    congr 1
    exact congrArg List.sum (List.map_congr_left hentry)
  · rw [packetMap_enumerates_nil_of_len _ ks₁ h₁ hl]
    simp

/-- C20. Over-long varints are rejected: for every byte string whose first ten
bytes all have their high bit set, `InFlightPacket.Unmarshal` and
`GenesisState.Unmarshal`, into any receiver, return `ErrIntOverflowGenesis`. -/
theorem C20_overlong_varint_rejected {C : DecCodec} (b : List Byte) (m : InFlightPacket)
    (s : GenesisState C) (hlen : 10 ≤ b.length)
    (hhigh : ∀ i, i < 10 → ∃ x : Byte, b[i]? = some x ∧ 0x80 ≤ x.val) :
    (m.Unmarshal b).2 = some .ErrIntOverflowGenesis ∧
      (s.Unmarshal b).2 = some .ErrIntOverflowGenesis := by
  have hv := decodeVarint_overlong 64 b hlen hhigh
  obtain ⟨f, hf⟩ : ∃ f, b.length = f + 1 := ⟨b.length - 1, by omega⟩
  rcases hdv : decodeVarint 64 b b.length varintFuel 0 0 0 with ⟨x, r⟩
  rw [hdv] at hv
  simp only at hv
  subst hv
  constructor
  · unfold InFlightPacket.Unmarshal
    conv_lhs => arg 1; arg 3; rw [hf]
    unfold InFlightPacket.unmarshalLoop
    rw [if_pos (by omega)]
    unfold InFlightPacket.unmarshalField
    simp only [hdv]
  · unfold GenesisState.Unmarshal
    conv_lhs => arg 1; arg 3; rw [hf]
    unfold GenesisState.unmarshalLoop
    rw [if_pos (by omega)]
    unfold GenesisState.unmarshalField
    simp only [hdv]

/-- C14. Decoding is total and in bounds: for every byte string `b` (a Go slice,
shorter than `2^63`) and every receiver, `GenesisState.Unmarshal`,
`InFlightPacket.Unmarshal` and `skipGenesis` return `nil` or an error of the
source: no loop of the embedding runs out of fuel (each terminates within
`len(b)` rounds) and no index or slice expression leaves `0..len(b)` (no
run-time panic), the external decimal's `Unmarshal` being assumed to return
`nil` or an error as well. -/
theorem C14_decoding_total_in_bounds {C : DecCodec} (s : GenesisState C) (m : InFlightPacket)
    (b : List Byte) (hb : b.length < 2 ^ 63)
    (hc : ∀ (x : C.Dec) (bs : List Byte), ResultOK (C.Unmarshal x bs).2) :
    ((s.Unmarshal b).2 ≠ some .outOfFuel ∧ (s.Unmarshal b).2 ≠ some .indexOutOfRange) ∧
    ((m.Unmarshal b).2 ≠ some .outOfFuel ∧ (m.Unmarshal b).2 ≠ some .indexOutOfRange) ∧
    (skipGenesis b ≠ .error .outOfFuel ∧ skipGenesis b ≠ .error .indexOutOfRange) := by
  have hs : ResultOK (s.Unmarshal b).2 :=
    genesis_unmarshalLoop_safe hc b hb b.length s 0 (by omega) (by omega)
  have hm := packet_Unmarshal_safe m b hb
  have hk := skipGenesis_safe b hb
  refine ⟨⟨?_, ?_⟩, ⟨?_, ?_⟩, ⟨?_, ?_⟩⟩
  · intro h; have := hs _ h; simp [Err.returned] at this
  · intro h; have := hs _ h; simp [Err.returned] at this
  · intro h; have := hm _ h; simp [Err.returned] at this
  · intro h; have := hm _ h; simp [Err.returned] at this
  · intro h; rw [h] at hk; simp [Err.returned] at hk
  · intro h; rw [h] at hk; simp [Err.returned] at hk

/-- C19. Truncated records are rejected: for every record `m` a Go
`InFlightPacket` can hold, split the bytes of `Marshal(m)` inside one encoded
field `F = q ++ t`, after at least its tag byte (`q` not empty) and before its
last byte (`t` not empty); then `Unmarshal` of the prefix that ends with `q`,
into any receiver, returns `io.ErrUnexpectedEOF`. -/
theorem C19_truncated_record_rejected (m m₀ : InFlightPacket) (pre post : List (List Byte))
    (F q t : List Byte) (h : m.WF) (hfields : m.fieldsWire = pre ++ F :: post)
    (hF : F = q ++ t) (hq : q ≠ []) (ht : t ≠ []) :
    m.Marshal = .ok ((pre.flatten ++ q) ++ (t ++ post.flatten)) ∧
      (m₀.Unmarshal (pre.flatten ++ q)).2 = some .ErrUnexpectedEOF := by
  have henc := packet_fieldsWire_encoded m h
  have hwire : m.wire = (pre.flatten ++ q) ++ (t ++ post.flatten) := by
    rw [packet_wire_eq_flatten, hfields, hF]
    simp
  have hsz := packet_Size_le m
  have hwl := packet_wire_length m h
  have hW := h.1
  constructor
  · rw [packet_Marshal_eq m h, hwire]
  · have hlen : (pre.flatten ++ q).length + t.length < 2 ^ 63 := by
      have := congrArg List.length hwire
      rw [hwl] at this
      simp only [List.length_append] at this ⊢
      omega
    exact packet_unmarshalLoop_truncated (pre.flatten ++ q) F q t
      (henc F (by rw [hfields]; simp)) hF hq ht hlen pre
      (fun G hG => henc G (by rw [hfields]; simp [hG])) 0 m₀ _ (by simp) (by omega)

/-- C11, as amended. Retry decrements the counter when the new dispatch is
accepted. On a timeout or error for a key whose record has `r > 0` retries
left: if the transport accepts the new dispatch under a key other than the
notified one, the handler makes exactly one new call, a send of the same
packet, surfaces no failure, removes the old record and leaves under the new
key a record with `r - 1` retries, which is not negative, the same original
sender, refund channel and refund port, and a fresh timeout, and no other key
changes; if the transport refuses the dispatch, the store is unchanged (the
record keeps its `r` retries) and the dispatch failure is surfaced. Hence
over any sequence of notifications every record in the store descends from an
earlier record with the same sender and refund fields and at least as many
retries, and its counter is not negative if the earlier one was not. -/
theorem C11_retry_decrements_counter (ft : Nat) (st : Tracker) (env : Env) (n : Notification)
    (r : InFlightPacket) (kn : OutboundKey) (hs : st.store n.key = some r)
    (ho : n.outcome ≠ .Success) (hpos : 0 < r.RetriesRemaining) (hsend : env.send = some kn)
    (hfresh : kn ≠ n.key) :
    (outcomeHandler ft st env n).2 = none ∧
    (outcomeHandler ft st env n).1.calls = Call.send n.packet (some kn) :: st.calls ∧
    (outcomeHandler ft st env n).1.store n.key = none ∧
    (∃ r', (outcomeHandler ft st env n).1.store kn = some r' ∧
      r'.RetriesRemaining = r.RetriesRemaining - 1 ∧ 0 ≤ r'.RetriesRemaining ∧
      r'.OriginalSenderAddress = r.OriginalSenderAddress ∧
      r'.RefundChannelId = r.RefundChannelId ∧ r'.RefundPortId = r.RefundPortId ∧
      r'.Timeout = uint64 (env.now + ft)) ∧
    (∀ k, k ≠ kn → k ≠ n.key → (outcomeHandler ft st env n).1.store k = st.store k) ∧
    (∀ env₀ : Env, env₀.send = none →
      (outcomeHandler ft st env₀ n).2 = some .dispatchFailure ∧
      (outcomeHandler ft st env₀ n).1.store = st.store) ∧
    (∀ (events : List (Env × Notification)) (st₀ : Tracker) (k' : OutboundKey)
      (r' : InFlightPacket), (runHandler ft st₀ events).store k' = some r' →
      ∃ k r₀, st₀.store k = some r₀ ∧ r'.RetriesRemaining ≤ r₀.RetriesRemaining ∧
        (0 ≤ r₀.RetriesRemaining → 0 ≤ r'.RetriesRemaining) ∧
        r'.OriginalSenderAddress = r₀.OriginalSenderAddress ∧
        r'.RefundChannelId = r₀.RefundChannelId ∧ r'.RefundPortId = r₀.RefundPortId) := by
  refine ⟨?_, ?_, ?_, ?_, ?_, ?_, ?_⟩
  · rw [outcomeHandler_retry ft st env n r kn hs ho hpos hsend]
  · rw [outcomeHandler_retry ft st env n r kn hs ho hpos hsend]
  · rw [outcomeHandler_retry ft st env n r kn hs ho hpos hsend]
    exact storeDelete_self _ _
  · rw [outcomeHandler_retry ft st env n r kn hs ho hpos hsend]
    refine ⟨⟨r.OriginalSenderAddress, r.RefundChannelId, r.RefundPortId, r.RetriesRemaining - 1,
      uint64 (env.now + ft)⟩, ?_, rfl, ?_, rfl, rfl, rfl, rfl⟩
    · show storeDelete _ n.key kn = _
      rw [storeDelete_other _ _ _ hfresh, storePut_self]
    · show 0 ≤ r.RetriesRemaining - 1
      omega
  · rw [outcomeHandler_retry ft st env n r kn hs ho hpos hsend]
    intro k hk hk'
    show storeDelete _ n.key k = _
    rw [storeDelete_other _ _ _ hk', storePut_other _ _ _ _ hk]
  · intro env₀ h₀
    rw [outcomeHandler_retry_failed ft st env₀ n r hs ho hpos h₀]
    exact ⟨rfl, rfl⟩
  · intro events st₀ k' r' h
    exact runHandler_store_descends ft events st₀ k' r' h

/-- C12. On a timeout or error for a key whose record has no retries left, the
handler makes exactly one new call, a refund of the forwarded amount and
denomination to the record's original sender through its refund channel and
refund port, and no send; it removes the record, whether or not the refund
completes, changes no other key (so no new record is written), and surfaces a
failure exactly when the refund did not complete. -/
theorem C12_exhausted_retries_refund (ft : Nat) (st : Tracker) (env : Env) (n : Notification)
    (r : InFlightPacket) (hs : st.store n.key = some r) (ho : n.outcome ≠ .Success)
    (h0 : r.RetriesRemaining = 0) :
    (outcomeHandler ft st env n).1.calls =
      Call.refund r.OriginalSenderAddress r.RefundChannelId r.RefundPortId n.packet.amount
        n.packet.denom env.refundCompletes :: st.calls ∧
    (outcomeHandler ft st env n).1.store n.key = none ∧
    (∀ k, k ≠ n.key → (outcomeHandler ft st env n).1.store k = st.store k) ∧
    (outcomeHandler ft st env n).2 =
      (if env.refundCompletes then none else some .refundFailure) := by
  rw [outcomeHandler_exhausted ft st env n r hs ho (le_of_eq h0)]
  exact ⟨rfl, storeDelete_self _ _, fun k hk => storeDelete_other _ _ _ hk, rfl⟩

/-- C13. A notification of any outcome for a key that has no record returns the
state unchanged (no record written, no call to a collaborator that moves
funds) and surfaces no failure. Consequently a second delivery of a
notification, after a first delivery that did not fail to dispatch, has no
effect. -/
theorem C13_unknown_key_is_noop (ft : Nat) (st : Tracker) (env : Env) (n : Notification)
    (hs : st.store n.key = none) :
    outcomeHandler ft st env n = (st, none) ∧
    (∀ (st₁ : Tracker) (env₁ env₂ : Env),
      (outcomeHandler ft st₁ env₁ n).2 ≠ some .dispatchFailure →
      outcomeHandler ft (outcomeHandler ft st₁ env₁ n).1 env₂ n =
        ((outcomeHandler ft st₁ env₁ n).1, none)) := by
  refine ⟨outcomeHandler_absent ft st env n hs, ?_⟩
  intro st₁ env₁ env₂ hok
  exact outcomeHandler_absent ft _ env₂ n (outcomeHandler_consumes ft st₁ env₁ n hok)

/-- C21, as amended. The overflow is reported by length, not by value: for
every receiver and every varint `vs` after the tag `0x28` of the Timeout field,
if `vs` has at most ten bytes then `Unmarshal(0x28 :: vs)` returns `nil` and
stores the number `vs` denotes modulo `2^64` (so a ten-byte varint denoting
`2^64` or more is stored truncated), and if `vs` has more than ten bytes then
`Unmarshal`, whatever bytes follow, returns `ErrIntOverflowGenesis`. -/
theorem C21_overflow_reported_past_ten_bytes (m : InFlightPacket) (vs rest : List Byte)
    (hv : isVarint vs = true) :
    (vs.length ≤ 10 →
      m.Unmarshal ((0x28 : Byte) :: vs) = ({ m with Timeout := varintValue vs % 2 ^ 64 }, none)) ∧
    (10 < vs.length →
      (m.Unmarshal ((0x28 : Byte) :: vs ++ rest)).2 = some .ErrIntOverflowGenesis) := by
  constructor
  · intro hl
    have hd : ((0x28 : Byte) :: vs).drop 0 = (0x28 : Byte) :: vs ++ [] := by simp
    unfold InFlightPacket.Unmarshal
    refine packet_unmarshalLoop_field _ m _ 0 ((0x28 : Byte) :: vs) [] _ hd
      (fun _ => packet_unmarshalField_5_isVarint m _ 0 vs [] hv hl hd) (fun h => by cases h)
      (fun _ fuel _ => ?_) _ (by omega)
    rw [Nat.zero_add]
    exact packet_unmarshalLoop_end _ fuel _
  · intro hl
    have hd : ((0x28 : Byte) :: vs ++ rest).drop 0 = (0x28 : Byte) :: vs ++ rest := by simp
    have h := packet_unmarshalField_5_long m _ 0 vs rest hv hl hd
    rcases hu : m.unmarshalField ((0x28 : Byte) :: vs ++ rest)
      ((0x28 : Byte) :: vs ++ rest).length 0 with ⟨m', r⟩
    rw [hu] at h
    simp only at h
    subst h
    rw [packet_Unmarshal_first_error m _ (by simp) m' _ hu]

/-- C22. Wrong wire types are rejected: for every field number `f` in 1..5, every
wire type `wt` other than the declared one, every varint `vs` that denotes the
tag `8 * f + wt` and every receiver, `Unmarshal` of any input beginning with
`vs` leaves the receiver as it was and returns an error: the end-group error
for wire type 4, the wrong-wire-type error for `f` otherwise, and the overflow
error when the tag is spelt with more than ten bytes. -/
theorem C22_wrong_wire_type_rejected (m : InFlightPacket) (f wt : Nat) (vs rest : List Byte)
    (hf : 1 ≤ f ∧ f ≤ 5) (hwt : wt < 8) (hne : wt ≠ declaredWireType f)
    (hv : isVarint vs = true) (hval : varintValue vs = 8 * f + wt) :
    m.Unmarshal (vs ++ rest) =
      (m, some (if 10 < vs.length then .ErrIntOverflowGenesis
        else if wt = 4 then .endGroupForNonGroup else .wrongWireType wt f)) := by
  have hne0 : vs ++ rest ≠ [] := by
    intro h
    rw [List.append_eq_nil] at h
    rw [h.1] at hv
    simp [isVarint] at hv
  exact packet_Unmarshal_first_error m _ hne0 m _
    (packet_unmarshalField_wrong_wire m _ vs rest f wt hf hwt hne hv hval rfl)

set_option maxRecDepth 100000

/-- Witness of C1: the two-entry snapshot, `Size` ranging in one order and
`MarshalToSizedBuffer` in the other. -/
theorem C1_snapshot_round_trip_witness :
    exGenesis.WF ∧ textDec.RoundTrips exGenesis.Params.FeePercentage ∧
    exGenesis.InFlightPackets.Enumerates [[7], [8, 9]] ∧
    exGenesis.InFlightPackets.Enumerates [[8, 9], [7]] ∧
    exGenesis.Size [[7], [8, 9]] < 2 ^ 63 ∧
    ∃ b, exGenesis.Marshal [[7], [8, 9]] [[8, 9], [7]] = .ok b ∧
      ((GenesisState.zero textDec).Unmarshal b).2 = none ∧
      ((GenesisState.zero textDec).Unmarshal b).1.Params.FeePercentage = exGenesis.Params.FeePercentage ∧
      ((GenesisState.zero textDec).Unmarshal b).1.InFlightPackets.keys.Perm exGenesis.InFlightPackets.keys ∧
      ∀ k, ((GenesisState.zero textDec).Unmarshal b).1.InFlightPackets.get k
        = exGenesis.InFlightPackets.get k :=
  ⟨exGenesis_wf, textDec_roundTrips _, exGenesis_enum, exGenesis_enum_swap, by decide,
    C1_snapshot_round_trip exGenesis [[7], [8, 9]] [[8, 9], [7]] exGenesis_wf (textDec_roundTrips _)
      exGenesis_enum exGenesis_enum_swap (by decide)⟩

/-- Witness of C2: a record with a negative counter. -/
theorem C2_record_round_trip_witness :
    exPacket.WF ∧ ∃ b, exPacket.Marshal = .ok b ∧ InFlightPacket.zero.Unmarshal b = (exPacket, none) :=
  ⟨exPacket_wf, C2_record_round_trip exPacket exPacket_wf⟩

/-- Counterexample to C3 as stated: a byte string with two entries under the key
`[7]` is accepted, and the later record is the one kept. -/
theorem C3_counterexample :
    dupBytes = snapshotWire (⟨[0x30]⟩ : Params textDec) [([7], InFlightPacket.zero), ([7], exLater)] ∧
    ((GenesisState.zero textDec).Unmarshal dupBytes).2 = none ∧
    ((GenesisState.zero textDec).Unmarshal dupBytes).1.InFlightPackets.get [7] = some exLater :=
  ⟨by decide, by decide, by decide⟩

/-- Witness of C3 as amended: the two entries of the counterexample, imported
into a receiver that already holds an entry. -/
theorem C3_duplicate_keys_last_wins_witness :
    textDec.Marshals ([0x30] : List Byte) ∧
    (∀ e ∈ ([] : List (List Byte × InFlightPacket)) ++ ([7], InFlightPacket.zero) :: [] ++
      ([7], exLater) :: [], e.2.WF) ∧
    (∀ e ∈ ([] : List (List Byte × InFlightPacket)), e.1 ≠ [7]) ∧
    (snapshotWire (⟨[0x30]⟩ : Params textDec)
      ([] ++ ([7], InFlightPacket.zero) :: [] ++ ([7], exLater) :: [])).length < 2 ^ 63 ∧
    (textDec.Unmarshal exPrior.Params.FeePercentage (textDec.text ([0x30] : List Byte))).2 = none ∧
    (exPrior.Unmarshal (snapshotWire (⟨[0x30]⟩ : Params textDec)
      ([] ++ ([7], InFlightPacket.zero) :: [] ++ ([7], exLater) :: []))).2 = none ∧
    (exPrior.Unmarshal (snapshotWire (⟨[0x30]⟩ : Params textDec)
      ([] ++ ([7], InFlightPacket.zero) :: [] ++ ([7], exLater) :: []))).1.InFlightPackets.get [7]
        = some exLater :=
  ⟨textDec_marshals _ (by decide), exDup_wf, by simp, by decide, rfl,
    C3_duplicate_keys_last_wins exPrior ⟨[0x30]⟩ [7] InFlightPacket.zero exLater [] [] []
      (textDec_marshals _ (by decide)) exDup_wf (by simp) (by decide) rfl⟩

/-- Counterexample to C4 as stated: `Unmarshal` of a valid entry followed by a
cut-off tag returns an error and leaves the decoded entry in the receiver. -/
theorem C4_counterexample :
    ((GenesisState.zero textDec).Unmarshal truncBytes).2 = some Err.ErrUnexpectedEOF ∧
    (GenesisState.zero textDec).InFlightPackets.get [] = none ∧
    ((GenesisState.zero textDec).Unmarshal truncBytes).1.InFlightPackets.get [] = some InFlightPacket.zero :=
  ⟨by decide, by decide, by decide⟩

/-- Witness of C4 as amended: the failed call on a receiver that holds the key `[9]`. -/
theorem C4_failed_import_keeps_keys_witness :
    (exPrior.Unmarshal truncBytes).2 = some Err.ErrUnexpectedEOF ∧
    (exPrior.InFlightPackets.get [9]).isSome ∧
    ((exPrior.Unmarshal truncBytes).1.InFlightPackets.get [9]).isSome :=
  ⟨by decide, by decide,
    C4_failed_import_keeps_keys exPrior truncBytes [9] Err.ErrUnexpectedEOF (by decide) (by decide)⟩

/-- Counterexample to C5 as stated: after a successful import of a snapshot that
holds only the key `[7]`, the key `[9]` of the receiver is still there. -/
theorem C5_counterexample :
    ∃ b, exGenesisOne.Marshal [[7]] [[7]] = .ok b ∧ (exPrior.Unmarshal b).2 = none ∧
      exGenesisOne.InFlightPackets.get [9] = none ∧
      (exPrior.Unmarshal b).1.InFlightPackets.get [9] = some InFlightPacket.zero :=
  ⟨exOneBytes, by rfl, by decide, by decide, by decide⟩

/-- Witness of C5 as amended: the import of the counterexample. -/
theorem C5_import_merges_witness :
    exGenesisOne.WF ∧ exGenesisOne.InFlightPackets.Enumerates [[7]] ∧ exGenesisOne.Size [[7]] < 2 ^ 63 ∧
    exGenesisOne.Marshal [[7]] [[7]] = .ok exOneBytes ∧ (exPrior.Unmarshal exOneBytes).2 = none ∧
    ∀ k, (exPrior.Unmarshal exOneBytes).1.InFlightPackets.get k
      = (exGenesisOne.InFlightPackets.get k).or (exPrior.InFlightPackets.get k) :=
  ⟨exGenesisOne_wf, exGenesisOne_enum, by decide, by rfl, by decide,
    C5_import_merges exPrior exGenesisOne [[7]] [[7]] exOneBytes exGenesisOne_wf exGenesisOne_enum
      exGenesisOne_enum (by decide) (by rfl) (by decide)⟩

/-- Witness of C6: the two-entry snapshot. -/
theorem C6_export_enumerates_once_witness :
    (exGenesis.WF ∧ exGenesis.InFlightPackets.Enumerates [[7], [8, 9]] ∧
      exGenesis.InFlightPackets.Enumerates [[8, 9], [7]] ∧
      exGenesis.Size [[7], [8, 9]] < 2 ^ 63) ∧
    ∃ ks : List (List Byte), ks.Perm exGenesis.InFlightPackets.keys ∧ ks.Nodup ∧
      ks.length = exGenesis.InFlightPackets.len ∧
      exGenesis.Marshal [[7], [8, 9]] [[8, 9], [7]]
        = .ok (((0x0a : Byte) :: varint exGenesis.Params.wire.length ++ exGenesis.Params.wire) ++
          (ks.map fun k => entryWire k (exGenesis.InFlightPackets.index k)).flatten) :=
  ⟨⟨exGenesis_wf, exGenesis_enum, exGenesis_enum_swap, by decide⟩,
    C6_export_enumerates_once exGenesis [[7], [8, 9]] [[8, 9], [7]] exGenesis_wf exGenesis_enum
      exGenesis_enum_swap (by decide)⟩

/-- Counterexample to C7 as stated: the two orders of a two-entry map give
different bytes. -/
theorem C7_counterexample :
    exGenesis.InFlightPackets.Enumerates [[7], [8, 9]] ∧
    exGenesis.InFlightPackets.Enumerates [[8, 9], [7]] ∧
    ∃ b b', exGenesis.Marshal [[7], [8, 9]] [[7], [8, 9]] = .ok b ∧
      exGenesis.Marshal [[7], [8, 9]] [[8, 9], [7]] = .ok b' ∧ b ≠ b' :=
  ⟨exGenesis_enum, exGenesis_enum_swap,
    [10, 3, 10, 1, 48, 18, 6, 10, 2, 8, 9, 18, 0, 18, 26, 10, 1, 7, 18, 21, 10, 2, 1, 2, 26, 1, 3, 32,
      255, 255, 255, 255, 255, 255, 255, 255, 255, 1, 40, 172, 2],
    [10, 3, 10, 1, 48, 18, 26, 10, 1, 7, 18, 21, 10, 2, 1, 2, 26, 1, 3, 32, 255, 255, 255, 255, 255,
      255, 255, 255, 255, 1, 40, 172, 2, 18, 6, 10, 2, 8, 9, 18, 0],
    by rfl, by rfl, by decide⟩

/-- Witness of C7 as amended: the two-entry snapshot, exported in its two
orders. -/
theorem C7_export_up_to_order_witness :
    (exGenesis.WF ∧ exGenesis.InFlightPackets.Enumerates [[7], [8, 9]] ∧
      exGenesis.InFlightPackets.Enumerates [[8, 9], [7]] ∧
      exGenesis.Size [[7], [8, 9]] < 2 ^ 63) ∧
    exGenesis.Size [[8, 9], [7]] = exGenesis.Size [[7], [8, 9]] ∧
    exGenesis.Marshal [[7], [8, 9]] [[7], [8, 9]]
      = .ok (((0x0a : Byte) :: varint exGenesis.Params.wire.length ++ exGenesis.Params.wire) ++
        ((([[7], [8, 9]] : List (List Byte)).reverse).map fun k =>
          entryWire k (exGenesis.InFlightPackets.index k)).flatten) ∧
    exGenesis.Marshal [[8, 9], [7]] [[8, 9], [7]]
      = .ok (((0x0a : Byte) :: varint exGenesis.Params.wire.length ++ exGenesis.Params.wire) ++
        ((([[8, 9], [7]] : List (List Byte)).reverse).map fun k =>
          entryWire k (exGenesis.InFlightPackets.index k)).flatten) ∧
    ((([[7], [8, 9]] : List (List Byte)).reverse).map fun k =>
        entryWire k (exGenesis.InFlightPackets.index k)).Perm
      ((([[8, 9], [7]] : List (List Byte)).reverse).map fun k =>
        entryWire k (exGenesis.InFlightPackets.index k)) ∧
    exGenesis.Marshal [[8, 9], [7]] [[7], [8, 9]] = exGenesis.Marshal [[7], [8, 9]] [[7], [8, 9]] :=
  ⟨⟨exGenesis_wf, exGenesis_enum, exGenesis_enum_swap, by decide⟩,
    C7_export_up_to_order exGenesis [[7], [8, 9]] [[7], [8, 9]] [[8, 9], [7]] [[8, 9], [7]]
      exGenesis_wf exGenesis_enum exGenesis_enum exGenesis_enum_swap exGenesis_enum_swap
      (by decide)⟩

/-- Counterexample to C8 as stated: field 4 holding the varint of `2 ^ 32 - 1`
decodes without error to `RetriesRemaining = -1`. -/
theorem C8_counterexample :
    InFlightPacket.zero.Unmarshal negBytes = (⟨[], [], [], -1, 0⟩, none) ∧
    ¬ (0 ≤ (InFlightPacket.zero.Unmarshal negBytes).1.RetriesRemaining) :=
  ⟨by decide, by decide⟩

/-- Witness of C8 as amended. -/
theorem C8_retries_is_int32_witness :
    (InFlightPacket.zero.Unmarshal negBytes).2 = none ∧
    (-(2 : Int) ^ 31 ≤ (InFlightPacket.zero.Unmarshal negBytes).1.RetriesRemaining ∧
      (InFlightPacket.zero.Unmarshal negBytes).1.RetriesRemaining < 2 ^ 31) :=
  ⟨by decide, C8_retries_is_int32 negBytes (by decide)⟩

/-- Witness of C9: the record with a negative counter. -/
theorem C9_record_wire_layout_witness :
    exPacket.WF ∧
    (exPacket.Marshal = .ok (
      (if exPacket.OriginalSenderAddress.length > 0 then
        (0x0a : Byte) :: varint exPacket.OriginalSenderAddress.length ++ exPacket.OriginalSenderAddress
        else []) ++
      (if exPacket.RefundChannelId.length > 0 then
        (0x12 : Byte) :: varint exPacket.RefundChannelId.length ++ exPacket.RefundChannelId else []) ++
      (if exPacket.RefundPortId.length > 0 then
        (0x1a : Byte) :: varint exPacket.RefundPortId.length ++ exPacket.RefundPortId else []) ++
      (if exPacket.RetriesRemaining ≠ 0 then
        (0x20 : Byte) :: varint (uint64OfInt exPacket.RetriesRemaining) else []) ++
      (if exPacket.Timeout ≠ 0 then (0x28 : Byte) :: varint exPacket.Timeout else []))
    ∧ InFlightPacket.zero.Marshal = .ok []) :=
  ⟨exPacket_wf, C9_record_wire_layout exPacket exPacket_wf⟩

/-- Witness of C10: amount 1000 at the rate 0.01. -/
theorem C10_fee_conservation_witness :
    (0 : Int) ≤ 1000 ∧ 10 ^ 16 < 10 ^ 18 ∧
    ((computeFee (10 ^ 18) 1000 (10 ^ 16)).1
        = ⌊((1000 : Int) : ℚ) * (((10 ^ 16 : Nat) : ℚ) / ((10 ^ 18 : Nat) : ℚ))⌋ ∧
      (computeFee (10 ^ 18) 1000 (10 ^ 16)).1 + (computeFee (10 ^ 18) 1000 (10 ^ 16)).2 = 1000 ∧
      0 ≤ (computeFee (10 ^ 18) 1000 (10 ^ 16)).1 ∧ 0 ≤ (computeFee (10 ^ 18) 1000 (10 ^ 16)).2 ∧
      computeFee (10 ^ 18) 1000 (10 ^ 16) = (10, 990)) :=
  ⟨by decide, by decide, C10_fee_conservation (10 ^ 18) 1000 (10 ^ 16) (by decide) (by decide)⟩

/-- Counterexample to C11 as stated: the record has two retries left and the
transport refuses the new dispatch; the failure is surfaced, the store is as
it was, and every record in it still has two retries, none has one. -/
theorem C11_counterexample :
    (exTracker 2).store exTimeout.key = some (exRecord 2) ∧
    (exRecord 2).RetriesRemaining = 2 ∧ exTimeout.outcome = .Timeout ∧
    (outcomeHandler 50 (exTracker 2) exEnvRefused exTimeout).2 = some .dispatchFailure ∧
    (outcomeHandler 50 (exTracker 2) exEnvRefused exTimeout).1.store exTimeout.key
      = some (exRecord 2) ∧
    (∀ k r', (outcomeHandler 50 (exTracker 2) exEnvRefused exTimeout).1.store k = some r' →
      r'.RetriesRemaining = 2) :=
  ⟨by decide, by decide, by decide, by decide, by decide, fun k r' h => by
    have h' : (if k = exKey then some (exRecord 2) else none) = some r' := h
    by_cases hk : k = exKey
    · rw [if_pos hk] at h'
      cases h'
      rfl
    · rw [if_neg hk] at h'
      cases h'⟩

/-- Witness of C11 as amended: a timeout for a record with two retries left, the
transport accepting the dispatch under the next key. -/
theorem C11_retry_decrements_counter_witness :
    ((exTracker 2).store exTimeout.key = some (exRecord 2) ∧ exTimeout.outcome ≠ .Success ∧
      0 < (exRecord 2).RetriesRemaining ∧ exEnv.send = some exKeyNext ∧
      exKeyNext ≠ exTimeout.key) ∧
    (outcomeHandler 50 (exTracker 2) exEnv exTimeout).2 = none ∧
    (outcomeHandler 50 (exTracker 2) exEnv exTimeout).1.calls
      = Call.send exTimeout.packet (some exKeyNext) :: (exTracker 2).calls ∧
    (outcomeHandler 50 (exTracker 2) exEnv exTimeout).1.store exTimeout.key = none ∧
    (∃ r', (outcomeHandler 50 (exTracker 2) exEnv exTimeout).1.store exKeyNext = some r' ∧
      r'.RetriesRemaining = (exRecord 2).RetriesRemaining - 1 ∧ 0 ≤ r'.RetriesRemaining ∧
      r'.OriginalSenderAddress = (exRecord 2).OriginalSenderAddress ∧
      r'.RefundChannelId = (exRecord 2).RefundChannelId ∧
      r'.RefundPortId = (exRecord 2).RefundPortId ∧
      r'.Timeout = uint64 (exEnv.now + 50)) ∧
    (∀ k, k ≠ exKeyNext → k ≠ exTimeout.key →
      (outcomeHandler 50 (exTracker 2) exEnv exTimeout).1.store k = (exTracker 2).store k) ∧
    (∀ env₀ : Env, env₀.send = none →
      (outcomeHandler 50 (exTracker 2) env₀ exTimeout).2 = some .dispatchFailure ∧
      (outcomeHandler 50 (exTracker 2) env₀ exTimeout).1.store = (exTracker 2).store) ∧
    (∀ (events : List (Env × Notification)) (st₀ : Tracker) (k' : OutboundKey)
      (r' : InFlightPacket), (runHandler 50 st₀ events).store k' = some r' →
      ∃ k r₀, st₀.store k = some r₀ ∧ r'.RetriesRemaining ≤ r₀.RetriesRemaining ∧
        (0 ≤ r₀.RetriesRemaining → 0 ≤ r'.RetriesRemaining) ∧
        r'.OriginalSenderAddress = r₀.OriginalSenderAddress ∧
        r'.RefundChannelId = r₀.RefundChannelId ∧ r'.RefundPortId = r₀.RefundPortId) :=
  ⟨⟨by decide, by decide, by decide, rfl, by decide⟩,
    C11_retry_decrements_counter 50 (exTracker 2) exEnv exTimeout (exRecord 2) exKeyNext
      (by decide) (by decide) (by decide) rfl (by decide)⟩

/-- Witness of C12: a timeout for a record with no retries left. -/
theorem C12_exhausted_retries_refund_witness :
    ((exTracker 0).store exTimeout.key = some (exRecord 0) ∧ exTimeout.outcome ≠ .Success ∧
      (exRecord 0).RetriesRemaining = 0) ∧
    (outcomeHandler 50 (exTracker 0) exEnv exTimeout).1.calls =
      Call.refund (exRecord 0).OriginalSenderAddress (exRecord 0).RefundChannelId
        (exRecord 0).RefundPortId exTimeout.packet.amount exTimeout.packet.denom
        exEnv.refundCompletes :: (exTracker 0).calls ∧
    (outcomeHandler 50 (exTracker 0) exEnv exTimeout).1.store exTimeout.key = none ∧
    (∀ k, k ≠ exTimeout.key →
      (outcomeHandler 50 (exTracker 0) exEnv exTimeout).1.store k = (exTracker 0).store k) ∧
    (outcomeHandler 50 (exTracker 0) exEnv exTimeout).2 =
      (if exEnv.refundCompletes then none else some .refundFailure) :=
  ⟨⟨by decide, by decide, rfl⟩,
    C12_exhausted_retries_refund 50 (exTracker 0) exEnv exTimeout (exRecord 0)
      (by decide) (by decide) rfl⟩

/-- Witness of C13: an error notification for a key the store does not hold. -/
theorem C13_unknown_key_is_noop_witness :
    (exTracker 1).store (⟨exKeyNext, .Error, exTransfer⟩ : Notification).key = none ∧
    outcomeHandler 50 (exTracker 1) exEnv ⟨exKeyNext, .Error, exTransfer⟩ = (exTracker 1, none) ∧
    (∀ (st₁ : Tracker) (env₁ env₂ : Env),
      (outcomeHandler 50 st₁ env₁ ⟨exKeyNext, .Error, exTransfer⟩).2 ≠ some .dispatchFailure →
      outcomeHandler 50 (outcomeHandler 50 st₁ env₁ ⟨exKeyNext, .Error, exTransfer⟩).1 env₂
          ⟨exKeyNext, .Error, exTransfer⟩ =
        ((outcomeHandler 50 st₁ env₁ ⟨exKeyNext, .Error, exTransfer⟩).1, none)) :=
  ⟨by decide, C13_unknown_key_is_noop 50 (exTracker 1) exEnv ⟨exKeyNext, .Error, exTransfer⟩
    (by decide)⟩

/-- Witness of C14: the codec of the examples and a six-byte input. -/
theorem C14_decoding_total_in_bounds_witness :
    (negBytes.length < 2 ^ 63 ∧
      ∀ (x : textDec.Dec) (bs : List Byte), ResultOK (textDec.Unmarshal x bs).2) ∧
    ((exGenesis.Unmarshal negBytes).2 ≠ some .outOfFuel ∧
      (exGenesis.Unmarshal negBytes).2 ≠ some .indexOutOfRange) ∧
    ((exPacket.Unmarshal negBytes).2 ≠ some .outOfFuel ∧
      (exPacket.Unmarshal negBytes).2 ≠ some .indexOutOfRange) ∧
    (skipGenesis negBytes ≠ .error .outOfFuel ∧ skipGenesis negBytes ≠ .error .indexOutOfRange) :=
  ⟨⟨by decide, fun _ _ _ h => Option.noConfusion h⟩,
    C14_decoding_total_in_bounds exGenesis exPacket negBytes (by decide)
      (fun _ _ _ h => Option.noConfusion h)⟩

/-- Witness of C15: the record of the examples and a buffer of its 21 bytes. -/
theorem C15_record_size_agrees_witness :
    (exPacket.WF ∧ (List.replicate 21 (0 : Byte)).length = exPacket.Size) ∧
    exPacket.MarshalToSizedBuffer (List.replicate 21 0) = .ok (exPacket.wire, (exPacket.Size : Int)) ∧
    exPacket.wire.length = (List.replicate 21 (0 : Byte)).length ∧
    ∃ b, exPacket.Marshal = .ok b ∧ b.length = exPacket.Size :=
  ⟨⟨exPacket_wf, by decide⟩, C15_record_size_agrees exPacket (List.replicate 21 0) exPacket_wf (by decide)⟩

/-- Witness of C16: the two-entry snapshot, sized in one order and written in the
other. -/
theorem C16_snapshot_size_agrees_witness :
    (exGenesis.WF ∧ exGenesis.InFlightPackets.Enumerates [[7], [8, 9]] ∧
      exGenesis.InFlightPackets.Enumerates [[8, 9], [7]] ∧
      exGenesis.Size [[7], [8, 9]] < 2 ^ 63) ∧
    ∃ b, exGenesis.Marshal [[7], [8, 9]] [[8, 9], [7]] = .ok b ∧
      b.length = exGenesis.Size [[7], [8, 9]] ∧
      exGenesis.Size [[7], [8, 9]] = 1 + exGenesis.Params.Size + sovGenesis exGenesis.Params.Size +
        (([[7], [8, 9]] : List (List Byte)).map fun k =>
          1 + sovGenesis (1 + sovGenesis k.length + k.length + 1 +
                sovGenesis (exGenesis.InFlightPackets.index k).Size +
                (exGenesis.InFlightPackets.index k).Size)
            + (1 + sovGenesis k.length + k.length + 1 +
                sovGenesis (exGenesis.InFlightPackets.index k).Size +
                (exGenesis.InFlightPackets.index k).Size)).sum :=
  ⟨⟨exGenesis_wf, exGenesis_enum, exGenesis_enum_swap, by decide⟩,
    C16_snapshot_size_agrees exGenesis [[7], [8, 9]] [[8, 9], [7]] exGenesis_wf exGenesis_enum
      exGenesis_enum_swap (by decide)⟩

/-- Witness of C17: the two bytes of 300 written below offset 3 of a four-byte
buffer. -/
theorem C17_encodeVarint_in_place_witness :
    (300 < 2 ^ 64 ∧ sovGenesis 300 ≤ 3 ∧ 3 ≤ exBuffer.length) ∧
    ∃ d' : List Byte,
      encodeVarintGenesis exBuffer ((3 : Nat) : Int) 300
        = .ok (d', ((3 - sovGenesis 300 : Nat) : Int)) ∧
      d'.length = exBuffer.length ∧
      (∀ j, j < sovGenesis 300 → ∃ b : Byte, d'[3 - sovGenesis 300 + j]? = some b ∧
        b.val = (300 / 128 ^ j) % 128 + if j + 1 < sovGenesis 300 then 128 else 0) ∧
      (∀ i, i < 3 - sovGenesis 300 ∨ 3 ≤ i → d'[i]? = exBuffer[i]?) :=
  ⟨⟨by decide, by decide, by decide⟩,
    C17_encodeVarint_in_place exBuffer 300 3 (by decide) (by decide) (by decide)⟩

/-- Witness of C18: the value 300 takes two bytes. -/
theorem C18_sovGenesis_is_varint_length_witness :
    300 < 2 ^ 64 ∧
    (1 ≤ sovGenesis 300 ∧ 300 < 2 ^ (7 * sovGenesis 300) ∧
      (∀ n, 1 ≤ n → 300 < 2 ^ (7 * n) → sovGenesis 300 ≤ n) ∧
      sovGenesis 300 ≤ 10 ∧
      sovGenesis 0 = 1 ∧ sovGenesis 127 = 1 ∧ sovGenesis 128 = 2) :=
  ⟨by decide, C18_sovGenesis_is_varint_length 300 (by decide)⟩

/-- Witness of C19: the record of the examples, cut inside its third field,
after the length byte and before the one byte of the refund port. -/
theorem C19_truncated_record_rejected_witness :
    (exPacket.WF ∧
      exPacket.fieldsWire = [[0x0a, 2, 1, 2], []] ++ [0x1a, 1, 3] ::
        [[0x20, 0xff, 0xff, 0xff, 0xff, 0xff, 0xff, 0xff, 0xff, 0xff, 0x01], [0x28, 0xac, 0x02]] ∧
      ([0x1a, 1, 3] : List Byte) = [0x1a, 1] ++ [3] ∧ ([0x1a, 1] : List Byte) ≠ [] ∧
      ([3] : List Byte) ≠ []) ∧
    exPacket.Marshal = .ok ((([[0x0a, 2, 1, 2], []] : List (List Byte)).flatten ++ [0x1a, 1]) ++
      ([3] ++ ([[0x20, 0xff, 0xff, 0xff, 0xff, 0xff, 0xff, 0xff, 0xff, 0xff, 0x01],
        [0x28, 0xac, 0x02]] : List (List Byte)).flatten)) ∧
    (InFlightPacket.zero.Unmarshal
      (([[0x0a, 2, 1, 2], []] : List (List Byte)).flatten ++ [0x1a, 1])).2
        = some .ErrUnexpectedEOF :=
  ⟨⟨exPacket_wf, by decide, rfl, by decide, by decide⟩,
    C19_truncated_record_rejected exPacket InFlightPacket.zero [[0x0a, 2, 1, 2], []]
      [[0x20, 0xff, 0xff, 0xff, 0xff, 0xff, 0xff, 0xff, 0xff, 0xff, 0x01], [0x28, 0xac, 0x02]]
      [0x1a, 1, 3] [0x1a, 1] [3] exPacket_wf (by decide) rfl (by decide) (by decide)⟩

/-- Witness of C20: ten bytes with the high bit set, into the record and the
snapshot of the examples. -/
theorem C20_overlong_varint_rejected_witness :
    (10 ≤ overlongBytes.length ∧
      ∀ i, i < 10 → ∃ x : Byte, overlongBytes[i]? = some x ∧ 0x80 ≤ x.val) ∧
    (exPacket.Unmarshal overlongBytes).2 = some .ErrIntOverflowGenesis ∧
    (exGenesis.Unmarshal overlongBytes).2 = some .ErrIntOverflowGenesis :=
  ⟨⟨by decide, by decide⟩,
    C20_overlong_varint_rejected overlongBytes exPacket exGenesis (by decide) (by decide)⟩

/-- Counterexample to C21 as stated: the ten-byte varint after the tag `0x28`
denotes `2^64 + 1`, and `Unmarshal` returns `nil` and stores the Timeout 1. -/
theorem C21_counterexample :
    wideTimeoutBytes.head? = some 0x28 ∧ isVarint wideTimeoutBytes.tail = true ∧
    varintValue wideTimeoutBytes.tail = 2 ^ 64 + 1 ∧
    (InFlightPacket.zero.Unmarshal wideTimeoutBytes).2 = none ∧
    (InFlightPacket.zero.Unmarshal wideTimeoutBytes).1.Timeout = 1 :=
  ⟨by decide, by decide, by decide, by decide, by decide⟩

/-- Witness of C21 as amended: the ten-byte varint of the counterexample, into
the record of the examples. -/
theorem C21_overflow_reported_past_ten_bytes_witness :
    isVarint wideTimeoutBytes.tail = true ∧
    (wideTimeoutBytes.tail.length ≤ 10 →
      exPacket.Unmarshal ((0x28 : Byte) :: wideTimeoutBytes.tail)
        = ({ exPacket with Timeout := varintValue wideTimeoutBytes.tail % 2 ^ 64 }, none)) ∧
    (10 < wideTimeoutBytes.tail.length →
      (exPacket.Unmarshal ((0x28 : Byte) :: wideTimeoutBytes.tail ++ [0x00])).2
        = some .ErrIntOverflowGenesis) :=
  ⟨by decide, C21_overflow_reported_past_ten_bytes exPacket wideTimeoutBytes.tail [0x00] (by decide)⟩

/-- Witness of C22: the tag of field 1 with wire type 5, then a zero byte. -/
theorem C22_wrong_wire_type_rejected_witness :
    ((1 ≤ 1 ∧ 1 ≤ 5) ∧ 5 < 8 ∧ 5 ≠ declaredWireType 1 ∧ isVarint [0x0d] = true ∧
      varintValue [0x0d] = 8 * 1 + 5) ∧
    exPacket.Unmarshal ([0x0d] ++ [0x00]) =
      (exPacket, some (if 10 < ([0x0d] : List Byte).length then .ErrIntOverflowGenesis
        else if 5 = 4 then .endGroupForNonGroup else .wrongWireType 5 1)) :=
  ⟨⟨by decide, by decide, by decide, by decide, by decide⟩,
    C22_wrong_wire_type_rejected exPacket 1 5 [0x0d] [0x00] (by decide) (by decide) (by decide)
      (by decide) (by decide)⟩

end PFM
